import Mathlib

/-!
# System Scheduler Simulator: embedding and verification

A shallow embedding of `src/SystemSchedulerSimulator.cpp` (FCFS, SRTF,
preemptive priority and Round Robin over a vector of `Process` records) and
theorems about it.

Modelling conventions.
* `int` values are integers (`Int`), `INT_MAX` and `INT_MIN` are the 32-bit
  constants.  Where an accepted input makes an `int` operation leave the 32-bit
  range at once, the operation is followed by `wrapInt`, the value the
  two's-complement target stores: `currentTime += p.burstTime` of `FCFS`
  (line 52, after an idle gap that is not recorded) and the subtractions and
  the `int` sum of the metrics code (lines 62-64).  In the three `while` loops
  `currentTime` grows with the Gantt vector, one entry per unit, and the model
  keeps the exact value.
* `std::vector<Process>` is `List Process`; `v[i]` is `List.getD v i default`
  and `v[i] = x` is `List.set`.  Every index the code uses is in range.
* A `while` loop is its body (`*_step`) iterated under its condition; `whileFuel`
  runs it with a bound on the number of iterations and returns `none` when the
  bound is reached with the condition still true.
* `executeProcess` is modelled by its effect on the process record
  (`remainingTime -= execTime`); console output and the sleep are not modelled.
* Index `-1` (no process selected) is `none : Option Nat`.
* Gantt entry `0` is the idle marker, as in the source.
* Console input is a list of entries, one per line: `some x` when `std::cin >> x`
  extracts the integer `x`, `none` when the extraction fails.  The quotients of
  the metrics code are `double` values; only their operands are modelled.
-/

namespace SchedSim

/-! ## Definitions -/

/-- Record `struct Process` (lines 13-21). -/
structure Process where
  pid : Int
  arrivalTime : Int
  burstTime : Int
  remainingTime : Int
  priority : Int
  startTime : Int
  completionTime : Int
deriving DecidableEq, Repr, Inhabited

/-- Constant `INT_MAX` of `<climits>` for a 32-bit `int`. -/
def INT_MAX : Int := 2147483647

/-- Constant `INT_MIN` of `<climits>` for a 32-bit `int`. -/
def INT_MIN : Int := -2147483648

/-- The value a 32-bit two's-complement `int` holds after an operation whose
exact result is `x`: `x` itself when `INT_MIN <= x <= INT_MAX`, else `x`
reduced modulo 2^32 into that range. -/
def wrapInt (x : Int) : Int :=
  (x + 2147483648) % 4294967296 - 2147483648

/-- Function `executeProcess` (lines 23-29): `p.remainingTime -= execTime`. -/
def executeProcess (p : Process) (execTime : Int) : Process :=
  { p with remainingTime := p.remainingTime - execTime }

/-- Element `processes[i]`. -/
def procAt (processes : List Process) (i : Nat) : Process :=
  processes.getD i default

/-- Element `flags[i]` of a `std::vector<bool>`. -/
def flagAt (flags : List Bool) (i : Nat) : Bool :=
  flags.getD i false

/-- A `while (cond) body` loop run for at most `fuel` iterations: the state at
the start of iteration number `fuel`, or the exit state when the loop has
ended before. -/
def iterWhile {σ : Type} (cond : σ → Bool) (body : σ → σ) : Nat → σ → σ
  | 0, s => s
  | k + 1, s => if cond s then iterWhile cond body k (body s) else s

/-- A `while (cond) body` loop with a bound on the number of iterations:
`some s` when the loop exits in state `s` within `fuel` iterations. -/
def whileFuel {σ : Type} (cond : σ → Bool) (body : σ → σ) (fuel : Nat) (s : σ) : Option σ :=
  if cond (iterWhile cond body fuel s) then none else some (iterWhile cond body fuel s)

/-! ### FCFS (lines 40-54) -/

/-- Result of a policy's scheduling loop: the process table, the final
`currentTime` and the Gantt vector. -/
structure Run where
  processes : List Process
  currentTime : Int
  gantt : List Int
deriving DecidableEq, Repr

/-- Body of `for (auto &p : processes)` in `FCFS` (lines 47-53).  The thread
started at line 50 is joined at line 56; its effect is `executeProcess`.  The
sum `currentTime += p.burstTime` of line 52 is stored in a 32-bit `int`. -/
def FCFS_body (currentTime : Int) (gantt : List Int) (p : Process) : Process × Int × List Int :=
  let currentTime := if currentTime < p.arrivalTime then p.arrivalTime else currentTime
  let p := { p with startTime := currentTime }
  let p := executeProcess p p.burstTime
  let gantt := gantt ++ List.replicate p.burstTime.toNat p.pid
  let currentTime := wrapInt (currentTime + p.burstTime)
  ({ p with completionTime := currentTime }, currentTime, gantt)

/-- The `for` loop of `FCFS` from a given `currentTime` and Gantt vector. -/
def FCFS_loop : List Process → Int → List Int → Run
  | [], currentTime, gantt => { processes := [], currentTime := currentTime, gantt := gantt }
  | p :: rest, currentTime, gantt =>
    let r := FCFS_loop rest (FCFS_body currentTime gantt p).2.1 (FCFS_body currentTime gantt p).2.2
    { r with processes := (FCFS_body currentTime gantt p).1 :: r.processes }

/-- Scheduling part of `FCFS` (lines 42-56). -/
def FCFS (processes : List Process) : Run :=
  FCFS_loop processes 0 []

/-! ### SRTF and PreemptivePriority (lines 78-108, 131-161) -/

/-- Local state of the `while (completed < n)` loop of `SRTF` and of
`PreemptivePriority`. -/
structure SimState where
  processes : List Process
  finished : List Bool
  currentTime : Int
  completed : Nat
  gantt : List Int
deriving DecidableEq, Repr

/-- Loop condition `completed < n`. -/
def SimState.cond (s : SimState) : Bool :=
  decide (s.completed < s.processes.length)

/-- State before the first iteration (lines 80-82, 133-134). -/
def SimState.start (processes : List Process) : SimState :=
  { processes := processes, finished := List.replicate processes.length false,
    currentTime := 0, completed := 0, gantt := [] }

/-- One pass of the selection `for` of `SRTF` (lines 87-90) on `(idx, minRemaining)`. -/
def SRTF_pick (processes : List Process) (finished : List Bool) (currentTime : Int)
    (acc : Option Nat × Int) (i : Nat) : Option Nat × Int :=
  if flagAt finished i = false ∧ (procAt processes i).arrivalTime ≤ currentTime
      ∧ (procAt processes i).remainingTime < acc.2 then
    (some i, (procAt processes i).remainingTime)
  else acc

/-- Selection of `SRTF` (lines 85-91): the final `idx`. -/
def SRTF_select (s : SimState) : Option Nat :=
  ((List.range s.processes.length).foldl
    (SRTF_pick s.processes s.finished s.currentTime) (none, INT_MAX)).1

/-- One pass of the selection `for` of `PreemptivePriority` (lines 139-144) on
`(idx, highestPriority)`. -/
def Priority_pick (processes : List Process) (finished : List Bool) (currentTime : Int)
    (acc : Option Nat × Int) (i : Nat) : Option Nat × Int :=
  if flagAt finished i = false ∧ (procAt processes i).arrivalTime ≤ currentTime
      ∧ 0 < (procAt processes i).remainingTime then
    if (procAt processes i).priority < acc.2 then
      (some i, (procAt processes i).priority)
    else acc
  else acc

/-- Selection of `PreemptivePriority` (lines 137-145): the final `idx`. -/
def Priority_select (s : SimState) : Option Nat :=
  ((List.range s.processes.length).foldl
    (Priority_pick s.processes s.finished s.currentTime) (none, INT_MAX)).1

/-- Rest of the loop body after the selection, the same text in `SRTF`
(lines 92-107) and `PreemptivePriority` (lines 146-160). -/
def runUnit (s : SimState) : Option Nat → SimState
  | none => { s with gantt := s.gantt ++ [0], currentTime := s.currentTime + 1 }
  | some idx =>
    let p := executeProcess { procAt s.processes idx with startTime := s.currentTime } 1
    if p.remainingTime = 0 then
      { processes := s.processes.set idx { p with completionTime := s.currentTime + 1 },
        finished := s.finished.set idx true,
        currentTime := s.currentTime + 1,
        completed := s.completed + 1,
        gantt := s.gantt ++ [p.pid] }
    else
      { s with processes := s.processes.set idx p,
               currentTime := s.currentTime + 1,
               gantt := s.gantt ++ [p.pid] }

/-- Body of the `while` loop of `SRTF` (lines 85-107). -/
def SRTF_step (s : SimState) : SimState :=
  runUnit s (SRTF_select s)

/-- Body of the `while` loop of `PreemptivePriority` (lines 137-160). -/
def Priority_step (s : SimState) : SimState :=
  runUnit s (Priority_select s)

/-- Scheduling loop of `SRTF` (lines 80-108) with an iteration bound. -/
def SRTF (processes : List Process) (fuel : Nat) : Option SimState :=
  whileFuel SimState.cond SRTF_step fuel (SimState.start processes)

/-- Scheduling loop of `PreemptivePriority` (lines 133-161) with an iteration bound. -/
def PreemptivePriority (processes : List Process) (fuel : Nat) : Option SimState :=
  whileFuel SimState.cond Priority_step fuel (SimState.start processes)

/-! ### RoundRobin (lines 183-205) -/

/-- Local state of the `while (completed < n)` loop of `RoundRobin`. -/
structure RRState where
  processes : List Process
  inQueue : List Bool
  q : List Nat
  currentTime : Int
  completed : Nat
  gantt : List Int
deriving DecidableEq, Repr

/-- Loop condition `completed < n`. -/
def RRState.cond (s : RRState) : Bool :=
  decide (s.completed < s.processes.length)

/-- State before the first iteration (lines 185-186). -/
def RRState.start (processes : List Process) : RRState :=
  { processes := processes, inQueue := List.replicate processes.length false, q := [],
    currentTime := 0, completed := 0, gantt := [] }

/-- One pass of the arrival `for` (lines 190-191) on `(q, inQueue)`. -/
def RR_enqueue (processes : List Process) (currentTime : Int)
    (acc : List Nat × List Bool) (i : Nat) : List Nat × List Bool :=
  if flagAt acc.2 i = false ∧ (procAt processes i).arrivalTime ≤ currentTime
      ∧ 0 < (procAt processes i).remainingTime then
    (acc.1 ++ [i], acc.2.set i true)
  else acc

/-- The arrival `for` loop (lines 189-191). -/
def RR_arrivals (s : RRState) : RRState :=
  { s with
    q := ((List.range s.processes.length).foldl
      (RR_enqueue s.processes s.currentTime) (s.q, s.inQueue)).1,
    inQueue := ((List.range s.processes.length).foldl
      (RR_enqueue s.processes s.currentTime) (s.q, s.inQueue)).2 }

/-- Lines 193-204 on the state left by the arrival loop. -/
def RR_dispatch (tq : Int) (s : RRState) : RRState :=
  match s.q with
  | [] => { s with gantt := s.gantt ++ [0], currentTime := s.currentTime + 1 }
  | idx :: rest =>
    let exec := min tq (procAt s.processes idx).remainingTime
    let p := executeProcess { procAt s.processes idx with startTime := s.currentTime } exec
    if 0 < p.remainingTime then
      { s with processes := s.processes.set idx p,
               q := rest ++ [idx],
               currentTime := s.currentTime + exec,
               gantt := s.gantt ++ List.replicate exec.toNat p.pid }
    else
      { s with processes := s.processes.set idx { p with completionTime := s.currentTime + exec },
               q := rest,
               currentTime := s.currentTime + exec,
               completed := s.completed + 1,
               gantt := s.gantt ++ List.replicate exec.toNat p.pid }

/-- Body of the `while` loop of `RoundRobin` (lines 189-204). -/
def RR_step (tq : Int) (s : RRState) : RRState :=
  RR_dispatch tq (RR_arrivals s)

/-- Scheduling loop of `RoundRobin` (lines 185-205) with an iteration bound. -/
def RoundRobin (processes : List Process) (tq : Int) (fuel : Nat) : Option RRState :=
  whileFuel RRState.cond (RR_step tq) fuel (RRState.start processes)

/-! ### Inputs -/

/-- A process as `main` builds it (lines 237-243): value-initialised record
with `pid`, the three inputs and `remainingTime = burstTime`. -/
def mkProcess (pid arrivalTime burstTime priority : Int) : Process :=
  { pid := pid, arrivalTime := arrivalTime, burstTime := burstTime,
    remainingTime := burstTime, priority := priority, startTime := 0, completionTime := 0 }

/-- The three-process scenario P1(0,5,prio 2), P2(1,3,prio 1), P3(2,1,prio 3). -/
def scenario : List Process :=
  [mkProcess 1 0 5 2, mkProcess 2 1 3 1, mkProcess 3 2 1 3]


/-- A process with its priority erased: two inputs that differ only in
priority values have the same image under `List.map forgetPriority`. -/
def forgetPriority (p : Process) : Process :=
  { p with priority := 0 }

/-- Well-formed input as `main` builds it from valid entries: ids `1..N` in
input order, `arrivalTime >= 0`, `burstTime >= 1`, `remainingTime = burstTime`. -/
def WellFormed (ps : List Process) : Prop :=
  ∀ i, i < ps.length →
    (procAt ps i).pid = (i : Int) + 1 ∧ 0 ≤ (procAt ps i).arrivalTime ∧
    1 ≤ (procAt ps i).burstTime ∧ (procAt ps i).remainingTime = (procAt ps i).burstTime

instance (ps : List Process) : Decidable (WellFormed ps) := by
  unfold WellFormed; infer_instance


/-! ### Quantities and invariants used in the proofs -/

/-- Number of non-idle entries of a Gantt vector. -/
def busyUnits (gantt : List Int) : Nat :=
  gantt.countP (fun pid => decide (pid ≠ 0))

/-- Sum of the burst times, as an exact integer. -/
def totalBurst (processes : List Process) : Int :=
  (processes.map (fun p => p.burstTime)).sum

/-- Length of the slice a process ran last when slices are `min(tq, remainingTime)`
long: the final slice once it has completed, a full quantum before. -/
def lastSlice (tq : Int) (p : Process) : Int :=
  if p.remainingTime = 0 then (p.burstTime - 1) % tq + 1 else tq

/-- Invariant of one process record `p` (input record `p0`) against the Gantt
vector `g`, for a policy that runs slices of `min(tq, remainingTime)` units. -/
def ProcInv (tq : Int) (p0 p : Process) (g : List Int) : Prop :=
  p.pid = p0.pid ∧ p.arrivalTime = p0.arrivalTime ∧ p.burstTime = p0.burstTime ∧
  p.priority = p0.priority ∧
  0 ≤ p.remainingTime ∧ p.remainingTime ≤ p.burstTime ∧
  (g.count p.pid : Int) = p.burstTime - p.remainingTime ∧
  (0 < p.remainingTime → tq ∣ p.burstTime - p.remainingTime) ∧
  (p.remainingTime < p.burstTime →
    p.arrivalTime ≤ p.startTime ∧
    ∃ pre post, g = pre ++ List.replicate (lastSlice tq p).toNat p.pid ++ post ∧
      (pre.length : Int) = p.startTime ∧ p.pid ∉ post) ∧
  (p.remainingTime = 0 → p.completionTime = p.startTime + lastSlice tq p)

/-- Work still to be done at time `t`: remaining burst plus time until arrival,
summed over the processes.  It decreases in every iteration of the three
`while` loops. -/
def workLeft (processes : List Process) (t : Int) : Nat :=
  Finset.sum (Finset.range processes.length) (fun i =>
    (procAt processes i).remainingTime.toNat + ((procAt processes i).arrivalTime - t).toNat)

/-- Invariant of the `while` loop of `SRTF` and `PreemptivePriority` on input `ps0`. -/
def UnitInv (ps0 : List Process) (s : SimState) : Prop :=
  s.processes.length = ps0.length ∧ s.finished.length = ps0.length ∧
  (s.gantt.length : Int) = s.currentTime ∧
  s.completed = s.processes.countP (fun p => decide (p.remainingTime = 0)) ∧
  (busyUnits s.gantt : Int) = (s.processes.map (fun p => p.burstTime - p.remainingTime)).sum ∧
  ∀ i, i < ps0.length →
    ProcInv 1 (procAt ps0 i) (procAt s.processes i) s.gantt ∧
    (flagAt s.finished i = true ↔ (procAt s.processes i).remainingTime = 0)

/-- Invariant of the `while` loop of `RoundRobin` on input `ps0` with quantum `tq`. -/
def RRInv (tq : Int) (ps0 : List Process) (s : RRState) : Prop :=
  s.processes.length = ps0.length ∧ s.inQueue.length = ps0.length ∧
  (s.gantt.length : Int) = s.currentTime ∧
  s.completed = s.processes.countP (fun p => decide (p.remainingTime = 0)) ∧
  (busyUnits s.gantt : Int) = (s.processes.map (fun p => p.burstTime - p.remainingTime)).sum ∧
  s.q.Nodup ∧
  (∀ i, i ∈ s.q → i < ps0.length ∧ flagAt s.inQueue i = true ∧
    0 < (procAt s.processes i).remainingTime) ∧
  ∀ i, i < ps0.length →
    ProcInv tq (procAt ps0 i) (procAt s.processes i) s.gantt ∧
    (flagAt s.inQueue i = false →
      (procAt s.processes i).remainingTime = (procAt s.processes i).burstTime) ∧
    (flagAt s.inQueue i = true →
      (procAt s.processes i).arrivalTime ≤ s.currentTime ∧
      (0 < (procAt s.processes i).remainingTime → i ∈ s.q))

/-- The test of the arrival loop (line 190) on the flags at loop entry. -/
def arrived (processes : List Process) (inQueue : List Bool) (currentTime : Int) (i : Nat) : Bool :=
  decide (flagAt inQueue i = false ∧ (procAt processes i).arrivalTime ≤ currentTime
    ∧ 0 < (procAt processes i).remainingTime)

/-- No burst time reaches the initial value `INT_MAX` of `minRemaining`. -/
def BurstBelowMax (ps : List Process) : Prop :=
  ∀ i, i < ps.length → (procAt ps i).burstTime < INT_MAX

/-- No priority reaches the initial value `INT_MAX` of `highestPriority`. -/
def PriorityBelowMax (ps : List Process) : Prop :=
  ∀ i, i < ps.length → (procAt ps i).priority < INT_MAX

instance (ps : List Process) : Decidable (BurstBelowMax ps) := by
  unfold BurstBelowMax; infer_instance

instance (ps : List Process) : Decidable (PriorityBelowMax ps) := by
  unfold PriorityBelowMax; infer_instance

/-- The record `p` ends with a slice of `len` units in `gantt`: `startTime` is
`len` units before `completionTime`, the Gantt entries of the time units from
`startTime` up to `completionTime` carry `p.pid`, and no later entry does. -/
def EndsWithSlice (len : Int) (p : Process) (gantt : List Int) : Prop :=
  p.startTime = p.completionTime - len ∧
  (∀ j : Nat, p.startTime ≤ (j : Int) → (j : Int) < p.completionTime →
    gantt[j]? = some p.pid) ∧
  (∀ j : Nat, p.completionTime ≤ (j : Int) → gantt[j]? ≠ some p.pid)

/-- A process flagged `finished` has no remaining time: invariant of the
`while` loops of `SRTF` and `PreemptivePriority` on any input. -/
def FinishedDone (s : SimState) : Prop :=
  ∀ i, flagAt s.finished i = true → (procAt s.processes i).remainingTime = 0

/-! ### resetProcesses, the metrics code, input and main -/

/-- Function `resetProcesses` (lines 31-37), as a new vector. -/
def resetProcesses (procs : List Process) : List Process :=
  procs.map (fun p => { p with startTime := 0, completionTime := 0, remainingTime := p.burstTime })

/-- Local `int TAT` of the metrics loops (lines 62, 113, 166, 210). -/
def turnaroundTime (p : Process) : Int :=
  wrapInt (p.completionTime - p.arrivalTime)

/-- Local `int WT` of the metrics loops (lines 63, 114, 167, 211). -/
def waitingTime (p : Process) : Int :=
  wrapInt (turnaroundTime p - p.burstTime)

/-- Local `int totalBurst` after the metrics loop (`totalBurst += p.burstTime`,
lines 64, 115, 168, 212). -/
def accumulateBurst (processes : List Process) : Int :=
  processes.foldl (fun acc p => wrapInt (acc + p.burstTime)) 0

/-- Operands of the metrics code (lines 59-69, 111-119, 164-172, 208-216): the
three sums, and the two divisors `n` (or `processes.size()`) and `currentTime`.
The quotients themselves are `double` values and are not modelled. -/
structure Metrics where
  totalWT : Int
  totalTAT : Int
  totalBurst : Int
  count : Nat
  elapsed : Int
deriving DecidableEq, Repr

/-- The metrics code of the four policies on the final process table and `currentTime`. -/
def computeMetrics (processes : List Process) (currentTime : Int) : Metrics :=
  { totalWT := (processes.map waitingTime).sum,
    totalTAT := (processes.map turnaroundTime).sum,
    totalBurst := accumulateBurst processes,
    count := processes.length,
    elapsed := currentTime }

/-- Function `getPositiveInt` (lines 224-233) on the console input, one entry
per line: `some x` when `std::cin >> x` extracts the integer `x`, `none` when
the extraction fails.  The result is the value returned and the input left;
`none` when the input ends before an entry is accepted (the source loops). -/
def getPositiveInt : List (Option Int) → Option (Int × List (Option Int))
  | [] => none
  | none :: rest => getPositiveInt rest
  | some x :: rest => if 0 ≤ x then some (x, rest) else getPositiveInt rest

/-- The input loop of `main` (lines 238-244) for `count` more processes, the
next of which has index `i`. -/
def readProcesses : Nat → Nat → List (Option Int) → Option (List Process × List (Option Int))
  | 0, _, input => some ([], input)
  | count + 1, i, input =>
    match getPositiveInt input with
    | none => none
    | some (arrivalTime, r1) =>
      match getPositiveInt r1 with
      | none => none
      | some (burstTime, r2) =>
        match getPositiveInt r2 with
        | none => none
        | some (priority, r3) =>
          match readProcesses count (i + 1) r3 with
          | none => none
          | some (ps, r4) =>
            some ({ pid := (i : Int) + 1, arrivalTime := arrivalTime, burstTime := burstTime,
                    remainingTime := burstTime, priority := priority,
                    startTime := 0, completionTime := 0 } :: ps, r4)

/-- What `main` has run when it returns: the final states of the four policies. -/
structure MainRun where
  fcfs : Run
  srtf : SimState
  prio : SimState
  rr : RRState
deriving DecidableEq, Repr

/-- Function `main` (lines 235-254) on the console input, each policy loop
bounded by `fuel` iterations: `none` when the input ends early or a loop does
not exit within the bound.  The policies take the vector by value, so each
runs on the table as entered. -/
def main (fuel : Nat) (input : List (Option Int)) : Option MainRun :=
  match getPositiveInt input with
  | none => none
  | some (n, r0) =>
    match readProcesses n.toNat 0 r0 with
    | none => none
    | some (processes, r1) =>
      match SRTF (resetProcesses processes) fuel with
      | none => none
      | some srtf =>
        match PreemptivePriority (resetProcesses (resetProcesses processes)) fuel with
        | none => none
        | some prio =>
          match getPositiveInt r1 with
          | none => none
          | some (tq, _) =>
            match RoundRobin (resetProcesses (resetProcesses (resetProcesses processes))) tq fuel with
            | none => none
            | some rr => some { fcfs := FCFS processes, srtf := srtf, prio := prio, rr := rr }

/-! ### Further invariants -/

/-- No addition of `FCFS` leaves the `int` range on input `ps`: for every
process, `startTime + burstTime` (the exact value of `currentTime += burstTime`,
line 52) lies between `INT_MIN` and `INT_MAX`. -/
def FCFS_inRange (ps : List Process) : Prop :=
  ∀ k, k < ps.length →
    INT_MIN ≤ (procAt (FCFS ps).processes k).startTime + (procAt ps k).burstTime ∧
    (procAt (FCFS ps).processes k).startTime + (procAt ps k).burstTime ≤ INT_MAX

instance (ps : List Process) : Decidable (FCFS_inRange ps) := by
  unfold FCFS_inRange; infer_instance

/-- No Gantt entry carries the pid of a process of `ps0` at a time before its arrival. -/
def NoEarlyRun (ps0 : List Process) (gantt : List Int) : Prop :=
  ∀ (j i : Nat), i < ps0.length → gantt[j]? = some (procAt ps0 i).pid →
    (procAt ps0 i).arrivalTime ≤ (j : Int)

/-- The indices the arrival loop (lines 189-191) pushes in the iteration that
starts in state `s`, in the order pushed. -/
def RR_newArrivals (s : RRState) : List Nat :=
  (List.range s.processes.length).filter (arrived s.processes s.inQueue s.currentTime)

/-- The indices pushed by the arrival loop over the first `k` iterations of the
`while` loop from state `s`, in the order pushed. -/
def RR_enqueued (tq : Int) : Nat → RRState → List Nat
  | 0, _ => []
  | k + 1, s => if s.cond then RR_newArrivals s ++ RR_enqueued tq k (RR_step tq s) else []

/-- Invariant of the `PreemptivePriority` loop on an input whose process `z`
has no remaining time: `z` is never flagged and `completed` counts the flags. -/
def StuckUnit (z : Nat) (s : SimState) : Prop :=
  s.finished.length = s.processes.length ∧ z < s.processes.length ∧
  s.completed = s.finished.count true ∧ flagAt s.finished z = false ∧
  (procAt s.processes z).remainingTime = 0

/-- Invariant of the `RoundRobin` loop on an input whose process `z` has no
remaining time: `z` is never enqueued, and every enqueued process is either in
the queue or counted in `completed`. -/
def StuckRR (z : Nat) (s : RRState) : Prop :=
  s.inQueue.length = s.processes.length ∧ z < s.processes.length ∧
  s.completed + s.q.length = s.inQueue.count true ∧ flagAt s.inQueue z = false ∧
  (procAt s.processes z).remainingTime = 0 ∧ z ∉ s.q ∧
  ∀ i, i ∈ s.q → i < s.processes.length

/-! ## Generic facts about bounded loops and vectors -/

theorem iterWhile_inv {σ : Type} (cond : σ → Bool) (body : σ → σ) (Inv : σ → Prop)
    (hstep : ∀ s, Inv s → cond s = true → Inv (body s)) :
    ∀ (k : Nat) (s : σ), Inv s → Inv (iterWhile cond body k s) := by
  intro k
  induction k with
  | zero => intro s hs; exact hs
  | succ k ih =>
    intro s hs
    simp only [iterWhile]
    by_cases hc : cond s = true
    · rw [if_pos hc]; exact ih _ (hstep s hs hc)
    · rw [if_neg hc]; exact hs

theorem whileFuel_eq_some {σ : Type} {cond : σ → Bool} {body : σ → σ} {fuel : Nat} {s r : σ}
    (h : whileFuel cond body fuel s = some r) :
    r = iterWhile cond body fuel s ∧ cond r = false := by
  unfold whileFuel at h
  by_cases hc : cond (iterWhile cond body fuel s) = true
  · rw [if_pos hc] at h; cases h
  · rw [if_neg hc] at h
    cases h
    exact ⟨rfl, by simpa using hc⟩

theorem whileFuel_inv {σ : Type} (cond : σ → Bool) (body : σ → σ) (Inv : σ → Prop)
    (hstep : ∀ s, Inv s → cond s = true → Inv (body s))
    {fuel : Nat} {s r : σ} (hs : Inv s) (h : whileFuel cond body fuel s = some r) :
    Inv r ∧ cond r = false := by
  obtain ⟨hr, hc⟩ := whileFuel_eq_some h
  exact ⟨hr ▸ iterWhile_inv cond body Inv hstep fuel s hs, hc⟩

theorem iterWhile_measure {σ : Type} (cond : σ → Bool) (body : σ → σ) (Inv : σ → Prop)
    (mu : σ → Nat)
    (hstep : ∀ s, Inv s → cond s = true → Inv (body s) ∧ mu (body s) < mu s) :
    ∀ (m : Nat) (s : σ), Inv s → mu s ≤ m → cond (iterWhile cond body m s) = false := by
  intro m
  induction m with
  | zero =>
    intro s hs hm
    simp only [iterWhile]
    by_contra hc
    have hc1 : cond s = true := by simpa using hc
    have := (hstep s hs hc1).2
    omega
  | succ m ih =>
    intro s hs hm
    simp only [iterWhile]
    by_cases hc : cond s = true
    · rw [if_pos hc]
      have h2 := hstep s hs hc
      exact ih _ h2.1 (by omega)
    · rw [if_neg hc]; simpa using hc

theorem whileFuel_terminates {σ : Type} (cond : σ → Bool) (body : σ → σ) (Inv : σ → Prop)
    (mu : σ → Nat)
    (hstep : ∀ s, Inv s → cond s = true → Inv (body s) ∧ mu (body s) < mu s)
    (s : σ) (hs : Inv s) :
    ∃ fuel r, whileFuel cond body fuel s = some r := by
  refine ⟨mu s, iterWhile cond body (mu s) s, ?_⟩
  unfold whileFuel
  rw [iterWhile_measure cond body Inv mu hstep (mu s) s hs (le_refl _)]
  simp

theorem procAt_set (ps : List Process) (i j : Nat) (p : Process) :
    procAt (ps.set i p) j = if i = j ∧ i < ps.length then p else procAt ps j := by
  unfold procAt
  rw [List.getD_eq_getElem?_getD, List.getD_eq_getElem?_getD, List.getElem?_set]
  by_cases hij : i = j
  · subst hij
    by_cases hl : i < ps.length
    · simp [hl]
    · simp [hl, List.getElem?_eq_none (Nat.le_of_not_lt hl)]
  · simp [hij]

theorem flagAt_set (fs : List Bool) (i j : Nat) (b : Bool) :
    flagAt (fs.set i b) j = if i = j ∧ i < fs.length then b else flagAt fs j := by
  unfold flagAt
  rw [List.getD_eq_getElem?_getD, List.getD_eq_getElem?_getD, List.getElem?_set]
  by_cases hij : i = j
  · subst hij
    by_cases hl : i < fs.length
    · simp [hl]
    · simp [hl, List.getElem?_eq_none (Nat.le_of_not_lt hl)]
  · simp [hij]

theorem flagAt_replicate (n i : Nat) : flagAt (List.replicate n false) i = false := by
  unfold flagAt
  rw [List.getD_eq_getElem?_getD]
  by_cases h : i < n
  · simp [h]
  · simp [h]

theorem procAt_cons_zero (p : Process) (ps : List Process) : procAt (p :: ps) 0 = p := rfl

theorem procAt_cons_succ (p : Process) (ps : List Process) (i : Nat) :
    procAt (p :: ps) (i + 1) = procAt ps i := rfl

theorem procAt_mem (ps : List Process) (i : Nat) (h : i < ps.length) : procAt ps i ∈ ps := by
  unfold procAt
  rw [List.getD_eq_getElem _ _ h]
  exact List.getElem_mem h

/-! ## The FCFS loop -/

theorem FCFS_loop_cons (p : Process) (rest : List Process) (t : Int) (g : List Int) :
    FCFS_loop (p :: rest) t g =
      { FCFS_loop rest (FCFS_body t g p).2.1 (FCFS_body t g p).2.2 with
        processes := (FCFS_body t g p).1 ::
          (FCFS_loop rest (FCFS_body t g p).2.1 (FCFS_body t g p).2.2).processes } := rfl

theorem FCFS_loop_length (ps : List Process) :
    ∀ (t : Int) (g : List Int), (FCFS_loop ps t g).processes.length = ps.length := by
  induction ps with
  | nil => intro t g; rfl
  | cons p rest ih => intro t g; simp [FCFS_loop_cons, ih]

theorem FCFS_body_fst (t : Int) (g : List Int) (p : Process) :
    (FCFS_body t g p).1 =
      { p with startTime := max t p.arrivalTime,
               remainingTime := p.remainingTime - p.burstTime,
               completionTime := wrapInt (max t p.arrivalTime + p.burstTime) } := by
  unfold FCFS_body executeProcess
  by_cases h : t < p.arrivalTime
  · simp [h, max_eq_right (le_of_lt h)]
  · simp [h, max_eq_left (not_lt.mp h)]

theorem FCFS_body_time (t : Int) (g : List Int) (p : Process) :
    (FCFS_body t g p).2.1 = wrapInt (max t p.arrivalTime + p.burstTime) := by
  unfold FCFS_body executeProcess
  by_cases h : t < p.arrivalTime
  · simp [h, max_eq_right (le_of_lt h)]
  · simp [h, max_eq_left (not_lt.mp h)]

theorem FCFS_body_gantt (t : Int) (g : List Int) (p : Process) :
    (FCFS_body t g p).2.2 = g ++ List.replicate p.burstTime.toNat p.pid := by
  unfold FCFS_body executeProcess
  simp

theorem FCFS_loop_recurrence (ps : List Process) :
    ∀ (t : Int) (g : List Int) (k : Nat), k < ps.length →
      (procAt (FCFS_loop ps t g).processes k).startTime =
          max (if k = 0 then t else (procAt (FCFS_loop ps t g).processes (k - 1)).completionTime)
            (procAt ps k).arrivalTime ∧
      (procAt (FCFS_loop ps t g).processes k).completionTime =
          wrapInt ((procAt (FCFS_loop ps t g).processes k).startTime +
            (procAt ps k).burstTime) := by
  induction ps with
  | nil => intro t g k hk; simp at hk
  | cons p rest ih =>
    intro t g k hk
    rw [FCFS_loop_cons]
    cases k with
    | zero =>
      simp [procAt_cons_zero, FCFS_body_fst]
    | succ k =>
      have hk2 : k < rest.length := by simpa using hk
      have h := ih (FCFS_body t g p).2.1 (FCFS_body t g p).2.2 k hk2
      simp only [procAt_cons_succ, Nat.add_sub_cancel, Nat.succ_ne_zero, if_false]
      cases k with
      | zero =>
        have hc : (FCFS_body t g p).1.completionTime = (FCFS_body t g p).2.1 := by
          rw [FCFS_body_fst, FCFS_body_time]
        simp only [procAt_cons_zero, if_true] at h ⊢
        rw [hc]
        exact h
      | succ j =>
        simp only [procAt_cons_succ, Nat.add_sub_cancel, Nat.succ_ne_zero, if_false] at h ⊢
        exact h

theorem forgetPriority_eq {p q : Process} (h : forgetPriority p = forgetPriority q) :
    p.pid = q.pid ∧ p.arrivalTime = q.arrivalTime ∧ p.burstTime = q.burstTime ∧
    p.remainingTime = q.remainingTime ∧ p.startTime = q.startTime ∧
    p.completionTime = q.completionTime := by
  unfold forgetPriority at h
  injection h with h1 h2 h3 h4 h5 h6 h7
  exact ⟨h1, h2, h3, h4, h6, h7⟩

theorem FCFS_loop_priority (ps : List Process) :
    ∀ (qs : List Process) (t : Int) (g : List Int),
      ps.map forgetPriority = qs.map forgetPriority →
      (FCFS_loop ps t g).processes.map forgetPriority =
        (FCFS_loop qs t g).processes.map forgetPriority ∧
      (FCFS_loop ps t g).currentTime = (FCFS_loop qs t g).currentTime ∧
      (FCFS_loop ps t g).gantt = (FCFS_loop qs t g).gantt := by
  induction ps with
  | nil =>
    intro qs t g h
    cases qs with
    | nil => exact ⟨rfl, rfl, rfl⟩
    | cons q qs => simp at h
  | cons p rest ih =>
    intro qs t g h
    cases qs with
    | nil => simp at h
    | cons q qs =>
      simp only [List.map_cons, List.cons.injEq] at h
      obtain ⟨h1, h2, h3, h4, h5, h6⟩ := forgetPriority_eq h.1
      have ht : (FCFS_body t g p).2.1 = (FCFS_body t g q).2.1 := by
        rw [FCFS_body_time, FCFS_body_time, h2, h3]
      have hg : (FCFS_body t g p).2.2 = (FCFS_body t g q).2.2 := by
        rw [FCFS_body_gantt, FCFS_body_gantt, h1, h3]
      have hp : forgetPriority (FCFS_body t g p).1 = forgetPriority (FCFS_body t g q).1 := by
        rw [FCFS_body_fst, FCFS_body_fst]
        simp [forgetPriority, h1, h2, h3, h4]
      have hrec := ih qs (FCFS_body t g p).2.1 (FCFS_body t g p).2.2 h.2
      rw [FCFS_loop_cons, FCFS_loop_cons]
      simp only [List.map_cons]
      rw [← ht, ← hg, hp, hrec.1, hrec.2.1, hrec.2.2]
      exact ⟨rfl, rfl, rfl⟩

theorem FCFS_loop_gantt_cons (p : Process) (rest : List Process) (t : Int) (g : List Int) :
    (FCFS_loop (p :: rest) t g).gantt =
      (FCFS_loop rest (wrapInt (max t p.arrivalTime + p.burstTime))
        (g ++ List.replicate p.burstTime.toNat p.pid)).gantt := by
  rw [FCFS_loop_cons, FCFS_body_time, FCFS_body_gantt]

theorem FCFS_loop_count_absent (x : Int) (ps : List Process) :
    ∀ (t : Int) (g : List Int), (∀ p ∈ ps, p.pid ≠ x) →
      (FCFS_loop ps t g).gantt.count x = g.count x := by
  induction ps with
  | nil => intro t g _; rfl
  | cons p rest ih =>
    intro t g h
    rw [FCFS_loop_gantt_cons, ih _ _ (fun q hq => h q (List.mem_cons_of_mem _ hq))]
    have hp : p.pid ≠ x := h p (List.mem_cons_self _ _)
    simp [List.count_append, List.count_replicate, hp]

theorem FCFS_loop_count (ps : List Process) :
    ∀ (t : Int) (g : List Int) (i : Nat), (ps.map (fun p => p.pid)).Nodup → i < ps.length →
      (FCFS_loop ps t g).gantt.count (procAt ps i).pid =
        g.count (procAt ps i).pid + (procAt ps i).burstTime.toNat := by
  induction ps with
  | nil => intro t g i _ hi; simp at hi
  | cons p rest ih =>
    intro t g i hnd hi
    rw [List.map_cons, List.nodup_cons] at hnd
    rw [FCFS_loop_gantt_cons]
    cases i with
    | zero =>
      rw [procAt_cons_zero, FCFS_loop_count_absent]
      · simp [List.count_append, List.count_replicate]
      · intro q hq hqp
        exact hnd.1 (by rw [← hqp]; exact List.mem_map_of_mem _ hq)
    | succ k =>
      have hk : k < rest.length := by simpa using hi
      rw [procAt_cons_succ, ih _ _ k hnd.2 hk]
      have hne : p.pid ≠ (procAt rest k).pid := by
        intro hqp
        exact hnd.1 (by rw [hqp]; exact List.mem_map_of_mem _ (procAt_mem rest k hk))
      simp [List.count_append, List.count_replicate, hne]

theorem FCFS_loop_length_gantt (ps : List Process) :
    ∀ (t : Int) (g : List Int),
      (FCFS_loop ps t g).gantt.length = g.length + (ps.map (fun p => p.burstTime.toNat)).sum := by
  induction ps with
  | nil => intro t g; rfl
  | cons p rest ih =>
    intro t g
    rw [FCFS_loop_gantt_cons, ih]
    simp [List.length_append, List.length_replicate]
    omega

theorem FCFS_loop_fields (ps : List Process) :
    ∀ (t : Int) (g : List Int) (k : Nat), k < ps.length →
      (procAt (FCFS_loop ps t g).processes k).pid = (procAt ps k).pid ∧
      (procAt (FCFS_loop ps t g).processes k).arrivalTime = (procAt ps k).arrivalTime ∧
      (procAt (FCFS_loop ps t g).processes k).burstTime = (procAt ps k).burstTime ∧
      (procAt (FCFS_loop ps t g).processes k).priority = (procAt ps k).priority := by
  induction ps with
  | nil => intro t g k hk; simp at hk
  | cons p rest ih =>
    intro t g k hk
    rw [FCFS_loop_cons]
    cases k with
    | zero => simp [procAt_cons_zero, FCFS_body_fst]
    | succ k =>
      have hk2 : k < rest.length := by simpa using hk
      simp only [procAt_cons_succ]
      exact ih _ _ k hk2

theorem WellFormed.pid_nodup {ps : List Process} (h : WellFormed ps) :
    (ps.map (fun p => p.pid)).Nodup := by
  rw [List.Nodup, List.pairwise_iff_getElem]
  intro i j hi hj hij
  simp only [List.length_map] at hi hj
  simp only [List.getElem_map]
  have h1 := (h i hi).1
  have h2 := (h j hj).1
  unfold procAt at h1 h2
  rw [List.getD_eq_getElem _ _ hi] at h1
  rw [List.getD_eq_getElem _ _ hj] at h2
  rw [h1, h2]
  omega

/-! ## Selection loops -/

theorem foldl_pick_spec (f : Option Nat × Int → Nat → Option Nat × Int)
    (elig : Nat → Prop) (key : Nat → Int) (M : Int)
    (hf1 : ∀ acc i, elig i → key i < acc.2 → f acc i = (some i, key i))
    (hf2 : ∀ acc i, ¬ (elig i ∧ key i < acc.2) → f acc i = acc) :
    ∀ k : Nat,
      (((List.range k).foldl f (none, M)).1 = none →
          ((List.range k).foldl f (none, M)).2 = M) ∧
      (∀ j, j < k → elig j → ((List.range k).foldl f (none, M)).2 ≤ key j) ∧
      ((List.range k).foldl f (none, M)).2 ≤ M ∧
      (∀ i, ((List.range k).foldl f (none, M)).1 = some i →
          i < k ∧ elig i ∧ key i = ((List.range k).foldl f (none, M)).2 ∧
          ((List.range k).foldl f (none, M)).2 < M ∧
          ∀ j, j < i → elig j → ((List.range k).foldl f (none, M)).2 < key j) := by
  intro k
  induction k with
  | zero =>
    refine ⟨fun _ => rfl, ?_, le_refl _, ?_⟩
    · intro j hj; omega
    · intro i hi; simp at hi
  | succ k ih =>
    rw [List.range_succ, List.foldl_append]
    simp only [List.foldl_cons, List.foldl_nil]
    generalize (List.range k).foldl f (none, M) = acc at ih
    obtain ⟨h1, h2, h3, h4⟩ := ih
    by_cases hc : elig k ∧ key k < acc.2
    · rw [hf1 acc k hc.1 hc.2]
      refine ⟨fun h => by simp at h, ?_, ?_, ?_⟩
      · intro j hj hej
        simp only
        rcases Nat.lt_succ_iff_lt_or_eq.mp hj with hlt | heq
        · have := h2 j hlt hej; omega
        · subst heq; exact le_refl _
      · simp only; omega
      · intro i hi
        simp only [Option.some.injEq] at hi
        subst hi
        refine ⟨Nat.lt_succ_self _, hc.1, rfl, ?_, ?_⟩
        · simp only; omega
        · intro j hj hej
          have := h2 j hj hej
          simp only; omega
    · rw [hf2 acc k hc]
      refine ⟨h1, ?_, h3, ?_⟩
      · intro j hj hej
        rcases Nat.lt_succ_iff_lt_or_eq.mp hj with hlt | heq
        · exact h2 j hlt hej
        · subst heq
          by_contra hlt
          exact hc ⟨hej, by omega⟩
      · intro i hi
        obtain ⟨a, b, c, d, e⟩ := h4 i hi
        exact ⟨Nat.lt_succ_of_lt a, b, c, d, e⟩

/-- What the selection loop of `SRTF` returns, for any state: a process that
is unfinished, has arrived and has the least `remainingTime` below `INT_MAX`,
the first such in index order; `none` only when every unfinished arrived
process has `remainingTime >= INT_MAX`. -/
theorem SRTF_select_spec (s : SimState) :
    (SRTF_select s = none →
      ∀ j, j < s.processes.length → flagAt s.finished j = false →
        (procAt s.processes j).arrivalTime ≤ s.currentTime →
        INT_MAX ≤ (procAt s.processes j).remainingTime) ∧
    (∀ i, SRTF_select s = some i →
      i < s.processes.length ∧ flagAt s.finished i = false ∧
      (procAt s.processes i).arrivalTime ≤ s.currentTime ∧
      (procAt s.processes i).remainingTime < INT_MAX ∧
      (∀ j, j < s.processes.length → flagAt s.finished j = false →
        (procAt s.processes j).arrivalTime ≤ s.currentTime →
        (procAt s.processes i).remainingTime ≤ (procAt s.processes j).remainingTime) ∧
      (∀ j, j < i → flagAt s.finished j = false →
        (procAt s.processes j).arrivalTime ≤ s.currentTime →
        (procAt s.processes i).remainingTime < (procAt s.processes j).remainingTime)) := by
  have h := foldl_pick_spec (SRTF_pick s.processes s.finished s.currentTime)
    (fun i => flagAt s.finished i = false ∧ (procAt s.processes i).arrivalTime ≤ s.currentTime)
    (fun i => (procAt s.processes i).remainingTime) INT_MAX
    (by
      intro acc i he hk
      unfold SRTF_pick
      rw [if_pos ⟨he.1, he.2, hk⟩])
    (by
      intro acc i hn
      unfold SRTF_pick
      rw [if_neg (fun hc => hn ⟨⟨hc.1, hc.2.1⟩, hc.2.2⟩)])
    s.processes.length
  obtain ⟨h1, h2, _, h4⟩ := h
  unfold SRTF_select
  constructor
  · intro hn j hj hf ha
    have := h2 j hj ⟨hf, ha⟩
    rw [h1 hn] at this
    exact this
  · intro i hi
    obtain ⟨a, b, c, d, e⟩ := h4 i hi
    refine ⟨a, b.1, b.2, ?_, ?_, ?_⟩
    · omega
    · intro j hj hf ha
      have := h2 j hj ⟨hf, ha⟩
      omega
    · intro j hj hf ha
      have := e j hj ⟨hf, ha⟩
      omega

/-- What the selection loop of `PreemptivePriority` returns, for any state: a
process that is unfinished, has arrived, has `remainingTime > 0` and has the
least `priority` below `INT_MAX`, the first such in index order; `none` only
when every such process has `priority >= INT_MAX`. -/
theorem Priority_select_spec (s : SimState) :
    (Priority_select s = none →
      ∀ j, j < s.processes.length → flagAt s.finished j = false →
        (procAt s.processes j).arrivalTime ≤ s.currentTime →
        0 < (procAt s.processes j).remainingTime →
        INT_MAX ≤ (procAt s.processes j).priority) ∧
    (∀ i, Priority_select s = some i →
      i < s.processes.length ∧ flagAt s.finished i = false ∧
      (procAt s.processes i).arrivalTime ≤ s.currentTime ∧
      0 < (procAt s.processes i).remainingTime ∧
      (procAt s.processes i).priority < INT_MAX ∧
      (∀ j, j < s.processes.length → flagAt s.finished j = false →
        (procAt s.processes j).arrivalTime ≤ s.currentTime →
        0 < (procAt s.processes j).remainingTime →
        (procAt s.processes i).priority ≤ (procAt s.processes j).priority) ∧
      (∀ j, j < i → flagAt s.finished j = false →
        (procAt s.processes j).arrivalTime ≤ s.currentTime →
        0 < (procAt s.processes j).remainingTime →
        (procAt s.processes i).priority < (procAt s.processes j).priority)) := by
  have h := foldl_pick_spec (Priority_pick s.processes s.finished s.currentTime)
    (fun i => flagAt s.finished i = false ∧ (procAt s.processes i).arrivalTime ≤ s.currentTime
      ∧ 0 < (procAt s.processes i).remainingTime)
    (fun i => (procAt s.processes i).priority) INT_MAX
    (by
      intro acc i he hk
      unfold Priority_pick
      rw [if_pos he, if_pos hk])
    (by
      intro acc i hn
      unfold Priority_pick
      by_cases he : flagAt s.finished i = false ∧
          (procAt s.processes i).arrivalTime ≤ s.currentTime ∧
          0 < (procAt s.processes i).remainingTime
      · rw [if_pos he, if_neg (fun hk => hn ⟨he, hk⟩)]
      · rw [if_neg he])
    s.processes.length
  obtain ⟨h1, h2, _, h4⟩ := h
  unfold Priority_select
  constructor
  · intro hn j hj hf ha hr
    have := h2 j hj ⟨hf, ha, hr⟩
    rw [h1 hn] at this
    exact this
  · intro i hi
    obtain ⟨a, b, c, d, e⟩ := h4 i hi
    refine ⟨a, b.1, b.2.1, b.2.2, ?_, ?_, ?_⟩
    · omega
    · intro j hj hf ha hr
      have := h2 j hj ⟨hf, ha, hr⟩
      omega
    · intro j hj hf ha hr
      have := e j hj ⟨hf, ha, hr⟩
      omega

/-! ## The per-process invariant -/

theorem final_slice_length (tq b r : Int) (hd : tq ∣ b - r) (h1 : 1 ≤ r) (h2 : r ≤ tq) :
    (b - 1) % tq + 1 = r := by
  obtain ⟨k, hk⟩ := hd
  have hb : b - 1 = (r - 1) + tq * k := by omega
  rw [hb, Int.add_mul_emod_self_left, Int.emod_eq_of_lt (by omega) (by omega)]
  omega

theorem ProcInv_start (tq : Int) (p : Process) (hr : p.remainingTime = p.burstTime)
    (hb : 1 ≤ p.burstTime) : ProcInv tq p p [] := by
  refine ⟨rfl, rfl, rfl, rfl, by omega, by omega, ?_, ?_, ?_, ?_⟩
  · simp [hr]
  · intro _; rw [hr]; simp
  · intro h; omega
  · intro h; omega

theorem ProcInv_append (tq : Int) (p0 p : Process) (g more : List Int)
    (h : ProcInv tq p0 p g) (hm : p.pid ∉ more) : ProcInv tq p0 p (g ++ more) := by
  obtain ⟨h1, h2, h3, h4, h5, h6, h7, h8, h9, h10⟩ := h
  refine ⟨h1, h2, h3, h4, h5, h6, ?_, h8, ?_, h10⟩
  · rw [List.count_append, List.count_eq_zero_of_not_mem hm]
    simpa using h7
  · intro hlt
    obtain ⟨ha, pre, post, hg, hl, hn⟩ := h9 hlt
    refine ⟨ha, pre, post ++ more, ?_, hl, ?_⟩
    · rw [hg]; simp [List.append_assoc]
    · intro hmem
      rcases List.mem_append.mp hmem with hx | hx
      · exact hn hx
      · exact hm hx

theorem ProcInv_run (tq : Int) (p0 p q : Process) (g : List Int)
    (h : ProcInv tq p0 p g) (htq : 1 ≤ tq) (hr : 0 < p.remainingTime)
    (ha : p.arrivalTime ≤ (g.length : Int))
    (hpid : q.pid = p.pid) (harr : q.arrivalTime = p.arrivalTime)
    (hburst : q.burstTime = p.burstTime) (hprio : q.priority = p.priority)
    (hrem : q.remainingTime = p.remainingTime - min tq p.remainingTime)
    (hstart : q.startTime = (g.length : Int))
    (hcompl : q.remainingTime = 0 →
      q.completionTime = (g.length : Int) + min tq p.remainingTime) :
    ProcInv tq p0 q (g ++ List.replicate (min tq p.remainingTime).toNat p.pid) := by
  obtain ⟨h1, h2, h3, h4, h5, h6, h7, h8, h9, h10⟩ := h
  have hd := h8 hr
  have hls : lastSlice tq q = min tq p.remainingTime := by
    unfold lastSlice
    by_cases hq : q.remainingTime = 0
    · rw [if_pos hq, hburst]
      have hmin : min tq p.remainingTime = p.remainingTime := by clear h8 h9 h10 hd; omega
      rw [hmin]
      exact final_slice_length tq p.burstTime p.remainingTime hd (by clear h8 h9 h10; omega) (by clear h8 h9 h10; omega)
    · rw [if_neg hq]; clear h8 h9 h10 hd; omega
  refine ⟨hpid.trans h1, harr.trans h2, hburst.trans h3, hprio.trans h4, by clear h8 h9 h10; omega, by clear h8 h9 h10; omega,
    ?_, ?_, ?_, ?_⟩
  · rw [hpid, List.count_append, List.count_replicate]
    simp only [beq_self_eq_true, if_true]
    push_cast
    rw [h7, hburst, hrem, Int.toNat_of_nonneg (by clear h8 h9 h10 hd; omega)]
    clear h8 h9 h10 hd; omega
  · intro hq
    have hmin : min tq p.remainingTime = tq := by clear h8 h9 h10 hd; omega
    rw [hburst, hrem, hmin]
    have : p.burstTime - (p.remainingTime - tq) = (p.burstTime - p.remainingTime) + tq := by clear h8 h9 h10 hd; omega
    rw [this]
    exact dvd_add hd (dvd_refl tq)
  · intro _
    refine ⟨by clear h8 h9 h10; omega, g, [], ?_, hstart.symm, by simp⟩
    rw [hls, hpid]; simp
  · intro hq
    rw [hcompl hq, hstart, hls]

/-! ## Invariant of the unit-step loops -/

theorem sum_map_set (f : Process → Int) (l : List Process) :
    ∀ (i : Nat) (a : Process), i < l.length →
      ((l.set i a).map f).sum = (l.map f).sum - f (procAt l i) + f a := by
  induction l with
  | nil => intro i a hi; simp at hi
  | cons x xs ih =>
    intro i a hi
    cases i with
    | zero => simp [procAt_cons_zero]; omega
    | succ k =>
      have hk : k < xs.length := by simpa using hi
      simp only [List.set_cons_succ, List.map_cons, List.sum_cons, procAt_cons_succ, ih k a hk]
      omega

theorem procAt_eq_getElem (l : List Process) (i : Nat) (h : i < l.length) :
    procAt l i = l[i] := by
  unfold procAt
  exact List.getD_eq_getElem _ _ h

theorem busyUnits_append (g more : List Int) :
    busyUnits (g ++ more) = busyUnits g + busyUnits more := by
  unfold busyUnits
  exact List.countP_append _ _ _

theorem busyUnits_replicate (k : Nat) (x : Int) (hx : x ≠ 0) :
    busyUnits (List.replicate k x) = k := by
  unfold busyUnits
  rw [List.countP_eq_length.mpr, List.length_replicate]
  intro a ha
  rw [List.eq_of_mem_replicate ha]
  simpa using hx

theorem UnitInv_start (ps : List Process) (hwf : WellFormed ps) :
    UnitInv ps (SimState.start ps) := by
  refine ⟨rfl, by simp [SimState.start], rfl, ?_, ?_, ?_⟩
  · simp only [SimState.start]
    symm
    rw [List.countP_eq_zero]
    intro p hp
    obtain ⟨i, hi, rfl⟩ := List.mem_iff_getElem.mp hp
    have := hwf i hi
    rw [procAt_eq_getElem ps i hi] at this
    simp only [decide_eq_true_eq]
    omega
  · simp only [SimState.start, busyUnits, List.countP_nil, Nat.cast_zero]
    symm
    apply List.sum_eq_zero
    intro x hx
    obtain ⟨p, hp, rfl⟩ := List.mem_map.mp hx
    obtain ⟨i, hi, rfl⟩ := List.mem_iff_getElem.mp hp
    have := hwf i hi
    rw [procAt_eq_getElem ps i hi] at this
    omega
  · intro i hi
    have := hwf i hi
    refine ⟨ProcInv_start 1 _ this.2.2.2 this.2.2.1, ?_⟩
    simp only [SimState.start, flagAt_replicate]
    constructor
    · intro h; cases h
    · intro h; omega

theorem runUnit_some (s : SimState) (idx : Nat) :
    ∃ q : Process,
      q.pid = (procAt s.processes idx).pid ∧
      q.arrivalTime = (procAt s.processes idx).arrivalTime ∧
      q.burstTime = (procAt s.processes idx).burstTime ∧
      q.priority = (procAt s.processes idx).priority ∧
      q.remainingTime = (procAt s.processes idx).remainingTime - 1 ∧
      q.startTime = s.currentTime ∧
      (q.remainingTime = 0 → q.completionTime = s.currentTime + 1) ∧
      (runUnit s (some idx)).processes = s.processes.set idx q ∧
      (runUnit s (some idx)).finished =
        (if q.remainingTime = 0 then s.finished.set idx true else s.finished) ∧
      (runUnit s (some idx)).currentTime = s.currentTime + 1 ∧
      (runUnit s (some idx)).completed =
        (if q.remainingTime = 0 then s.completed + 1 else s.completed) ∧
      (runUnit s (some idx)).gantt = s.gantt ++ [(procAt s.processes idx).pid] := by
  by_cases hz : (procAt s.processes idx).remainingTime - 1 = 0
  · refine ⟨{ executeProcess { procAt s.processes idx with startTime := s.currentTime } 1 with
        completionTime := s.currentTime + 1 }, rfl, rfl, rfl, rfl, rfl, rfl, fun _ => rfl, ?_⟩
    simp [runUnit, executeProcess, hz]
  · refine ⟨executeProcess { procAt s.processes idx with startTime := s.currentTime } 1,
      rfl, rfl, rfl, rfl, rfl, rfl, ?_, ?_⟩
    · intro h; exact absurd h hz
    · simp [runUnit, executeProcess, hz]

theorem UnitInv_pid (ps0 : List Process) (s : SimState) (hwf : WellFormed ps0)
    (hs : UnitInv ps0 s) (i : Nat) (hi : i < ps0.length) :
    (procAt s.processes i).pid = (i : Int) + 1 := by
  rw [(hs.2.2.2.2.2 i hi).1.1]
  exact (hwf i hi).1

theorem UnitInv_runUnit (ps0 : List Process) (s : SimState) (sel : Option Nat)
    (hwf : WellFormed ps0) (hs : UnitInv ps0 s)
    (hsel : ∀ i, sel = some i → i < ps0.length ∧ flagAt s.finished i = false ∧
      (procAt s.processes i).arrivalTime ≤ s.currentTime) :
    UnitInv ps0 (runUnit s sel) := by
  have hpid := UnitInv_pid ps0 s hwf hs
  obtain ⟨hl1, hl2, ht, hc, hb, hp⟩ := hs
  cases sel with
  | none =>
    refine ⟨hl1, hl2, ?_, hc, ?_, ?_⟩
    · simp only [runUnit, List.length_append, List.length_singleton]
      push_cast
      omega
    · simp only [runUnit, busyUnits_append]
      rw [← hb]
      simp [busyUnits]
    · intro i hi
      refine ⟨ProcInv_append 1 (procAt ps0 i) (procAt s.processes i) s.gantt [0]
        (hp i hi).1 ?_, (hp i hi).2⟩
      have := hpid i hi
      simp only [List.mem_singleton]
      omega
  | some idx =>
    obtain ⟨hidx, hfin, harr⟩ := hsel idx rfl
    obtain ⟨q, q1, q2, q3, q4, q5, q6, q7, e1, e2, e3, e4, e5⟩ := runUnit_some s idx
    have hidx2 : idx < s.processes.length := by omega
    have hrem : 0 < (procAt s.processes idx).remainingTime := by
      have h1 := (hp idx hidx).2
      have h2 := (hp idx hidx).1.2.2.2.2.1
      have h3 : (procAt s.processes idx).remainingTime ≠ 0 := by
        intro h0
        rw [h1.mpr h0] at hfin
        cases hfin
      omega
    have hmin : min 1 (procAt s.processes idx).remainingTime = 1 := by omega
    refine ⟨?_, ?_, ?_, ?_, ?_, ?_⟩
    · rw [e1, List.length_set]; exact hl1
    · rw [e2]; split_ifs
      · rw [List.length_set]; exact hl2
      · exact hl2
    · rw [e3, e5, List.length_append, List.length_singleton]
      push_cast
      omega
    · rw [e1, e4, List.countP_set _ _ _ _ hidx2, ← procAt_eq_getElem _ _ hidx2, ← hc]
      have hn : ¬ (procAt s.processes idx).remainingTime = 0 := by omega
      simp only [decide_eq_true_eq, hn, if_false, Nat.sub_zero]
      split_ifs <;> rfl
    · rw [e1, e5, busyUnits_append, sum_map_set _ _ _ _ hidx2, q3, q5]
      have h1 : busyUnits [(procAt s.processes idx).pid] = 1 := by
        have := hpid idx hidx
        have := busyUnits_replicate 1 (procAt s.processes idx).pid (by omega)
        simpa using this
      rw [h1]
      push_cast
      omega
    · intro i hi
      rw [e1, e5, procAt_set]
      by_cases hii : idx = i
      · subst hii
        rw [if_pos ⟨rfl, hidx2⟩]
        constructor
        · have := ProcInv_run 1 (procAt ps0 idx) (procAt s.processes idx) q s.gantt
            (hp idx hidx).1 (le_refl _) hrem (by rw [ht]; exact harr) q1 q2 q3 q4
            (by rw [hmin]; exact q5) (by rw [ht]; exact q6)
            (by rw [hmin, ht]; exact q7)
          rw [hmin] at this
          simpa using this
        · rw [e2]
          by_cases hq : q.remainingTime = 0
          · rw [if_pos hq, flagAt_set, if_pos ⟨rfl, by omega⟩]
            simp [hq]
          · rw [if_neg hq, hfin]
            simp [hq]
      · have hne : ¬ (idx = i ∧ idx < s.processes.length) := fun h => hii h.1
        rw [if_neg hne]
        constructor
        · apply ProcInv_append _ _ _ _ _ (hp i hi).1
          have h1 := hpid i hi
          have h2 := hpid idx hidx
          simp only [List.mem_singleton]
          omega
        · rw [e2]
          split_ifs
          · rw [flagAt_set, if_neg (fun h => hii h.1)]
            exact (hp i hi).2
          · exact (hp i hi).2

/-! ## Progress of the unit-step loops -/

theorem workLeft_lt (ps ps1 : List Process) (t t1 : Int) (hlen : ps1.length = ps.length)
    (hle : ∀ i, i < ps.length →
      (procAt ps1 i).remainingTime.toNat + ((procAt ps1 i).arrivalTime - t1).toNat ≤
      (procAt ps i).remainingTime.toNat + ((procAt ps i).arrivalTime - t).toNat)
    (hlt : ∃ i, i < ps.length ∧
      (procAt ps1 i).remainingTime.toNat + ((procAt ps1 i).arrivalTime - t1).toNat <
      (procAt ps i).remainingTime.toNat + ((procAt ps i).arrivalTime - t).toNat) :
    workLeft ps1 t1 < workLeft ps t := by
  unfold workLeft
  rw [hlen]
  apply Finset.sum_lt_sum
  · intro i hi
    exact hle i (Finset.mem_range.mp hi)
  · obtain ⟨i, hi, h⟩ := hlt
    exact ⟨i, Finset.mem_range.mpr hi, h⟩

theorem exists_unfinished (ps : List Process) (c : Nat)
    (hc : c = ps.countP (fun p => decide (p.remainingTime = 0))) (hlt : c < ps.length) :
    ∃ i, i < ps.length ∧ (procAt ps i).remainingTime ≠ 0 := by
  by_contra hno
  have hall : ps.countP (fun p => decide (p.remainingTime = 0)) = ps.length := by
    rw [List.countP_eq_length]
    intro p hp
    obtain ⟨i, hi, rfl⟩ := List.mem_iff_getElem.mp hp
    simp only [decide_eq_true_eq]
    by_contra hne
    exact hno ⟨i, hi, by rw [procAt_eq_getElem ps i hi]; exact hne⟩
  omega

theorem all_finished (ps : List Process) (c : Nat)
    (hc : c = ps.countP (fun p => decide (p.remainingTime = 0))) (hge : ¬ c < ps.length) :
    ∀ i, i < ps.length → (procAt ps i).remainingTime = 0 := by
  have hle := List.countP_le_length (fun p : Process => decide (p.remainingTime = 0)) (l := ps)
  have hall : ps.countP (fun p => decide (p.remainingTime = 0)) = ps.length := by omega
  rw [List.countP_eq_length] at hall
  intro i hi
  have := hall (procAt ps i) (procAt_mem ps i hi)
  simpa using this

theorem UnitInv_progress (ps0 : List Process) (s : SimState) (sel : Option Nat)
    (hs : UnitInv ps0 s) (hcond : s.cond = true)
    (hsel : ∀ i, sel = some i → i < ps0.length ∧ flagAt s.finished i = false ∧
      (procAt s.processes i).arrivalTime ≤ s.currentTime)
    (hidle : sel = none → ∀ i, i < ps0.length → flagAt s.finished i = false →
      s.currentTime < (procAt s.processes i).arrivalTime) :
    workLeft (runUnit s sel).processes (runUnit s sel).currentTime <
      workLeft s.processes s.currentTime := by
  obtain ⟨hl1, hl2, ht, hc, hb, hp⟩ := hs
  have hlt : s.completed < s.processes.length := by
    simpa [SimState.cond] using hcond
  cases sel with
  | none =>
    apply workLeft_lt _ _ _ _ rfl
    · intro i hi
      simp only [runUnit]
      omega
    · obtain ⟨i, hi, hne⟩ := exists_unfinished s.processes s.completed hc hlt
      have hi0 : i < ps0.length := by omega
      have hf : flagAt s.finished i = false := by
        cases hfl : flagAt s.finished i with
        | false => rfl
        | true => exact absurd ((hp i hi0).2.mp hfl) hne
      have := hidle rfl i hi0 hf
      refine ⟨i, hi, ?_⟩
      simp only [runUnit]
      omega
  | some idx =>
    obtain ⟨hidx, hfin, harr⟩ := hsel idx rfl
    obtain ⟨q, q1, q2, q3, q4, q5, q6, q7, e1, e2, e3, e4, e5⟩ := runUnit_some s idx
    have hidx2 : idx < s.processes.length := by omega
    have hrem : 0 < (procAt s.processes idx).remainingTime := by
      have h1 := (hp idx hidx).2
      have h2 := (hp idx hidx).1.2.2.2.2.1
      have h3 : (procAt s.processes idx).remainingTime ≠ 0 := by
        intro h0
        rw [h1.mpr h0] at hfin
        cases hfin
      omega
    rw [e1, e3]
    apply workLeft_lt _ _ _ _ (List.length_set _ _ _)
    · intro i hi
      rw [procAt_set]
      by_cases hii : idx = i
      · subst hii
        rw [if_pos ⟨rfl, hidx2⟩, q2, q5]
        omega
      · rw [if_neg (fun h => hii h.1)]
        omega
    · refine ⟨idx, hidx2, ?_⟩
      rw [procAt_set, if_pos ⟨rfl, hidx2⟩, q2, q5]
      omega

theorem SRTF_step_inv (ps0 : List Process) (hwf : WellFormed ps0) (s : SimState)
    (hs : UnitInv ps0 s) : UnitInv ps0 (SRTF_step s) := by
  unfold SRTF_step
  apply UnitInv_runUnit ps0 s _ hwf hs
  intro i hi
  obtain ⟨a, b, c, _⟩ := (SRTF_select_spec s).2 i hi
  exact ⟨by rw [← hs.1]; exact a, b, c⟩

theorem Priority_step_inv (ps0 : List Process) (hwf : WellFormed ps0) (s : SimState)
    (hs : UnitInv ps0 s) : UnitInv ps0 (Priority_step s) := by
  unfold Priority_step
  apply UnitInv_runUnit ps0 s _ hwf hs
  intro i hi
  obtain ⟨a, b, c, _⟩ := (Priority_select_spec s).2 i hi
  exact ⟨by rw [← hs.1]; exact a, b, c⟩

theorem SRTF_step_progress (ps0 : List Process) (hmax : BurstBelowMax ps0) (s : SimState)
    (hs : UnitInv ps0 s) (hcond : s.cond = true) :
    workLeft (SRTF_step s).processes (SRTF_step s).currentTime <
      workLeft s.processes s.currentTime := by
  unfold SRTF_step
  apply UnitInv_progress ps0 s _ hs hcond
  · intro i hi
    obtain ⟨a, b, c, _⟩ := (SRTF_select_spec s).2 i hi
    exact ⟨by rw [← hs.1]; exact a, b, c⟩
  · intro hn i hi hf
    by_contra hnot
    have h1 := (SRTF_select_spec s).1 hn i (by rw [hs.1]; exact hi) hf (by omega)
    have h2 := (hs.2.2.2.2.2 i hi).1
    have h3 := hmax i hi
    have h4 := h2.2.2.1
    have h5 := h2.2.2.2.2.2.1
    omega

theorem Priority_step_progress (ps0 : List Process) (hmax : PriorityBelowMax ps0) (s : SimState)
    (hs : UnitInv ps0 s) (hcond : s.cond = true) :
    workLeft (Priority_step s).processes (Priority_step s).currentTime <
      workLeft s.processes s.currentTime := by
  unfold Priority_step
  apply UnitInv_progress ps0 s _ hs hcond
  · intro i hi
    obtain ⟨a, b, c, _⟩ := (Priority_select_spec s).2 i hi
    exact ⟨by rw [← hs.1]; exact a, b, c⟩
  · intro hn i hi hf
    by_contra hnot
    have h2 := (hs.2.2.2.2.2 i hi)
    have hr : 0 < (procAt s.processes i).remainingTime := by
      have h0 := h2.1.2.2.2.2.1
      have hne : (procAt s.processes i).remainingTime ≠ 0 := by
        intro h0
        rw [h2.2.mpr h0] at hf
        cases hf
      omega
    have h1 := (Priority_select_spec s).1 hn i (by rw [hs.1]; exact hi) hf (by omega) hr
    have h3 := hmax i hi
    have h4 := h2.1.2.2.2.1
    omega

theorem SRTF_terminates (ps : List Process) (hwf : WellFormed ps) (hmax : BurstBelowMax ps) :
    ∃ fuel r, SRTF ps fuel = some r := by
  unfold SRTF
  exact whileFuel_terminates SimState.cond SRTF_step (UnitInv ps)
    (fun s => workLeft s.processes s.currentTime)
    (fun s hs hc => ⟨SRTF_step_inv ps hwf s hs, SRTF_step_progress ps hmax s hs hc⟩)
    _ (UnitInv_start ps hwf)

theorem Priority_terminates (ps : List Process) (hwf : WellFormed ps)
    (hmax : PriorityBelowMax ps) :
    ∃ fuel r, PreemptivePriority ps fuel = some r := by
  unfold PreemptivePriority
  exact whileFuel_terminates SimState.cond Priority_step (UnitInv ps)
    (fun s => workLeft s.processes s.currentTime)
    (fun s hs hc => ⟨Priority_step_inv ps hwf s hs, Priority_step_progress ps hmax s hs hc⟩)
    _ (UnitInv_start ps hwf)

theorem SRTF_final (ps : List Process) (hwf : WellFormed ps) (fuel : Nat) (r : SimState)
    (h : SRTF ps fuel = some r) :
    UnitInv ps r ∧ ∀ i, i < ps.length → (procAt r.processes i).remainingTime = 0 := by
  unfold SRTF at h
  obtain ⟨hinv, hc⟩ := whileFuel_inv SimState.cond SRTF_step (UnitInv ps)
    (fun s hs _ => SRTF_step_inv ps hwf s hs) (UnitInv_start ps hwf) h
  refine ⟨hinv, ?_⟩
  intro i hi
  apply all_finished r.processes r.completed hinv.2.2.2.1
  · simpa [SimState.cond] using hc
  · rw [hinv.1]; exact hi

theorem Priority_final (ps : List Process) (hwf : WellFormed ps) (fuel : Nat) (r : SimState)
    (h : PreemptivePriority ps fuel = some r) :
    UnitInv ps r ∧ ∀ i, i < ps.length → (procAt r.processes i).remainingTime = 0 := by
  unfold PreemptivePriority at h
  obtain ⟨hinv, hc⟩ := whileFuel_inv SimState.cond Priority_step (UnitInv ps)
    (fun s hs _ => Priority_step_inv ps hwf s hs) (UnitInv_start ps hwf) h
  refine ⟨hinv, ?_⟩
  intro i hi
  apply all_finished r.processes r.completed hinv.2.2.2.1
  · simpa [SimState.cond] using hc
  · rw [hinv.1]; exact hi

/-! ## The arrival loop and the dispatch step of RoundRobin -/

theorem RR_enqueue_fold (ps : List Process) (t : Int) (q : List Nat) (inQ : List Bool) :
    ∀ k : Nat, k ≤ inQ.length →
      ((List.range k).foldl (RR_enqueue ps t) (q, inQ)).1 =
          q ++ (List.range k).filter (arrived ps inQ t) ∧
      ((List.range k).foldl (RR_enqueue ps t) (q, inQ)).2.length = inQ.length ∧
      ∀ j, flagAt ((List.range k).foldl (RR_enqueue ps t) (q, inQ)).2 j =
          (flagAt inQ j || (decide (j < k) && arrived ps inQ t j)) := by
  intro k
  induction k with
  | zero =>
    intro _
    refine ⟨by simp, rfl, ?_⟩
    intro j; simp
  | succ k ih =>
    intro hk
    obtain ⟨h1, h2, h3⟩ := ih (by omega)
    rw [List.range_succ, List.foldl_append]
    simp only [List.foldl_cons, List.foldl_nil]
    generalize (List.range k).foldl (RR_enqueue ps t) (q, inQ) = acc at h1 h2 h3
    have hk3 : flagAt acc.2 k = flagAt inQ k := by
      rw [h3 k]; simp
    by_cases hc : arrived ps inQ t k = true
    · have hc2 : flagAt acc.2 k = false ∧ (procAt ps k).arrivalTime ≤ t
          ∧ 0 < (procAt ps k).remainingTime := by
        rw [hk3]
        simpa [arrived] using hc
      unfold RR_enqueue
      rw [if_pos hc2]
      refine ⟨?_, ?_, ?_⟩
      · simp [h1, List.filter_append, hc]
      · simp [h2]
      · intro j
        simp only
        rw [flagAt_set, h3 j]
        by_cases hjk : k = j
        · subst hjk
          rw [if_pos ⟨rfl, by omega⟩]
          simp [hc]
        · rw [if_neg (fun h => hjk h.1)]
          have : (j < k + 1) ↔ (j < k) := by omega
          simp [this]
    · have hc2 : ¬ (flagAt acc.2 k = false ∧ (procAt ps k).arrivalTime ≤ t
          ∧ 0 < (procAt ps k).remainingTime) := by
        rw [hk3]
        simpa [arrived] using hc
      unfold RR_enqueue
      rw [if_neg hc2]
      have hcf : arrived ps inQ t k = false := by simpa using hc
      refine ⟨?_, h2, ?_⟩
      · simp [h1, List.filter_append, hcf]
      · intro j
        rw [h3 j]
        by_cases hjk : k = j
        · subst hjk
          simp [hcf]
        · have : (j < k + 1) ↔ (j < k) := by omega
          simp [this]

theorem RR_arrivals_spec (s : RRState) (hlen : s.inQueue.length = s.processes.length) :
    (RR_arrivals s).processes = s.processes ∧
    (RR_arrivals s).currentTime = s.currentTime ∧
    (RR_arrivals s).completed = s.completed ∧
    (RR_arrivals s).gantt = s.gantt ∧
    (RR_arrivals s).q = s.q ++ (List.range s.processes.length).filter
      (arrived s.processes s.inQueue s.currentTime) ∧
    (RR_arrivals s).inQueue.length = s.inQueue.length ∧
    ∀ j, flagAt (RR_arrivals s).inQueue j =
      (flagAt s.inQueue j ||
        (decide (j < s.processes.length) && arrived s.processes s.inQueue s.currentTime j)) := by
  obtain ⟨h1, h2, h3⟩ := RR_enqueue_fold s.processes s.currentTime s.q s.inQueue
    s.processes.length (by omega)
  exact ⟨rfl, rfl, rfl, rfl, h1, h2, h3⟩

theorem RR_dispatch_nil (tq : Int) (s : RRState) (hq : s.q = []) :
    RR_dispatch tq s = { s with gantt := s.gantt ++ [0], currentTime := s.currentTime + 1 } := by
  unfold RR_dispatch
  rw [hq]

theorem RR_dispatch_cons (tq : Int) (s : RRState) (idx : Nat) (rest : List Nat)
    (hq : s.q = idx :: rest) :
    ∃ p : Process,
      p.pid = (procAt s.processes idx).pid ∧
      p.arrivalTime = (procAt s.processes idx).arrivalTime ∧
      p.burstTime = (procAt s.processes idx).burstTime ∧
      p.priority = (procAt s.processes idx).priority ∧
      p.remainingTime = (procAt s.processes idx).remainingTime -
        min tq (procAt s.processes idx).remainingTime ∧
      p.startTime = s.currentTime ∧
      (¬ 0 < p.remainingTime → p.completionTime =
        s.currentTime + min tq (procAt s.processes idx).remainingTime) ∧
      (RR_dispatch tq s).processes = s.processes.set idx p ∧
      (RR_dispatch tq s).inQueue = s.inQueue ∧
      (RR_dispatch tq s).q = (if 0 < p.remainingTime then rest ++ [idx] else rest) ∧
      (RR_dispatch tq s).currentTime =
        s.currentTime + min tq (procAt s.processes idx).remainingTime ∧
      (RR_dispatch tq s).completed =
        (if 0 < p.remainingTime then s.completed else s.completed + 1) ∧
      (RR_dispatch tq s).gantt = s.gantt ++
        List.replicate (min tq (procAt s.processes idx).remainingTime).toNat
          (procAt s.processes idx).pid := by
  by_cases hz : 0 < (procAt s.processes idx).remainingTime -
      min tq (procAt s.processes idx).remainingTime
  · refine ⟨executeProcess { procAt s.processes idx with startTime := s.currentTime }
        (min tq (procAt s.processes idx).remainingTime),
      rfl, rfl, rfl, rfl, rfl, rfl, ?_, ?_⟩
    · intro h; exact absurd hz h
    · unfold RR_dispatch
      rw [hq]
      simp [executeProcess, hz]
  · refine ⟨{ executeProcess { procAt s.processes idx with startTime := s.currentTime }
          (min tq (procAt s.processes idx).remainingTime) with
        completionTime := s.currentTime + min tq (procAt s.processes idx).remainingTime },
      rfl, rfl, rfl, rfl, rfl, rfl, fun _ => rfl, ?_⟩
    unfold RR_dispatch
    rw [hq]
    simp [executeProcess, hz]

/-! ## Invariant of the RoundRobin loop -/

theorem RRInv_start (tq : Int) (ps : List Process) (hwf : WellFormed ps) :
    RRInv tq ps (RRState.start ps) := by
  have hu := UnitInv_start ps hwf
  refine ⟨rfl, by simp [RRState.start], rfl, hu.2.2.2.1, hu.2.2.2.2.1, List.nodup_nil, ?_, ?_⟩
  · intro i hi; simp [RRState.start] at hi
  · intro i hi
    have := hwf i hi
    refine ⟨ProcInv_start tq _ this.2.2.2 this.2.2.1, fun _ => this.2.2.2, ?_⟩
    intro h
    simp [RRState.start, flagAt_replicate] at h

theorem RRInv_pid (tq : Int) (ps0 : List Process) (s : RRState) (hwf : WellFormed ps0)
    (hs : RRInv tq ps0 s) (i : Nat) (hi : i < ps0.length) :
    (procAt s.processes i).pid = (i : Int) + 1 := by
  rw [(hs.2.2.2.2.2.2.2 i hi).1.1]
  exact (hwf i hi).1

theorem RRInv_arrivals (tq : Int) (ps0 : List Process) (s : RRState) (hs : RRInv tq ps0 s) :
    RRInv tq ps0 (RR_arrivals s) ∧
    ∀ i, i < ps0.length → flagAt (RR_arrivals s).inQueue i = false →
      ¬ ((procAt s.processes i).arrivalTime ≤ s.currentTime ∧
        0 < (procAt s.processes i).remainingTime) := by
  obtain ⟨hl1, hl2, ht, hc, hb, hnd, hq, hp⟩ := hs
  obtain ⟨a1, a2, a3, a4, a5, a6, a7⟩ := RR_arrivals_spec s (by omega)
  have hmem : ∀ i, i ∈ (List.range s.processes.length).filter
      (arrived s.processes s.inQueue s.currentTime) →
      i < ps0.length ∧ flagAt s.inQueue i = false ∧
      (procAt s.processes i).arrivalTime ≤ s.currentTime ∧
      0 < (procAt s.processes i).remainingTime := by
    intro i hi
    rw [List.mem_filter, List.mem_range] at hi
    have h2 : flagAt s.inQueue i = false ∧ (procAt s.processes i).arrivalTime ≤ s.currentTime
        ∧ 0 < (procAt s.processes i).remainingTime := by
      simpa [arrived] using hi.2
    exact ⟨by omega, h2⟩
  constructor
  · refine ⟨by rw [a1]; exact hl1, by rw [a6]; exact hl2, by rw [a4, a2]; exact ht,
      by rw [a3, a1]; exact hc, by rw [a4, a1]; exact hb, ?_, ?_, ?_⟩
    · rw [a5, List.nodup_append]
      refine ⟨hnd, List.Nodup.filter _ (List.nodup_range _), ?_⟩
      intro i hi1 hi2
      have h1 := (hq i hi1).2.1
      have h2 := (hmem i hi2).2.1
      rw [h1] at h2
      cases h2
    · intro i hi
      rw [a5, List.mem_append] at hi
      rw [a7, a1]
      rcases hi with hi | hi
      · obtain ⟨h1, h2, h3⟩ := hq i hi
        exact ⟨h1, by simp [h2], h3⟩
      · obtain ⟨h1, h2, h3, h4⟩ := hmem i hi
        refine ⟨h1, ?_, h4⟩
        have : arrived s.processes s.inQueue s.currentTime i = true := by
          simp [arrived, h2, h3, h4]
        simp [this, hl1, h1]
    · intro i hi
      obtain ⟨p1, p2, p3⟩ := hp i hi
      rw [a1, a4, a7, a2, a5]
      refine ⟨p1, ?_, ?_⟩
      · intro hf
        apply p2
        cases hfl : flagAt s.inQueue i with
        | false => rfl
        | true => rw [hfl] at hf; simp at hf
      · intro hf
        cases hfl : flagAt s.inQueue i with
        | true =>
          obtain ⟨p4, p5⟩ := p3 hfl
          exact ⟨p4, fun hr => List.mem_append_left _ (p5 hr)⟩
        | false =>
          rw [hfl] at hf
          have harr : arrived s.processes s.inQueue s.currentTime i = true := by
            have hf2 : i < s.processes.length ∧
                arrived s.processes s.inQueue s.currentTime i = true := by simpa using hf
            exact hf2.2
          have h2 : flagAt s.inQueue i = false ∧
              (procAt s.processes i).arrivalTime ≤ s.currentTime
              ∧ 0 < (procAt s.processes i).remainingTime := by
            simpa [arrived] using harr
          refine ⟨h2.2.1, fun _ => List.mem_append_right _ ?_⟩
          rw [List.mem_filter, List.mem_range]
          exact ⟨by omega, harr⟩
  · intro i hi hf hcond
    rw [a7] at hf
    have h1 : flagAt s.inQueue i = false := by
      cases hfl : flagAt s.inQueue i with
      | false => rfl
      | true => rw [hfl] at hf; simp at hf
    have h2 : arrived s.processes s.inQueue s.currentTime i = true := by
      simp [arrived, h1, hcond.1, hcond.2]
    rw [h1, h2] at hf
    simp [hl1, hi] at hf

theorem RRInv_dispatch (tq : Int) (ps0 : List Process) (s : RRState) (htq : 1 ≤ tq)
    (hwf : WellFormed ps0) (hs : RRInv tq ps0 s) : RRInv tq ps0 (RR_dispatch tq s) := by
  have hpid := RRInv_pid tq ps0 s hwf hs
  obtain ⟨hl1, hl2, ht, hc, hb, hnd, hq, hp⟩ := hs
  cases hqs : s.q with
  | nil =>
    rw [RR_dispatch_nil tq s hqs]
    refine ⟨hl1, hl2, ?_, hc, ?_, hnd, hq, ?_⟩
    · simp only [List.length_append, List.length_singleton]
      push_cast
      omega
    · simp only [busyUnits_append]
      rw [← hb]
      simp [busyUnits]
    · intro i hi
      obtain ⟨p1, p2, p3⟩ := hp i hi
      refine ⟨ProcInv_append tq (procAt ps0 i) (procAt s.processes i) s.gantt [0] p1 ?_, p2, ?_⟩
      · have := hpid i hi
        simp only [List.mem_singleton]
        omega
      · intro hf
        obtain ⟨p4, p5⟩ := p3 hf
        exact ⟨by simp only; omega, p5⟩
  | cons idx rest =>
    obtain ⟨p, q1, q2, q3, q4, q5, q6, q7, e1, e2, e3, e4, e5, e6⟩ :=
      RR_dispatch_cons tq s idx rest hqs
    rw [hqs] at hnd hq
    obtain ⟨hidx, hinq, hrem⟩ := hq idx (List.mem_cons_self _ _)
    have hidx2 : idx < s.processes.length := by omega
    rw [List.nodup_cons] at hnd
    have hexec : 1 ≤ min tq (procAt s.processes idx).remainingTime := by omega
    have hp0 : 0 ≤ p.remainingTime := by omega
    refine ⟨?_, ?_, ?_, ?_, ?_, ?_, ?_, ?_⟩
    · rw [e1, List.length_set]; exact hl1
    · rw [e2]; exact hl2
    · rw [e4, e6, List.length_append, List.length_replicate]
      push_cast
      rw [Int.toNat_of_nonneg (by omega)]
      omega
    · rw [e1, e5, List.countP_set _ _ _ _ hidx2, ← procAt_eq_getElem _ _ hidx2, ← hc]
      have hn : ¬ (procAt s.processes idx).remainingTime = 0 := by omega
      simp only [decide_eq_true_eq, hn, if_false, Nat.sub_zero]
      by_cases hpr : 0 < p.remainingTime
      · rw [if_pos hpr, if_neg (by omega)]; rfl
      · rw [if_neg hpr, if_pos (by omega)]
    · rw [e1, e6, busyUnits_append, sum_map_set _ _ _ _ hidx2, q3, q5,
        busyUnits_replicate _ _ (by have := hpid idx hidx; omega)]
      push_cast
      rw [Int.toNat_of_nonneg (by omega)]
      omega
    · rw [e3]
      split_ifs
      · rw [List.nodup_append]
        refine ⟨hnd.2, List.nodup_singleton _, ?_⟩
        intro i hi1 hi2
        rw [List.mem_singleton] at hi2
        subst hi2
        exact hnd.1 hi1
      · exact hnd.2
    · intro i hi
      rw [e1, e2, procAt_set]
      have hcase : (i = idx ∧ 0 < p.remainingTime) ∨ i ∈ rest := by
        rw [e3] at hi
        split_ifs at hi with hpr
        · rcases List.mem_append.mp hi with h | h
          · exact Or.inr h
          · exact Or.inl ⟨List.mem_singleton.mp h, hpr⟩
        · exact Or.inr hi
      rcases hcase with ⟨hii, hpr⟩ | hir
      · subst hii
        rw [if_pos ⟨rfl, hidx2⟩]
        exact ⟨hidx, hinq, hpr⟩
      · have hne : idx ≠ i := fun h => hnd.1 (h ▸ hir)
        rw [if_neg (fun h => hne h.1)]
        exact hq i (List.mem_cons_of_mem _ hir)
    · intro i hi
      obtain ⟨p1, p2, p3⟩ := hp i hi
      rw [e1, e2, e3, e4, e6, procAt_set]
      by_cases hii : idx = i
      · subst hii
        rw [if_pos ⟨rfl, hidx2⟩]
        refine ⟨?_, ?_, ?_⟩
        · exact ProcInv_run tq (procAt ps0 idx) (procAt s.processes idx) p s.gantt
            p1 htq hrem (by rw [ht]; exact (p3 hinq).1) q1 q2 q3 q4 q5 (by rw [ht]; exact q6)
            (by intro h0; rw [ht]; exact q7 (by omega))
        · intro hf; rw [hinq] at hf; cases hf
        · intro _
          refine ⟨by have := (p3 hinq).1; omega, ?_⟩
          intro hpr
          rw [if_pos hpr]
          exact List.mem_append_right _ (List.mem_singleton_self _)
      · rw [if_neg (fun h => hii h.1)]
        refine ⟨?_, p2, ?_⟩
        · apply ProcInv_append tq (procAt ps0 i) (procAt s.processes i) s.gantt _ p1
          intro hmem
          have h1 := List.eq_of_mem_replicate hmem
          have h2 := hpid i hi
          have h3 := hpid idx hidx
          omega
        · intro hf
          obtain ⟨p4, p5⟩ := p3 hf
          refine ⟨by omega, ?_⟩
          intro hr
          have hmem := p5 hr
          rw [hqs] at hmem
          have hir : i ∈ rest := by
            rcases List.mem_cons.mp hmem with h | h
            · exact absurd h.symm hii
            · exact h
          split_ifs
          · exact List.mem_append_left _ hir
          · exact hir

theorem RR_step_inv (tq : Int) (ps0 : List Process) (htq : 1 ≤ tq) (hwf : WellFormed ps0)
    (s : RRState) (hs : RRInv tq ps0 s) : RRInv tq ps0 (RR_step tq s) := by
  unfold RR_step
  exact RRInv_dispatch tq ps0 _ htq hwf (RRInv_arrivals tq ps0 s hs).1

/-! ## Progress of the RoundRobin loop -/

theorem RR_step_progress (tq : Int) (ps0 : List Process) (htq : 1 ≤ tq)
    (s : RRState) (hs : RRInv tq ps0 s) (hcond : s.cond = true) :
    workLeft (RR_step tq s).processes (RR_step tq s).currentTime <
      workLeft s.processes s.currentTime := by
  obtain ⟨hinv, hpost⟩ := RRInv_arrivals tq ps0 s hs
  obtain ⟨a1, a2, a3, a4, a5, a6, a7⟩ := RR_arrivals_spec s (by rw [hs.1, hs.2.1])
  have hlt : s.completed < s.processes.length := by
    simpa [RRState.cond] using hcond
  unfold RR_step
  rw [← a1, ← a2]
  generalize RR_arrivals s = s1 at hinv hpost a1 a2 a3 a4 a5 a6 a7
  obtain ⟨hl1, hl2, ht, hc, hb, hnd, hq, hp⟩ := hinv
  cases hqs : s1.q with
  | nil =>
    rw [RR_dispatch_nil tq s1 hqs]
    apply workLeft_lt _ _ _ _ rfl
    · intro i hi
      simp only
      omega
    · obtain ⟨i, hi, hne⟩ := exists_unfinished s1.processes s1.completed hc (by rw [a3, a1]; exact hlt)
      have hi0 : i < ps0.length := by omega
      obtain ⟨p1, p2, p3⟩ := hp i hi0
      have hr0 := p1.2.2.2.2.1
      have hf : flagAt s1.inQueue i = false := by
        cases hfl : flagAt s1.inQueue i with
        | false => rfl
        | true =>
          have := (p3 hfl).2 (by omega)
          rw [hqs] at this
          simp at this
      have h1 := hpost i hi0 hf
      rw [← a1, ← a2] at h1
      refine ⟨i, hi, ?_⟩
      simp only
      have h2 : ¬ (procAt s1.processes i).arrivalTime ≤ s1.currentTime := by
        intro h; exact h1 ⟨h, by omega⟩
      omega
  | cons idx rest =>
    obtain ⟨p, q1, q2, q3, q4, q5, q6, q7, e1, e2, e3, e4, e5, e6⟩ :=
      RR_dispatch_cons tq s1 idx rest hqs
    obtain ⟨hidx, hinq, hrem⟩ := hq idx (by rw [hqs]; exact List.mem_cons_self _ _)
    have hidx2 : idx < s1.processes.length := by omega
    rw [e1, e4]
    apply workLeft_lt _ _ _ _ (List.length_set _ _ _)
    · intro i hi
      rw [procAt_set]
      by_cases hii : idx = i
      · subst hii
        rw [if_pos ⟨rfl, hidx2⟩, q2, q5]
        omega
      · rw [if_neg (fun h => hii h.1)]
        omega
    · refine ⟨idx, hidx2, ?_⟩
      rw [procAt_set, if_pos ⟨rfl, hidx2⟩, q2, q5]
      omega

theorem RR_terminates (ps : List Process) (tq : Int) (hwf : WellFormed ps) (htq : 1 ≤ tq) :
    ∃ fuel r, RoundRobin ps tq fuel = some r := by
  unfold RoundRobin
  exact whileFuel_terminates RRState.cond (RR_step tq) (RRInv tq ps)
    (fun s => workLeft s.processes s.currentTime)
    (fun s hs hc => ⟨RR_step_inv tq ps htq hwf s hs, RR_step_progress tq ps htq s hs hc⟩)
    _ (RRInv_start tq ps hwf)

theorem RR_final (ps : List Process) (tq : Int) (hwf : WellFormed ps) (htq : 1 ≤ tq)
    (fuel : Nat) (r : RRState) (h : RoundRobin ps tq fuel = some r) :
    RRInv tq ps r ∧ ∀ i, i < ps.length → (procAt r.processes i).remainingTime = 0 := by
  unfold RoundRobin at h
  obtain ⟨hinv, hc⟩ := whileFuel_inv RRState.cond (RR_step tq) (RRInv tq ps)
    (fun s hs _ => RR_step_inv tq ps htq hwf s hs) (RRInv_start tq ps hwf) h
  refine ⟨hinv, ?_⟩
  intro i hi
  apply all_finished r.processes r.completed hinv.2.2.2.1
  · simpa [RRState.cond] using hc
  · rw [hinv.1]; exact hi

/-! ## What the invariant gives once a process has completed -/

theorem ProcInv_final (tq : Int) (p0 p : Process) (g : List Int) (h : ProcInv tq p0 p g)
    (htq : 1 ≤ tq) (hr : p.remainingTime = 0) (hb : 1 ≤ p.burstTime) :
    EndsWithSlice ((p.burstTime - 1) % tq + 1) p g ∧
    p.arrivalTime ≤ p.startTime ∧ p.startTime ≤ p.completionTime ∧
    (g.count p.pid : Int) = p.burstTime := by
  obtain ⟨h1, h2, h3, h4, h5, h6, h7, h8, h9, h10⟩ := h
  have hL : lastSlice tq p = (p.burstTime - 1) % tq + 1 := by
    unfold lastSlice; rw [if_pos hr]
  have hpos : 0 ≤ (p.burstTime - 1) % tq := Int.emod_nonneg _ (by omega)
  have hc := h10 hr
  rw [hL] at hc
  obtain ⟨ha, pre, post, hg, hlen, hnot⟩ := h9 (by omega)
  rw [hL] at hg
  have hL1 : 1 ≤ (p.burstTime - 1) % tq + 1 := by
    clear h8 h9 h10
    omega
  generalize (p.burstTime - 1) % tq + 1 = L at hc hg hL1
  refine ⟨⟨by clear h8 h9 h10; omega, ?_, ?_⟩, ha, by clear h8 h9 h10; omega,
    by rw [h7, hr]; simp⟩
  · intro j hj1 hj2
    have hj3 : pre.length ≤ j := by clear h8 h9 h10; omega
    have hj4 : j - pre.length < L.toNat := by clear h8 h9 h10; omega
    rw [hg, List.getElem?_append_left (by simp; clear h8 h9 h10; omega),
      List.getElem?_append_right hj3, List.getElem?_replicate, if_pos hj4]
  · intro j hj hcontra
    rw [hg, List.getElem?_append_right (by simp; clear h8 h9 h10; omega)] at hcontra
    exact hnot (List.getElem?_mem hcontra)

theorem sum_map_congr_index (f g : Process → Int) (l1 l2 : List Process)
    (hlen : l1.length = l2.length)
    (h : ∀ i, i < l2.length → f (procAt l1 i) = g (procAt l2 i)) :
    (l1.map f).sum = (l2.map g).sum := by
  have : l1.map f = l2.map g := by
    apply List.ext_getElem
    · simp [hlen]
    · intro n h1 h2
      simp only [List.length_map] at h1 h2
      simp only [List.getElem_map]
      have := h n h2
      rw [procAt_eq_getElem l1 n h1, procAt_eq_getElem l2 n h2] at this
      exact this
  rw [this]

theorem FCFS_loop_busy (ps : List Process) :
    ∀ (t : Int) (g : List Int), (∀ p ∈ ps, p.pid ≠ 0 ∧ 0 ≤ p.burstTime) →
      (busyUnits (FCFS_loop ps t g).gantt : Int) = busyUnits g + totalBurst ps := by
  induction ps with
  | nil => intro t g _; simp [FCFS_loop, totalBurst]
  | cons p rest ih =>
    intro t g h
    have hp := h p (List.mem_cons_self _ _)
    rw [FCFS_loop_gantt_cons, ih _ _ (fun q hq => h q (List.mem_cons_of_mem _ hq)),
      busyUnits_append, busyUnits_replicate _ _ hp.1]
    simp only [totalBurst, List.map_cons, List.sum_cons]
    push_cast
    rw [Int.toNat_of_nonneg hp.2]
    omega

theorem WellFormed.mem {ps : List Process} (h : WellFormed ps) (p : Process) (hp : p ∈ ps) :
    p.pid ≠ 0 ∧ 0 ≤ p.arrivalTime ∧ 1 ≤ p.burstTime ∧ p.remainingTime = p.burstTime := by
  obtain ⟨i, hi, rfl⟩ := List.mem_iff_getElem.mp hp
  have := h i hi
  rw [procAt_eq_getElem ps i hi] at this
  exact ⟨by omega, this.2⟩

/-- Final state of a unit-step loop: every process has completed, its records
and the Gantt vector agree. -/
theorem UnitInv_done (ps : List Process) (hwf : WellFormed ps) (r : SimState)
    (hinv : UnitInv ps r)
    (hdone : ∀ i, i < ps.length → (procAt r.processes i).remainingTime = 0) :
    (r.gantt.length : Int) = r.currentTime ∧
    (busyUnits r.gantt : Int) = totalBurst ps ∧
    ∀ i, i < ps.length →
      (procAt r.processes i).pid = (procAt ps i).pid ∧
      (procAt r.processes i).arrivalTime = (procAt ps i).arrivalTime ∧
      (procAt r.processes i).burstTime = (procAt ps i).burstTime ∧
      (r.gantt.count (procAt ps i).pid : Int) = (procAt ps i).burstTime ∧
      EndsWithSlice 1 (procAt r.processes i) r.gantt ∧
      (procAt r.processes i).arrivalTime ≤ (procAt r.processes i).startTime ∧
      (procAt r.processes i).startTime ≤ (procAt r.processes i).completionTime := by
  obtain ⟨hl1, hl2, ht, hc, hb, hp⟩ := hinv
  refine ⟨ht, ?_, ?_⟩
  · rw [hb]
    unfold totalBurst
    apply sum_map_congr_index _ _ _ _ hl1
    intro i hi
    rw [hdone i hi, (hp i hi).1.2.2.1]
    omega
  · intro i hi
    have hpi := (hp i hi).1
    have hb1 : 1 ≤ (procAt r.processes i).burstTime := by
      rw [hpi.2.2.1]; exact (hwf i hi).2.2.1
    obtain ⟨f1, f2, f3, f4⟩ := ProcInv_final 1 _ _ _ hpi (le_refl _) (hdone i hi) hb1
    refine ⟨hpi.1, hpi.2.1, hpi.2.2.1, ?_, ?_, f2, f3⟩
    · rw [← hpi.1, f4, hpi.2.2.1]
    · have : ((procAt r.processes i).burstTime - 1) % 1 + 1 = 1 := by omega
      rw [this] at f1
      exact f1

/-- Final state of the RoundRobin loop: every process has completed, its
records and the Gantt vector agree. -/
theorem RRInv_done (tq : Int) (ps : List Process) (hwf : WellFormed ps) (htq : 1 ≤ tq)
    (r : RRState) (hinv : RRInv tq ps r)
    (hdone : ∀ i, i < ps.length → (procAt r.processes i).remainingTime = 0) :
    (r.gantt.length : Int) = r.currentTime ∧
    (busyUnits r.gantt : Int) = totalBurst ps ∧
    ∀ i, i < ps.length →
      (procAt r.processes i).pid = (procAt ps i).pid ∧
      (procAt r.processes i).arrivalTime = (procAt ps i).arrivalTime ∧
      (procAt r.processes i).burstTime = (procAt ps i).burstTime ∧
      (r.gantt.count (procAt ps i).pid : Int) = (procAt ps i).burstTime ∧
      EndsWithSlice (((procAt ps i).burstTime - 1) % tq + 1) (procAt r.processes i) r.gantt ∧
      (procAt r.processes i).arrivalTime ≤ (procAt r.processes i).startTime ∧
      (procAt r.processes i).startTime ≤ (procAt r.processes i).completionTime := by
  obtain ⟨hl1, hl2, ht, hc, hb, hnd, hq, hp⟩ := hinv
  refine ⟨ht, ?_, ?_⟩
  · rw [hb]
    unfold totalBurst
    apply sum_map_congr_index _ _ _ _ hl1
    intro i hi
    rw [hdone i hi, (hp i hi).1.2.2.1]
    omega
  · intro i hi
    have hpi := (hp i hi).1
    have hb1 : 1 ≤ (procAt r.processes i).burstTime := by
      rw [hpi.2.2.1]; exact (hwf i hi).2.2.1
    obtain ⟨f1, f2, f3, f4⟩ := ProcInv_final tq _ _ _ hpi htq (hdone i hi) hb1
    refine ⟨hpi.1, hpi.2.1, hpi.2.2.1, ?_, ?_, f2, f3⟩
    · rw [← hpi.1, f4, hpi.2.2.1]
    · rw [← hpi.2.2.1]
      exact f1

/-! ## Decision steps whose candidates are below the initial minimum -/

theorem FinishedDone_runUnit (s : SimState) (sel : Option Nat) (hs : FinishedDone s)
    (hsel : ∀ i, sel = some i → i < s.processes.length ∧ flagAt s.finished i = false) :
    FinishedDone (runUnit s sel) := by
  cases sel with
  | none => exact hs
  | some idx =>
    obtain ⟨hidx, hfalse⟩ := hsel idx rfl
    obtain ⟨q, q1, q2, q3, q4, q5, q6, q7, e1, e2, e3, e4, e5⟩ := runUnit_some s idx
    intro i hi
    rw [e1, procAt_set]
    rw [e2] at hi
    by_cases hii : idx = i
    · subst hii
      rw [if_pos ⟨rfl, hidx⟩]
      by_cases hq : q.remainingTime = 0
      · exact hq
      · rw [if_neg hq, hfalse] at hi
        cases hi
    · rw [if_neg (fun h => hii h.1)]
      apply hs
      split_ifs at hi
      · rw [flagAt_set, if_neg (fun h => hii h.1)] at hi
        exact hi
      · exact hi

theorem FinishedDone_start (ps : List Process) : FinishedDone (SimState.start ps) := by
  intro i hi
  simp [SimState.start, flagAt_replicate] at hi

/-- The decision step of `SRTF` in every state the loop reaches from a
well-formed input, when no process has `remainingTime = INT_MAX`: if some
process is eligible (arrived, `remainingTime > 0`) the selected one is
eligible, has the least `remainingTime` among the eligible and is the first
such in index order; if none is eligible nothing is selected and the iteration
only appends one idle entry and advances `currentTime` by 1. -/
theorem SRTF_decision_step (ps : List Process) (hwf : WellFormed ps) (k : Nat) (s : SimState)
    (hs : s = iterWhile SimState.cond SRTF_step k (SimState.start ps))
    (hmax : ∀ j, j < ps.length → (procAt s.processes j).remainingTime < INT_MAX) :
    ((∃ j, j < ps.length ∧ (procAt s.processes j).arrivalTime ≤ s.currentTime ∧
        0 < (procAt s.processes j).remainingTime) →
      ∃ i, SRTF_select s = some i ∧ i < ps.length ∧
        (procAt s.processes i).arrivalTime ≤ s.currentTime ∧
        0 < (procAt s.processes i).remainingTime ∧
        (∀ j, j < ps.length → (procAt s.processes j).arrivalTime ≤ s.currentTime →
          0 < (procAt s.processes j).remainingTime →
          (procAt s.processes i).remainingTime ≤ (procAt s.processes j).remainingTime) ∧
        (∀ j, j < i → (procAt s.processes j).arrivalTime ≤ s.currentTime →
          0 < (procAt s.processes j).remainingTime →
          (procAt s.processes j).remainingTime ≠ (procAt s.processes i).remainingTime)) ∧
    ((¬ ∃ j, j < ps.length ∧ (procAt s.processes j).arrivalTime ≤ s.currentTime ∧
        0 < (procAt s.processes j).remainingTime) →
      SRTF_select s = none ∧ (SRTF_step s).gantt = s.gantt ++ [0] ∧
      (SRTF_step s).currentTime = s.currentTime + 1 ∧
      (SRTF_step s).processes = s.processes ∧ (SRTF_step s).completed = s.completed) := by
  have hinv : UnitInv ps s := by
    rw [hs]
    exact iterWhile_inv SimState.cond SRTF_step (UnitInv ps)
      (fun s hs _ => SRTF_step_inv ps hwf s hs) k _ (UnitInv_start ps hwf)
  have hflag : ∀ j, j < ps.length →
      (flagAt s.finished j = false ↔ 0 < (procAt s.processes j).remainingTime) := by
    intro j hj
    obtain ⟨h1, h2⟩ := hinv.2.2.2.2.2 j hj
    have h0 := h1.2.2.2.2.1
    constructor
    · intro hf
      have hne : (procAt s.processes j).remainingTime ≠ 0 := by
        intro h; rw [h2.mpr h] at hf; cases hf
      omega
    · intro hr
      cases hfl : flagAt s.finished j with
      | false => rfl
      | true => have := h2.mp hfl; omega
  obtain ⟨sp1, sp2⟩ := SRTF_select_spec s
  have hlen := hinv.1
  cases hsel : SRTF_select s with
  | none =>
    constructor
    · rintro ⟨j, hj, ha, hr⟩
      have h1 := sp1 hsel j (by omega) ((hflag j hj).mpr hr) ha
      have h2 := hmax j hj
      omega
    · intro _
      refine ⟨rfl, ?_, ?_, ?_, ?_⟩ <;> simp [SRTF_step, hsel, runUnit]
  | some i =>
    obtain ⟨a, b, c, d, e, f⟩ := sp2 i hsel
    have hi : i < ps.length := by omega
    have hri := (hflag i hi).mp b
    constructor
    · intro _
      refine ⟨i, rfl, hi, c, hri, ?_, ?_⟩
      · intro j hj ha hr
        exact e j (by omega) ((hflag j hj).mpr hr) ha
      · intro j hj ha hr
        have := f j hj ((hflag j (by omega)).mpr hr) ha
        omega
    · intro hno
      exact absurd ⟨i, hi, c, hri⟩ hno

/-- The decision step of `PreemptivePriority` in every state the loop reaches
from any input, when no process has `priority = INT_MAX`: if some process is
eligible (arrived, `remainingTime > 0`) the selected one is eligible, has the
least `priority` among the eligible and is the first such in index order; if
none is eligible nothing is selected and the iteration only appends one idle
entry and advances `currentTime` by 1. -/
theorem Priority_decision_step (ps : List Process) (k : Nat) (s : SimState)
    (hs : s = iterWhile SimState.cond Priority_step k (SimState.start ps))
    (hmax : ∀ j, j < s.processes.length → (procAt s.processes j).priority < INT_MAX) :
    ((∃ j, j < s.processes.length ∧ (procAt s.processes j).arrivalTime ≤ s.currentTime ∧
        0 < (procAt s.processes j).remainingTime) →
      ∃ i, Priority_select s = some i ∧ i < s.processes.length ∧
        (procAt s.processes i).arrivalTime ≤ s.currentTime ∧
        0 < (procAt s.processes i).remainingTime ∧
        (∀ j, j < s.processes.length → (procAt s.processes j).arrivalTime ≤ s.currentTime →
          0 < (procAt s.processes j).remainingTime →
          (procAt s.processes i).priority ≤ (procAt s.processes j).priority) ∧
        (∀ j, j < i → (procAt s.processes j).arrivalTime ≤ s.currentTime →
          0 < (procAt s.processes j).remainingTime →
          (procAt s.processes j).priority ≠ (procAt s.processes i).priority)) ∧
    ((¬ ∃ j, j < s.processes.length ∧ (procAt s.processes j).arrivalTime ≤ s.currentTime ∧
        0 < (procAt s.processes j).remainingTime) →
      Priority_select s = none ∧ (Priority_step s).gantt = s.gantt ++ [0] ∧
      (Priority_step s).currentTime = s.currentTime + 1 ∧
      (Priority_step s).processes = s.processes ∧
      (Priority_step s).completed = s.completed) := by
  have hinv : FinishedDone s := by
    rw [hs]
    exact iterWhile_inv SimState.cond Priority_step FinishedDone
      (fun s hs _ => FinishedDone_runUnit s _ hs
        (fun i hi => ⟨((Priority_select_spec s).2 i hi).1,
          ((Priority_select_spec s).2 i hi).2.1⟩)) k _ (FinishedDone_start ps)
  have hflag : ∀ j, 0 < (procAt s.processes j).remainingTime → flagAt s.finished j = false := by
    intro j hr
    cases hfl : flagAt s.finished j with
    | false => rfl
    | true => have := hinv j hfl; omega
  obtain ⟨sp1, sp2⟩ := Priority_select_spec s
  cases hsel : Priority_select s with
  | none =>
    constructor
    · rintro ⟨j, hj, ha, hr⟩
      have h1 := sp1 hsel j hj (hflag j hr) ha hr
      have h2 := hmax j hj
      omega
    · intro _
      refine ⟨rfl, ?_, ?_, ?_, ?_⟩ <;> simp [Priority_step, hsel, runUnit]
  | some i =>
    obtain ⟨a, b, c, d, _, e, f⟩ := sp2 i hsel
    constructor
    · intro _
      refine ⟨i, rfl, a, c, d, ?_, ?_⟩
      · intro j hj ha hr
        exact e j hj (hflag j hr) ha hr
      · intro j hj ha hr
        have := f j hj (hflag j hr) ha hr
        omega
    · intro hno
      exact absurd ⟨i, a, c, d⟩ hno

/-! ## Input and reset -/

theorem procAt_map (f : Process → Process) (ps : List Process) (i : Nat) (hi : i < ps.length) :
    procAt (ps.map f) i = f (procAt ps i) := by
  rw [procAt_eq_getElem _ _ (by simpa using hi), procAt_eq_getElem _ _ hi, List.getElem_map]

theorem getPositiveInt_nonneg :
    ∀ (input : List (Option Int)) (x : Int) (rest : List (Option Int)),
      getPositiveInt input = some (x, rest) → 0 ≤ x := by
  intro input
  induction input with
  | nil => intro x rest h; simp [getPositiveInt] at h
  | cons e es ih =>
    intro x rest h
    cases e with
    | none => exact ih x rest (by simpa [getPositiveInt] using h)
    | some y =>
      by_cases hy : 0 ≤ y
      · simp only [getPositiveInt, if_pos hy, Option.some.injEq, Prod.mk.injEq] at h
        omega
      · simp only [getPositiveInt, if_neg hy] at h
        exact ih x rest h

/-! ## Loops on an input with a process that has no remaining time -/

theorem count_set_true (l : List Bool) (i : Nat) (hi : i < l.length)
    (hf : flagAt l i = false) : (l.set i true).count true = l.count true + 1 := by
  rw [List.count_set _ _ _ _ hi]
  have : l[i] = false := by
    unfold flagAt at hf
    rw [List.getD_eq_getElem _ _ hi] at hf
    exact hf
  simp [this]

theorem count_true_lt (l : List Bool) (z : Nat) (hz : z < l.length)
    (hf : flagAt l z = false) : l.count true < l.length := by
  have hle := List.count_le_length true l
  have hne : l.count true ≠ l.length := by
    intro heq
    rw [List.count_eq_length] at heq
    have h1 := heq l[z] (List.getElem_mem hz)
    unfold flagAt at hf
    rw [List.getD_eq_getElem _ _ hz] at hf
    rw [hf] at h1
    cases h1
  omega

theorem StuckUnit_start (ps : List Process) (z : Nat) (hz : z < ps.length)
    (hr : (procAt ps z).remainingTime = 0) : StuckUnit z (SimState.start ps) := by
  refine ⟨by simp [SimState.start], hz, ?_, flagAt_replicate _ _, hr⟩
  simp [SimState.start, List.count_replicate]

theorem StuckUnit_step (z : Nat) (s : SimState) (hs : StuckUnit z s) :
    StuckUnit z (Priority_step s) := by
  obtain ⟨h1, h2, h3, h4, h5⟩ := hs
  unfold Priority_step
  cases hsel : Priority_select s with
  | none => exact ⟨h1, h2, h3, h4, h5⟩
  | some idx =>
    obtain ⟨a, b, c, d, _⟩ := (Priority_select_spec s).2 idx hsel
    obtain ⟨q, q1, q2, q3, q4, q5, q6, q7, e1, e2, e3, e4, e5⟩ := runUnit_some s idx
    have hne : idx ≠ z := by
      intro h; rw [h] at d; omega
    refine ⟨?_, ?_, ?_, ?_, ?_⟩
    · rw [e1, e2, List.length_set]
      split_ifs
      · rw [List.length_set]; exact h1
      · exact h1
    · rw [e1, List.length_set]; exact h2
    · rw [e2, e4]
      split_ifs
      · rw [count_set_true _ _ (by omega) b, h3]
      · exact h3
    · rw [e2]
      split_ifs
      · rw [flagAt_set, if_neg (fun h => hne h.1)]; exact h4
      · exact h4
    · rw [e1, procAt_set, if_neg (fun h => hne h.1)]; exact h5

theorem StuckUnit_cond (z : Nat) (s : SimState) (hs : StuckUnit z s) : s.cond = true := by
  obtain ⟨h1, h2, h3, h4, h5⟩ := hs
  have := count_true_lt s.finished z (by omega) h4
  simp only [SimState.cond, decide_eq_true_eq]
  omega

theorem RR_enqueue_fold_count (ps : List Process) (t : Int) (q : List Nat) (inQ : List Bool) :
    ∀ k : Nat, k ≤ inQ.length →
      ((List.range k).foldl (RR_enqueue ps t) (q, inQ)).1.length + inQ.count true =
        q.length + ((List.range k).foldl (RR_enqueue ps t) (q, inQ)).2.count true := by
  intro k
  induction k with
  | zero => intro _; simp
  | succ k ih =>
    intro hk
    have h := ih (by omega)
    have hlen := (RR_enqueue_fold ps t q inQ k (by omega)).2.1
    rw [List.range_succ, List.foldl_append]
    simp only [List.foldl_cons, List.foldl_nil]
    generalize (List.range k).foldl (RR_enqueue ps t) (q, inQ) = acc at h hlen
    unfold RR_enqueue
    split_ifs with hc
    · simp only [List.length_append, List.length_singleton]
      rw [count_set_true _ _ (by omega) hc.1]
      omega
    · exact h

theorem StuckRR_start (ps : List Process) (z : Nat) (hz : z < ps.length)
    (hr : (procAt ps z).remainingTime = 0) : StuckRR z (RRState.start ps) := by
  refine ⟨by simp [RRState.start], hz, ?_, flagAt_replicate _ _, hr, by simp [RRState.start], ?_⟩
  · simp [RRState.start, List.count_replicate]
  · intro i hi; simp [RRState.start] at hi

theorem StuckRR_arrivals (z : Nat) (s : RRState) (hs : StuckRR z s) :
    StuckRR z (RR_arrivals s) := by
  obtain ⟨h1, h2, h3, h4, h5, h6, h7⟩ := hs
  obtain ⟨a1, a2, a3, a4, a5, a6, a7⟩ := RR_arrivals_spec s h1
  have hcnt := RR_enqueue_fold_count s.processes s.currentTime s.q s.inQueue
    s.processes.length (by omega)
  have hz : arrived s.processes s.inQueue s.currentTime z = false := by
    simp [arrived, h5]
  refine ⟨by rw [a6, a1]; exact h1, by rw [a1]; exact h2, ?_, ?_, by rw [a1]; exact h5, ?_, ?_⟩
  · have e1 : (RR_arrivals s).q = ((List.range s.processes.length).foldl
        (RR_enqueue s.processes s.currentTime) (s.q, s.inQueue)).1 := rfl
    have e2 : (RR_arrivals s).inQueue = ((List.range s.processes.length).foldl
        (RR_enqueue s.processes s.currentTime) (s.q, s.inQueue)).2 := rfl
    rw [a3, e1, e2]
    omega
  · rw [a7, h4, hz]; simp
  · rw [a5, List.mem_append]
    rintro (h | h)
    · exact h6 h
    · rw [List.mem_filter, hz] at h
      cases h.2
  · intro i hi
    rw [a1]
    rw [a5, List.mem_append] at hi
    rcases hi with h | h
    · exact h7 i h
    · rw [List.mem_filter, List.mem_range] at h
      exact h.1

theorem StuckRR_dispatch (tq : Int) (z : Nat) (s : RRState) (hs : StuckRR z s) :
    StuckRR z (RR_dispatch tq s) := by
  obtain ⟨h1, h2, h3, h4, h5, h6, h7⟩ := hs
  cases hqs : s.q with
  | nil =>
    rw [RR_dispatch_nil tq s hqs]
    exact ⟨h1, h2, h3, h4, h5, h6, h7⟩
  | cons idx rest =>
    obtain ⟨p, q1, q2, q3, q4, q5, q6, q7, e1, e2, e3, e4, e5, e6⟩ :=
      RR_dispatch_cons tq s idx rest hqs
    rw [hqs] at h3 h6 h7
    have hne : idx ≠ z := by
      intro h; exact h6 (by rw [h]; exact List.mem_cons_self _ _)
    have hzr : z ∉ rest := fun h => h6 (List.mem_cons_of_mem _ h)
    refine ⟨by rw [e1, e2, List.length_set]; exact h1, by rw [e1, List.length_set]; exact h2,
      ?_, by rw [e2]; exact h4, ?_, ?_, ?_⟩
    · rw [e2, e3, e5, ← h3]
      split_ifs
      · simp
      · simp only [List.length_cons]; omega
    · rw [e1, procAt_set, if_neg (fun h => hne h.1)]; exact h5
    · rw [e3]
      split_ifs
      · rw [List.mem_append, List.mem_singleton]
        rintro (h | h)
        · exact hzr h
        · exact hne h.symm
      · exact hzr
    · intro i hi
      rw [e1, List.length_set]
      rw [e3] at hi
      split_ifs at hi
      · rcases List.mem_append.mp hi with h | h
        · exact h7 i (List.mem_cons_of_mem _ h)
        · rw [List.mem_singleton.mp h]; exact h7 idx (List.mem_cons_self _ _)
      · exact h7 i (List.mem_cons_of_mem _ hi)

theorem StuckRR_cond (z : Nat) (s : RRState) (hs : StuckRR z s) : s.cond = true := by
  obtain ⟨h1, h2, h3, h4, h5, h6, h7⟩ := hs
  have := count_true_lt s.inQueue z (by omega) h4
  simp only [RRState.cond, decide_eq_true_eq]
  omega

/-! ## No process runs before it arrives -/

theorem NoEarlyRun_nil (ps0 : List Process) : NoEarlyRun ps0 [] := by
  intro j i _ h
  simp at h

theorem NoEarlyRun_append (ps0 : List Process) (g : List Int) (k : Nat) (x : Int)
    (h : NoEarlyRun ps0 g)
    (hx : ∀ i, i < ps0.length → x = (procAt ps0 i).pid →
      (procAt ps0 i).arrivalTime ≤ (g.length : Int)) :
    NoEarlyRun ps0 (g ++ List.replicate k x) := by
  intro j i hi hj
  by_cases hlt : j < g.length
  · rw [List.getElem?_append_left hlt] at hj
    exact h j i hi hj
  · rw [List.getElem?_append_right (by omega), List.getElem?_replicate] at hj
    by_cases hk : j - g.length < k
    · rw [if_pos hk] at hj
      simp only [Option.some.injEq] at hj
      have := hx i hi hj
      omega
    · rw [if_neg hk] at hj
      cases hj

theorem NoEarlyRun_runUnit (ps0 : List Process) (s : SimState) (sel : Option Nat)
    (hwf : WellFormed ps0) (hs : UnitInv ps0 s) (hn : NoEarlyRun ps0 s.gantt)
    (hsel : ∀ i, sel = some i → i < ps0.length ∧ flagAt s.finished i = false ∧
      (procAt s.processes i).arrivalTime ≤ s.currentTime) :
    NoEarlyRun ps0 (runUnit s sel).gantt := by
  cases sel with
  | none =>
    have : (runUnit s none).gantt = s.gantt ++ List.replicate 1 0 := rfl
    rw [this]
    apply NoEarlyRun_append _ _ _ _ hn
    intro i hi h0
    have := (hwf i hi).1
    omega
  | some idx =>
    obtain ⟨hidx, _, harr⟩ := hsel idx rfl
    obtain ⟨q, q1, q2, q3, q4, q5, q6, q7, e1, e2, e3, e4, e5⟩ := runUnit_some s idx
    have : (runUnit s (some idx)).gantt =
        s.gantt ++ List.replicate 1 (procAt s.processes idx).pid := by rw [e5]; rfl
    rw [this]
    apply NoEarlyRun_append _ _ _ _ hn
    intro i hi hpid
    have h1 := (hs.2.2.2.2.2 idx hidx).1
    have h2 := (hwf i hi).1
    have h3 := (hwf idx hidx).1
    have hii : i = idx := by
      have := h1.1
      omega
    subst hii
    rw [← h1.2.1, hs.2.2.1]
    exact harr

theorem SRTF_noEarly (ps : List Process) (hwf : WellFormed ps) (k : Nat) :
    UnitInv ps (iterWhile SimState.cond SRTF_step k (SimState.start ps)) ∧
    NoEarlyRun ps (iterWhile SimState.cond SRTF_step k (SimState.start ps)).gantt := by
  apply iterWhile_inv SimState.cond SRTF_step (fun s => UnitInv ps s ∧ NoEarlyRun ps s.gantt)
  · intro s hs _
    refine ⟨SRTF_step_inv ps hwf s hs.1, ?_⟩
    unfold SRTF_step
    apply NoEarlyRun_runUnit ps s _ hwf hs.1 hs.2
    intro i hi
    obtain ⟨a, b, c, _⟩ := (SRTF_select_spec s).2 i hi
    exact ⟨by rw [← hs.1.1]; exact a, b, c⟩
  · exact ⟨UnitInv_start ps hwf, NoEarlyRun_nil ps⟩

theorem Priority_noEarly (ps : List Process) (hwf : WellFormed ps) (k : Nat) :
    UnitInv ps (iterWhile SimState.cond Priority_step k (SimState.start ps)) ∧
    NoEarlyRun ps (iterWhile SimState.cond Priority_step k (SimState.start ps)).gantt := by
  apply iterWhile_inv SimState.cond Priority_step
    (fun s => UnitInv ps s ∧ NoEarlyRun ps s.gantt)
  · intro s hs _
    refine ⟨Priority_step_inv ps hwf s hs.1, ?_⟩
    unfold Priority_step
    apply NoEarlyRun_runUnit ps s _ hwf hs.1 hs.2
    intro i hi
    obtain ⟨a, b, c, _⟩ := (Priority_select_spec s).2 i hi
    exact ⟨by rw [← hs.1.1]; exact a, b, c⟩
  · exact ⟨UnitInv_start ps hwf, NoEarlyRun_nil ps⟩

theorem NoEarlyRun_RR_step (tq : Int) (ps0 : List Process) (s : RRState)
    (hwf : WellFormed ps0) (hs : RRInv tq ps0 s) (hn : NoEarlyRun ps0 s.gantt) :
    NoEarlyRun ps0 (RR_step tq s).gantt := by
  obtain ⟨hinv, _⟩ := RRInv_arrivals tq ps0 s hs
  obtain ⟨a1, a2, a3, a4, a5, a6, a7⟩ := RR_arrivals_spec s (by rw [hs.1, hs.2.1])
  unfold RR_step
  rw [← a4] at hn
  generalize RR_arrivals s = s1 at hinv hn
  have hpid := RRInv_pid tq ps0 s1 hwf hinv
  obtain ⟨hl1, hl2, ht, hc, hb, hnd, hq, hp⟩ := hinv
  cases hqs : s1.q with
  | nil =>
    rw [RR_dispatch_nil tq s1 hqs]
    have : s1.gantt ++ [0] = s1.gantt ++ List.replicate 1 0 := rfl
    simp only
    rw [this]
    apply NoEarlyRun_append _ _ _ _ hn
    intro i hi h0
    have := (hwf i hi).1
    omega
  | cons idx rest =>
    obtain ⟨p, q1, q2, q3, q4, q5, q6, q7, e1, e2, e3, e4, e5, e6⟩ :=
      RR_dispatch_cons tq s1 idx rest hqs
    obtain ⟨hidx, hinq, hrem⟩ := hq idx (by rw [hqs]; exact List.mem_cons_self _ _)
    rw [e6]
    apply NoEarlyRun_append _ _ _ _ hn
    intro i hi hpi
    have h2 := (hwf i hi).1
    have h3 := hpid idx hidx
    have hii : i = idx := by omega
    subst hii
    obtain ⟨p1, p2, p3⟩ := hp i hi
    rw [← p1.2.1, ht]
    exact (p3 hinq).1

theorem RR_noEarly (ps : List Process) (tq : Int) (hwf : WellFormed ps) (htq : 1 ≤ tq)
    (k : Nat) :
    RRInv tq ps (iterWhile RRState.cond (RR_step tq) k (RRState.start ps)) ∧
    NoEarlyRun ps (iterWhile RRState.cond (RR_step tq) k (RRState.start ps)).gantt := by
  apply iterWhile_inv RRState.cond (RR_step tq)
    (fun s => RRInv tq ps s ∧ NoEarlyRun ps s.gantt)
  · intro s hs _
    exact ⟨RR_step_inv tq ps htq hwf s hs.1, NoEarlyRun_RR_step tq ps s hwf hs.1 hs.2⟩
  · exact ⟨RRInv_start tq ps hwf, NoEarlyRun_nil ps⟩

/-! ## Waiting times and utilisation -/

theorem count_le_window (x : Int) (g : List Int) :
    ∀ (a b : Nat), (∀ j, g[j]? = some x → a ≤ j) → (∀ j, g[j]? = some x → j < b) →
      g.count x ≤ b - a := by
  induction g with
  | nil => intro a b _ _; simp
  | cons y ys ih =>
    intro a b h1 h2
    have hrec := ih (a - 1) (b - 1)
      (fun j hj => by have := h1 (j + 1) (by simpa using hj); omega)
      (fun j hj => by have := h2 (j + 1) (by simpa using hj); omega)
    by_cases hy : y = x
    · subst hy
      have ha := h1 0 (by simp)
      have hb := h2 0 (by simp)
      rw [List.count_cons_self]
      omega
    · rw [List.count_cons_of_ne (Ne.symm hy)]
      have : b - 1 - (a - 1) ≤ b - a ∨ a = 0 := by omega
      rcases this with h | h
      · omega
      · omega

theorem busy_le_total (ps : List Process) (g : List Int) (t : Int)
    (hlen : (g.length : Int) = t) (hbusy : (busyUnits g : Int) = totalBurst ps) :
    totalBurst ps ≤ t := by
  have : busyUnits g ≤ g.length := List.countP_le_length _
  omega

/-! ## The arrival log of RoundRobin -/

theorem RR_dispatch_inQueue (tq : Int) (s : RRState) : (RR_dispatch tq s).inQueue = s.inQueue := by
  cases hqs : s.q with
  | nil => rw [RR_dispatch_nil tq s hqs]
  | cons idx rest =>
    obtain ⟨p, _, _, _, _, _, _, _, _, e2, _⟩ := RR_dispatch_cons tq s idx rest hqs
    exact e2

theorem RR_step_flag (tq : Int) (s : RRState) (hlen : s.inQueue.length = s.processes.length)
    (i : Nat) :
    flagAt (RR_step tq s).inQueue i =
      (flagAt s.inQueue i || decide (i ∈ RR_newArrivals s)) := by
  unfold RR_step
  rw [RR_dispatch_inQueue, (RR_arrivals_spec s hlen).2.2.2.2.2.2 i]
  congr 1
  unfold RR_newArrivals
  by_cases hi : i < s.processes.length
  · by_cases ha : arrived s.processes s.inQueue s.currentTime i = true
    · simp [List.mem_filter, hi, ha]
    · simp [List.mem_filter, hi, ha]
  · simp [List.mem_filter, hi]

theorem RR_newArrivals_flag (s : RRState) (i : Nat) (hi : i ∈ RR_newArrivals s) :
    flagAt s.inQueue i = false := by
  unfold RR_newArrivals at hi
  rw [List.mem_filter] at hi
  have : flagAt s.inQueue i = false ∧ (procAt s.processes i).arrivalTime ≤ s.currentTime
      ∧ 0 < (procAt s.processes i).remainingTime := by
    simpa [arrived] using hi.2
  exact this.1

theorem RR_flag_mono (tq : Int) (ps0 : List Process) (htq : 1 ≤ tq) (hwf : WellFormed ps0)
    (i : Nat) :
    ∀ (k : Nat) (s : RRState), RRInv tq ps0 s → flagAt s.inQueue i = true →
      flagAt (iterWhile RRState.cond (RR_step tq) k s).inQueue i = true := by
  intro k
  induction k with
  | zero => intro s _ h; exact h
  | succ k ih =>
    intro s hs h
    simp only [iterWhile]
    by_cases hc : s.cond = true
    · rw [if_pos hc]
      apply ih _ (RR_step_inv tq ps0 htq hwf s hs)
      rw [RR_step_flag tq s (by rw [hs.1, hs.2.1]), h]
      rfl
    · rw [if_neg hc]; exact h

theorem RR_enqueued_spec (tq : Int) (ps0 : List Process) (htq : 1 ≤ tq) (hwf : WellFormed ps0) :
    ∀ (k : Nat) (s : RRState), RRInv tq ps0 s →
      (RR_enqueued tq k s).Nodup ∧
      ∀ i, i ∈ RR_enqueued tq k s ↔
        (flagAt s.inQueue i = false ∧
          flagAt (iterWhile RRState.cond (RR_step tq) k s).inQueue i = true) := by
  intro k
  induction k with
  | zero =>
    intro s _
    refine ⟨List.nodup_nil, ?_⟩
    intro i
    simp only [RR_enqueued, iterWhile, List.not_mem_nil, false_iff]
    intro h
    rw [h.1] at h
    cases h.2
  | succ k ih =>
    intro s hs
    simp only [RR_enqueued, iterWhile]
    by_cases hc : s.cond = true
    · rw [if_pos hc, if_pos hc]
      have hs1 := RR_step_inv tq ps0 htq hwf s hs
      obtain ⟨ih1, ih2⟩ := ih (RR_step tq s) hs1
      have hflag := RR_step_flag tq s (by rw [hs.1, hs.2.1])
      constructor
      · rw [List.nodup_append]
        refine ⟨List.Nodup.filter _ (List.nodup_range _), ih1, ?_⟩
        intro i hi1 hi2
        have h1 := ((ih2 i).mp hi2).1
        rw [hflag i] at h1
        simp [hi1] at h1
      · intro i
        rw [List.mem_append, ih2 i]
        constructor
        · rintro (h | h)
          · refine ⟨RR_newArrivals_flag s i h, ?_⟩
            apply RR_flag_mono tq ps0 htq hwf i k _ hs1
            rw [hflag i]
            simp [h]
          · refine ⟨?_, h.2⟩
            have h1 := h.1
            rw [hflag i] at h1
            cases hf : flagAt s.inQueue i with
            | false => rfl
            | true => rw [hf] at h1; simp at h1
        · rintro ⟨h1, h2⟩
          by_cases hm : i ∈ RR_newArrivals s
          · exact Or.inl hm
          · refine Or.inr ⟨?_, h2⟩
            rw [hflag i, h1]
            simp [hm]
    · rw [if_neg hc, if_neg hc]
      refine ⟨List.nodup_nil, ?_⟩
      intro i
      simp only [List.not_mem_nil, false_iff]
      intro h
      rw [h.1] at h
      cases h.2

theorem countP_lt_of_unfinished (ps : List Process) (i : Nat) (hi : i < ps.length)
    (h : (procAt ps i).remainingTime ≠ 0) :
    ps.countP (fun p => decide (p.remainingTime = 0)) < ps.length := by
  have hle := List.countP_le_length (fun p : Process => decide (p.remainingTime = 0)) (l := ps)
  have hne : ps.countP (fun p => decide (p.remainingTime = 0)) ≠ ps.length := by
    intro heq
    rw [List.countP_eq_length] at heq
    have := heq (procAt ps i) (procAt_mem ps i hi)
    exact h (by simpa using this)
  omega

/-! ## Waiting in the ready queue of RoundRobin -/

theorem length_le_of_nodup_lt (l : List Nat) (n : Nat) (hnd : l.Nodup)
    (hlt : ∀ i, i ∈ l → i < n) : l.length ≤ n := by
  have hsub : l ⊆ List.range n := fun i hi => List.mem_range.mpr (hlt i hi)
  have := (List.Nodup.subperm hnd hsub).length_le
  simpa using this

theorem RR_head_reached (tq : Int) (ps0 : List Process) (htq : 1 ≤ tq) (hwf : WellFormed ps0)
    (idx : Nat) :
    ∀ (pre post : List Nat) (s : RRState), RRInv tq ps0 s → s.q = pre ++ idx :: post →
      (∃ post1, (iterWhile RRState.cond (RR_step tq) pre.length s).q = idx :: post1) ∧
      RRInv tq ps0 (iterWhile RRState.cond (RR_step tq) pre.length s) ∧
      s.currentTime ≤ (iterWhile RRState.cond (RR_step tq) pre.length s).currentTime ∧
      (iterWhile RRState.cond (RR_step tq) pre.length s).currentTime ≤
        s.currentTime + (pre.length : Int) * tq ∧
      (∀ j, j < pre.length → ∃ h tl,
        (RR_arrivals (iterWhile RRState.cond (RR_step tq) j s)).q = h :: tl ∧ h ≠ idx) := by
  intro pre
  induction pre with
  | nil =>
    intro post s hs hq
    refine ⟨⟨post, by simpa using hq⟩, hs, le_refl _, by simp [iterWhile], ?_⟩
    intro j hj
    simp at hj
  | cons a pre1 ih =>
    intro post s hs hq
    obtain ⟨hinv1, _⟩ := RRInv_arrivals tq ps0 s hs
    obtain ⟨a1, a2, a3, a4, a5, a6, a7⟩ := RR_arrivals_spec s (by rw [hs.1, hs.2.1])
    have hq1 : (RR_arrivals s).q = a :: (pre1 ++ idx :: (post ++ RR_newArrivals s)) := by
      rw [a5, hq]
      simp [RR_newArrivals]
    have hnd := hinv1.2.2.2.2.2.1
    rw [hq1, List.nodup_cons] at hnd
    have hne : a ≠ idx := by
      intro h
      apply hnd.1
      rw [h]
      simp
    obtain ⟨ha, _, hrem⟩ := hinv1.2.2.2.2.2.2.1 a (by rw [hq1]; exact List.mem_cons_self _ _)
    obtain ⟨hidx, _, hremi⟩ := hs.2.2.2.2.2.2.1 idx (by rw [hq]; simp)
    have hcond : s.cond = true := by
      have := countP_lt_of_unfinished s.processes idx (by rw [hs.1]; exact hidx) (by omega)
      simp only [RRState.cond, decide_eq_true_eq]
      rw [hs.2.2.2.1]
      exact this
    obtain ⟨p, q1, q2, q3, q4, q5, q6, q7, e1, e2, e3, e4, e5, e6⟩ :=
      RR_dispatch_cons tq (RR_arrivals s) a _ hq1
    have hstep : RR_step tq s = RR_dispatch tq (RR_arrivals s) := rfl
    have hs1 := RR_step_inv tq ps0 htq hwf s hs
    have hqstep : ∃ post2, (RR_step tq s).q = pre1 ++ idx :: post2 := by
      rw [hstep, e3]
      split_ifs
      · exact ⟨post ++ RR_newArrivals s ++ [a], by simp⟩
      · exact ⟨post ++ RR_newArrivals s, rfl⟩
    obtain ⟨post2, hq2⟩ := hqstep
    obtain ⟨i1, i2, i3, i4, i5⟩ := ih post2 (RR_step tq s) hs1 hq2
    have hiter : ∀ m, iterWhile RRState.cond (RR_step tq) (m + 1) s =
        iterWhile RRState.cond (RR_step tq) m (RR_step tq s) := by
      intro m
      simp only [iterWhile]
      rw [if_pos hcond]
    have htime1 : (RR_step tq s).currentTime =
        s.currentTime + min tq (procAt s.processes a).remainingTime := by
      rw [hstep, e4, a1, a2]
    have hrem2 : 0 < (procAt s.processes a).remainingTime := by rw [← a1]; exact hrem
    have hmul : (((a :: pre1).length : Nat) : Int) * tq = (pre1.length : Int) * tq + tq := by
      simp only [List.length_cons]
      push_cast
      ring
    simp only [List.length_cons] at hmul ⊢
    rw [hiter]
    refine ⟨i1, i2, by omega, ?_, ?_⟩
    · rw [hmul]
      generalize (pre1.length : Int) * tq = X at i4 ⊢
      omega
    · intro j hj
      cases j with
      | zero => exact ⟨a, _, hq1, hne⟩
      | succ j1 =>
        rw [hiter]
        exact i5 j1 (by omega)

/-! ## Termination -/

theorem runUnit_currentTime (s : SimState) (sel : Option Nat) :
    (runUnit s sel).currentTime = s.currentTime + 1 := by
  cases sel with
  | none => rfl
  | some idx =>
    obtain ⟨q, _, _, _, _, _, _, _, _, _, e3, _⟩ := runUnit_some s idx
    exact e3

theorem RR_step_advances (tq : Int) (ps0 : List Process) (htq : 1 ≤ tq) (s : RRState)
    (hs : RRInv tq ps0 s) : s.currentTime < (RR_step tq s).currentTime := by
  obtain ⟨hinv, _⟩ := RRInv_arrivals tq ps0 s hs
  obtain ⟨a1, a2, _⟩ := RR_arrivals_spec s (by rw [hs.1, hs.2.1])
  unfold RR_step
  rw [← a2]
  generalize RR_arrivals s = s1 at hinv
  cases hqs : s1.q with
  | nil =>
    rw [RR_dispatch_nil tq s1 hqs]
    simp only
    omega
  | cons idx rest =>
    obtain ⟨p, _, _, _, _, _, _, _, _, _, _, e4, _⟩ := RR_dispatch_cons tq s1 idx rest hqs
    have := (hinv.2.2.2.2.2.2.1 idx (by rw [hqs]; exact List.mem_cons_self _ _)).2.2
    rw [e4]
    omega

theorem FCFS_loop_remaining (ps : List Process) :
    ∀ (t : Int) (g : List Int) (k : Nat), k < ps.length →
      (procAt (FCFS_loop ps t g).processes k).remainingTime =
        (procAt ps k).remainingTime - (procAt ps k).burstTime := by
  induction ps with
  | nil => intro t g k hk; simp at hk
  | cons p rest ih =>
    intro t g k hk
    rw [FCFS_loop_cons]
    cases k with
    | zero => simp [procAt_cons_zero, FCFS_body_fst]
    | succ k =>
      have hk2 : k < rest.length := by simpa using hk
      simp only [procAt_cons_succ]
      exact ih _ _ k hk2

/-- Termination of the four loops on a well-formed input with quantum >= 1
whose burst times (for SRTF) and priorities (for PreemptivePriority) are
below INT_MAX: every loop ends, with every process at remainingTime 0 and its
completionTime recorded at the end of its last slice (in FCFS the 32-bit sum
startTime + burstTime); and every iteration of the three `while` loops
advances `currentTime`. -/
theorem loops_terminate_below_INT_MAX (ps : List Process) (tq : Int)
    (hwf : WellFormed ps) (htq : 1 ≤ tq) :
    (∀ i, i < ps.length → (procAt (FCFS ps).processes i).remainingTime = 0 ∧
      (procAt (FCFS ps).processes i).completionTime =
        wrapInt ((procAt (FCFS ps).processes i).startTime + (procAt ps i).burstTime)) ∧
    (BurstBelowMax ps → ∃ fuel r, SRTF ps fuel = some r ∧
      ∀ i, i < ps.length → (procAt r.processes i).remainingTime = 0 ∧
        (procAt r.processes i).completionTime = (procAt r.processes i).startTime + 1) ∧
    (PriorityBelowMax ps → ∃ fuel r, PreemptivePriority ps fuel = some r ∧
      ∀ i, i < ps.length → (procAt r.processes i).remainingTime = 0 ∧
        (procAt r.processes i).completionTime = (procAt r.processes i).startTime + 1) ∧
    (∃ fuel r, RoundRobin ps tq fuel = some r ∧
      ∀ i, i < ps.length → (procAt r.processes i).remainingTime = 0 ∧
        (procAt r.processes i).completionTime =
          (procAt r.processes i).startTime + (((procAt ps i).burstTime - 1) % tq + 1)) ∧
    (∀ s, (SRTF_step s).currentTime = s.currentTime + 1) ∧
    (∀ s, (Priority_step s).currentTime = s.currentTime + 1) ∧
    (∀ k, (iterWhile RRState.cond (RR_step tq) k (RRState.start ps)).currentTime <
      (RR_step tq (iterWhile RRState.cond (RR_step tq) k (RRState.start ps))).currentTime) := by
  refine ⟨?_, ?_, ?_, ?_, fun s => runUnit_currentTime s _, fun s => runUnit_currentTime s _, ?_⟩
  · intro i hi
    unfold FCFS
    rw [FCFS_loop_remaining ps 0 [] i hi, (hwf i hi).2.2.2]
    exact ⟨by omega, (FCFS_loop_recurrence ps 0 [] i hi).2⟩
  · intro hmax
    obtain ⟨fuel, r, h⟩ := SRTF_terminates ps hwf hmax
    obtain ⟨hinv, hdone⟩ := SRTF_final ps hwf fuel r h
    refine ⟨fuel, r, h, fun i hi => ⟨hdone i hi, ?_⟩⟩
    have := ((UnitInv_done ps hwf r hinv hdone).2.2 i hi).2.2.2.2.1.1
    omega
  · intro hmax
    obtain ⟨fuel, r, h⟩ := Priority_terminates ps hwf hmax
    obtain ⟨hinv, hdone⟩ := Priority_final ps hwf fuel r h
    refine ⟨fuel, r, h, fun i hi => ⟨hdone i hi, ?_⟩⟩
    have := ((UnitInv_done ps hwf r hinv hdone).2.2 i hi).2.2.2.2.1.1
    omega
  · obtain ⟨fuel, r, h⟩ := RR_terminates ps tq hwf htq
    obtain ⟨hinv, hdone⟩ := RR_final ps tq hwf htq fuel r h
    refine ⟨fuel, r, h, fun i hi => ⟨hdone i hi, ?_⟩⟩
    have := ((RRInv_done tq ps hwf htq r hinv hdone).2.2 i hi).2.2.2.2.1.1
    generalize ((procAt ps i).burstTime - 1) % tq + 1 = L at this ⊢
    omega
  · intro k
    apply RR_step_advances tq ps htq
    exact iterWhile_inv RRState.cond (RR_step tq) (RRInv tq ps)
      (fun s hs _ => RR_step_inv tq ps htq hwf s hs) k _ (RRInv_start tq ps hwf)

theorem SRTF_stuck_at_INT_MAX (k : Nat) :
    (iterWhile SimState.cond SRTF_step k (SimState.start [mkProcess 1 0 INT_MAX 0])).processes =
      [mkProcess 1 0 INT_MAX 0] ∧
    (iterWhile SimState.cond SRTF_step k (SimState.start [mkProcess 1 0 INT_MAX 0])).completed
      = 0 := by
  apply iterWhile_inv SimState.cond SRTF_step
    (fun s => s.processes = [mkProcess 1 0 INT_MAX 0] ∧ s.completed = 0)
  · intro s hs _
    have hsel : SRTF_select s = none := by
      cases h : SRTF_select s with
      | none => rfl
      | some i =>
        obtain ⟨a, _, _, d, _⟩ := (SRTF_select_spec s).2 i h
        rw [hs.1] at a d
        have hi : i = 0 := by simpa using a
        subst hi
        exact absurd d (by decide)
    unfold SRTF_step
    rw [hsel]
    exact hs
  · exact ⟨rfl, rfl⟩

theorem Priority_stuck_at_INT_MAX (k : Nat) :
    (iterWhile SimState.cond Priority_step k
      (SimState.start [mkProcess 1 0 1 INT_MAX])).processes = [mkProcess 1 0 1 INT_MAX] ∧
    (iterWhile SimState.cond Priority_step k
      (SimState.start [mkProcess 1 0 1 INT_MAX])).completed = 0 := by
  apply iterWhile_inv SimState.cond Priority_step
    (fun s => s.processes = [mkProcess 1 0 1 INT_MAX] ∧ s.completed = 0)
  · intro s hs _
    have hsel : Priority_select s = none := by
      cases h : Priority_select s with
      | none => rfl
      | some i =>
        obtain ⟨a, _, _, _, d, _⟩ := (Priority_select_spec s).2 i h
        rw [hs.1] at a d
        have hi : i = 0 := by simpa using a
        subst hi
        exact absurd d (by decide)
    unfold Priority_step
    rw [hsel]
    exact hs
  · exact ⟨rfl, rfl⟩

/-! ## The 32-bit sums of FCFS and of the metrics code -/

theorem wrapInt_of_range (x : Int) (h1 : INT_MIN ≤ x) (h2 : x ≤ INT_MAX) : wrapInt x = x := by
  unfold INT_MIN at h1
  unfold INT_MAX at h2
  unfold wrapInt
  omega

theorem wrapInt_bounds (x : Int) : INT_MIN ≤ wrapInt x ∧ wrapInt x ≤ INT_MAX := by
  unfold INT_MIN INT_MAX wrapInt
  omega

theorem EndsWithSlice_le_length (len : Int) (p : Process) (g : List Int)
    (h : EndsWithSlice len p g) (hlen : 1 ≤ len) (hs : 0 ≤ p.startTime) :
    p.completionTime ≤ (g.length : Int) := by
  obtain ⟨h1, h2, _⟩ := h
  have hj := h2 (p.completionTime - 1).toNat (by omega) (by omega)
  by_contra hgt
  rw [List.getElem?_eq_none (by omega)] at hj
  cases hj

theorem waiting_nonneg (ps0 : List Process) (g : List Int) (p : Process) (len : Int) (i : Nat)
    (hi : i < ps0.length) (hpid : p.pid = (procAt ps0 i).pid)
    (harr : p.arrivalTime = (procAt ps0 i).arrivalTime)
    (hburst : p.burstTime = (procAt ps0 i).burstTime)
    (ha0 : 0 ≤ p.arrivalTime) (hb1 : 1 ≤ p.burstTime)
    (hcount : (g.count (procAt ps0 i).pid : Int) = (procAt ps0 i).burstTime)
    (hend : EndsWithSlice len p g) (hearly : NoEarlyRun ps0 g)
    (hmax : p.completionTime ≤ INT_MAX) :
    0 ≤ waitingTime p ∧
    waitingTime p = p.completionTime - p.arrivalTime - p.burstTime := by
  have h := count_le_window (procAt ps0 i).pid g p.arrivalTime.toNat p.completionTime.toNat
    (fun j hj => by
      have := hearly j i hi hj
      omega)
    (fun j hj => by
      by_contra hge
      have hc : p.completionTime ≤ (j : Int) := by omega
      exact hend.2.2 j hc (by rw [hpid]; exact hj))
  have hge : p.arrivalTime + p.burstTime ≤ p.completionTime := by omega
  unfold waitingTime turnaroundTime
  unfold INT_MAX at hmax
  rw [wrapInt_of_range (p.completionTime - p.arrivalTime)
    (by unfold INT_MIN; omega) (by unfold INT_MAX; omega)]
  rw [wrapInt_of_range _ (by unfold INT_MIN; omega) (by unfold INT_MAX; omega)]
  omega

theorem FCFS_loop_time_ge (ps : List Process) :
    ∀ (t : Int) (g : List Int),
      (∀ k, k < ps.length →
        INT_MIN ≤ (procAt (FCFS_loop ps t g).processes k).startTime + (procAt ps k).burstTime ∧
        (procAt (FCFS_loop ps t g).processes k).startTime + (procAt ps k).burstTime ≤ INT_MAX) →
      t + totalBurst ps ≤ (FCFS_loop ps t g).currentTime := by
  induction ps with
  | nil => intro t g _; simp [FCFS_loop, totalBurst]
  | cons p rest ih =>
    intro t g hr
    have h0 := hr 0 (by simp)
    rw [FCFS_loop_cons] at h0
    simp only [procAt_cons_zero, FCFS_body_fst] at h0
    have ht : (FCFS_body t g p).2.1 = max t p.arrivalTime + p.burstTime := by
      rw [FCFS_body_time, wrapInt_of_range _ h0.1 h0.2]
    have h := ih (FCFS_body t g p).2.1 (FCFS_body t g p).2.2 (by
      intro k hk
      have := hr (k + 1) (by simpa using hk)
      rw [FCFS_loop_cons] at this
      simpa only [procAt_cons_succ] using this)
    have e : (FCFS_loop (p :: rest) t g).currentTime =
        (FCFS_loop rest (FCFS_body t g p).2.1 (FCFS_body t g p).2.2).currentTime := by
      rw [FCFS_loop_cons]
    rw [e]
    simp only [totalBurst, List.map_cons, List.sum_cons] at h ⊢
    have := le_max_left t p.arrivalTime
    omega

theorem FCFS_loop_time_le (ps : List Process) :
    ∀ (t : Int) (g : List Int), t ≤ INT_MAX → (FCFS_loop ps t g).currentTime ≤ INT_MAX := by
  induction ps with
  | nil => intro t g h; exact h
  | cons p rest ih =>
    intro t g _
    have e : (FCFS_loop (p :: rest) t g).currentTime =
        (FCFS_loop rest (FCFS_body t g p).2.1 (FCFS_body t g p).2.2).currentTime := by
      rw [FCFS_loop_cons]
    rw [e]
    apply ih
    rw [FCFS_body_time]
    exact (wrapInt_bounds _).2

theorem accumulateBurst_fold (l : List Process) :
    ∀ acc : Int, 0 ≤ acc → (∀ p ∈ l, 0 ≤ p.burstTime) → acc + totalBurst l ≤ INT_MAX →
      l.foldl (fun acc p => wrapInt (acc + p.burstTime)) acc = acc + totalBurst l := by
  induction l with
  | nil => intro acc _ _ _; simp [totalBurst]
  | cons p rest ih =>
    intro acc hacc hb hsum
    have hp := hb p (List.mem_cons_self _ _)
    have hrest : 0 ≤ totalBurst rest := by
      unfold totalBurst
      apply List.sum_nonneg
      intro x hx
      obtain ⟨q, hq, rfl⟩ := List.mem_map.mp hx
      exact hb q (List.mem_cons_of_mem _ hq)
    simp only [totalBurst, List.map_cons, List.sum_cons] at hsum ⊢
    unfold totalBurst at hrest ih
    simp only [List.foldl_cons]
    rw [wrapInt_of_range _ (by unfold INT_MIN; omega) (by omega)]
    rw [ih (acc + p.burstTime) (by omega) (fun q hq => hb q (List.mem_cons_of_mem _ hq))
      (by omega)]
    omega

theorem accumulateBurst_eq (l : List Process) (hb : ∀ p ∈ l, 0 ≤ p.burstTime)
    (hsum : totalBurst l ≤ INT_MAX) : accumulateBurst l = totalBurst l := by
  unfold accumulateBurst
  rw [accumulateBurst_fold l 0 (le_refl _) hb (by omega)]
  omega

theorem totalBurst_final (ps l : List Process) (hlen : l.length = ps.length)
    (h : ∀ i, i < ps.length → (procAt l i).burstTime = (procAt ps i).burstTime) :
    totalBurst l = totalBurst ps := by
  unfold totalBurst
  exact sum_map_congr_index _ _ l ps hlen h

theorem metrics_utilisation (ps l : List Process) (t : Int) (hwf : WellFormed ps)
    (hlen : l.length = ps.length)
    (h : ∀ i, i < ps.length → (procAt l i).burstTime = (procAt ps i).burstTime)
    (hle : totalBurst ps ≤ t) (ht : t ≤ INT_MAX) :
    (computeMetrics l t).totalBurst = totalBurst ps ∧
    (computeMetrics l t).totalBurst ≤ (computeMetrics l t).elapsed := by
  have e := totalBurst_final ps l hlen h
  have hacc : accumulateBurst l = totalBurst ps := by
    rw [← e]
    apply accumulateBurst_eq
    · intro p hp
      obtain ⟨i, hi, rfl⟩ := List.mem_iff_getElem.mp hp
      have h1 := h i (by omega)
      rw [procAt_eq_getElem l i hi] at h1
      have := (hwf i (by omega)).2.2.1
      omega
    · omega
  simp only [computeMetrics]
  rw [hacc]
  exact ⟨rfl, hle⟩


theorem FCFS_start_le (ps : List Process) (t : Int) (g : List Int) (k : Nat)
    (hk : k < ps.length) (ht : t ≤ INT_MAX) (ha : (procAt ps k).arrivalTime ≤ INT_MAX) :
    (procAt (FCFS_loop ps t g).processes k).startTime ≤ INT_MAX := by
  rw [(FCFS_loop_recurrence ps t g k hk).1]
  apply max_le _ ha
  by_cases h0 : k = 0
  · rw [if_pos h0]; exact ht
  · rw [if_neg h0, (FCFS_loop_recurrence ps t g (k - 1) (by omega)).2]
    exact (wrapInt_bounds _).2

theorem FCFS_waiting (ps : List Process) (hwf : WellFormed ps) (i : Nat) (hi : i < ps.length) :
    ((procAt ps i).arrivalTime ≤ INT_MAX →
      waitingTime (procAt (FCFS_loop ps 0 []).processes i) =
        (procAt (FCFS_loop ps 0 []).processes i).startTime - (procAt ps i).arrivalTime ∧
      0 ≤ waitingTime (procAt (FCFS_loop ps 0 []).processes i)) ∧
    ((procAt (FCFS_loop ps 0 []).processes i).startTime + (procAt ps i).burstTime ≤ INT_MAX →
      waitingTime (procAt (FCFS_loop ps 0 []).processes i) =
        (procAt (FCFS_loop ps 0 []).processes i).completionTime -
          (procAt (FCFS_loop ps 0 []).processes i).arrivalTime -
          (procAt (FCFS_loop ps 0 []).processes i).burstTime) := by
  obtain ⟨r1, r2⟩ := FCFS_loop_recurrence ps 0 [] i hi
  obtain ⟨_, f2, f3, _⟩ := FCFS_loop_fields ps 0 [] i hi
  obtain ⟨_, ha0, hb1, _⟩ := hwf i hi
  have hge := le_max_right (if i = 0 then 0 else
    (procAt (FCFS_loop ps 0 []).processes (i - 1)).completionTime) (procAt ps i).arrivalTime
  rw [← r1] at hge
  constructor
  · intro ha
    have hs := FCFS_start_le ps 0 [] i hi (by decide) ha
    unfold waitingTime turnaroundTime
    rw [r2, f2, f3]
    generalize (procAt (FCFS_loop ps 0 []).processes i).startTime = s at hge hs ⊢
    generalize (procAt ps i).arrivalTime = a at ha0 ha hge ⊢
    generalize (procAt ps i).burstTime = b at hb1 ⊢
    clear r1 r2 f2 f3
    unfold INT_MAX at hs ha
    unfold wrapInt
    omega
  · intro hs
    unfold waitingTime turnaroundTime
    rw [r2, f2, f3]
    generalize (procAt (FCFS_loop ps 0 []).processes i).startTime = s at hge hs ⊢
    generalize (procAt ps i).arrivalTime = a at ha0 hge ⊢
    generalize (procAt ps i).burstTime = b at hb1 hs ⊢
    clear r1 r2 f2 f3
    unfold INT_MAX at hs
    unfold wrapInt
    omega

theorem exit_metrics (ps : List Process) (hwf : WellFormed ps) (procs : List Process)
    (g : List Int) (t : Int) (len : Nat → Int)
    (hlen : procs.length = ps.length) (ht : (g.length : Int) = t)
    (hbusy : (busyUnits g : Int) = totalBurst ps) (hearly : NoEarlyRun ps g)
    (hl1 : ∀ i, i < ps.length → 1 ≤ len i)
    (hd : ∀ i, i < ps.length →
      (procAt procs i).pid = (procAt ps i).pid ∧
      (procAt procs i).arrivalTime = (procAt ps i).arrivalTime ∧
      (procAt procs i).burstTime = (procAt ps i).burstTime ∧
      (g.count (procAt ps i).pid : Int) = (procAt ps i).burstTime ∧
      EndsWithSlice (len i) (procAt procs i) g ∧
      (procAt procs i).arrivalTime ≤ (procAt procs i).startTime ∧
      (procAt procs i).startTime ≤ (procAt procs i).completionTime) :
    totalBurst ps ≤ t ∧
    (t ≤ INT_MAX →
      (∀ i, i < ps.length →
        0 ≤ waitingTime (procAt procs i) ∧
        waitingTime (procAt procs i) =
          (procAt procs i).completionTime - (procAt procs i).arrivalTime -
            (procAt procs i).burstTime) ∧
      (computeMetrics procs t).totalBurst = totalBurst ps ∧
      (computeMetrics procs t).totalBurst ≤ (computeMetrics procs t).elapsed) := by
  have hle := busy_le_total ps g t ht hbusy
  refine ⟨hle, fun hmax => ⟨?_, metrics_utilisation ps procs t hwf hlen
    (fun i hi => (hd i hi).2.2.1) hle hmax⟩⟩
  intro i hi
  obtain ⟨a, b, c, d, e, f, _⟩ := hd i hi
  have hw := hwf i hi
  have ha0 : 0 ≤ (procAt procs i).arrivalTime := by rw [b]; exact hw.2.1
  have hc := EndsWithSlice_le_length (len i) _ g e (hl1 i hi) (by omega)
  exact waiting_nonneg ps g _ (len i) i hi a b c ha0 (by rw [c]; exact hw.2.2.1) d e hearly
    (by omega)

/-! ## Iterations that select no process at the initial minimum -/

theorem SRTF_select_none_at_INT_MAX (s : SimState)
    (hs : s.processes = [mkProcess 1 0 INT_MAX 0]) : SRTF_select s = none := by
  cases h : SRTF_select s with
  | none => rfl
  | some i =>
    obtain ⟨a, _, _, d, _⟩ := (SRTF_select_spec s).2 i h
    rw [hs] at a d
    have hi : i = 0 := by simpa using a
    subst hi
    exact absurd d (by decide)

theorem Priority_select_none_at_INT_MAX (s : SimState)
    (hs : s.processes = [mkProcess 1 0 1 INT_MAX]) : Priority_select s = none := by
  cases h : Priority_select s with
  | none => rfl
  | some i =>
    obtain ⟨a, _, _, _, d, _⟩ := (Priority_select_spec s).2 i h
    rw [hs] at a d
    have hi : i = 0 := by simpa using a
    subst hi
    exact absurd d (by decide)

theorem idle_iterations (step : SimState → SimState) (ps : List Process) (hps : 0 < ps.length)
    (hstep : ∀ s, s.processes = ps → step s = runUnit s none) :
    ∀ (k : Nat) (s : SimState), s.processes = ps → s.completed = 0 →
      (iterWhile SimState.cond step k s).processes = ps ∧
      (iterWhile SimState.cond step k s).completed = 0 ∧
      (iterWhile SimState.cond step k s).gantt = s.gantt ++ List.replicate k 0 := by
  intro k
  induction k with
  | zero => intro s h1 h2; exact ⟨h1, h2, by simp [iterWhile]⟩
  | succ k ih =>
    intro s h1 h2
    have hc : SimState.cond s = true := by simp [SimState.cond, h1, h2, hps]
    simp only [iterWhile]
    rw [if_pos hc, hstep s h1]
    obtain ⟨a, b, c⟩ := ih (runUnit s none) h1 h2
    refine ⟨a, b, ?_⟩
    rw [c]
    simp [runUnit, List.replicate_succ]

/-! ## Gantt entries at the exit states -/

/-- Conservation at the exit states: for each of the four policies on a
well-formed input with quantum >= 1, the final Gantt vector has exactly burstTime entries carrying the pid of each
process, and its number of non-idle entries is the sum of all burstTimes.
FCFS always returns; the RoundRobin loop ends on every such input, the SRTF
loop when no burstTime is INT_MAX, the PreemptivePriority loop when no
priority is INT_MAX. -/
theorem gantt_entries_match_bursts (ps : List Process) (tq : Int)
    (hwf : WellFormed ps) (htq : 1 ≤ tq) :
    ((∀ i, i < ps.length →
        ((FCFS ps).gantt.count (procAt ps i).pid : Int) = (procAt ps i).burstTime) ∧
      (busyUnits (FCFS ps).gantt : Int) = totalBurst ps) ∧
    ((∀ fuel r, SRTF ps fuel = some r →
        (∀ i, i < ps.length →
          (r.gantt.count (procAt ps i).pid : Int) = (procAt ps i).burstTime) ∧
        (busyUnits r.gantt : Int) = totalBurst ps) ∧
      (BurstBelowMax ps → ∃ fuel r, SRTF ps fuel = some r)) ∧
    ((∀ fuel r, PreemptivePriority ps fuel = some r →
        (∀ i, i < ps.length →
          (r.gantt.count (procAt ps i).pid : Int) = (procAt ps i).burstTime) ∧
        (busyUnits r.gantt : Int) = totalBurst ps) ∧
      (PriorityBelowMax ps → ∃ fuel r, PreemptivePriority ps fuel = some r)) ∧
    ((∀ fuel r, RoundRobin ps tq fuel = some r →
        (∀ i, i < ps.length →
          (r.gantt.count (procAt ps i).pid : Int) = (procAt ps i).burstTime) ∧
        (busyUnits r.gantt : Int) = totalBurst ps) ∧
      (∃ fuel r, RoundRobin ps tq fuel = some r)) := by
  refine ⟨⟨?_, ?_⟩, ⟨?_, SRTF_terminates ps hwf⟩, ⟨?_, Priority_terminates ps hwf⟩,
    ⟨?_, RR_terminates ps tq hwf htq⟩⟩
  · intro i hi
    unfold FCFS
    rw [FCFS_loop_count ps 0 [] i hwf.pid_nodup hi]
    have := (hwf i hi).2.2.1
    simp only [List.count_nil, Nat.zero_add]
    rw [Int.toNat_of_nonneg (by omega)]
  · unfold FCFS
    rw [FCFS_loop_busy ps 0 [] (fun p hp => ⟨(hwf.mem p hp).1, by have := (hwf.mem p hp).2.2.1; omega⟩)]
    simp [busyUnits]
  · intro fuel r h
    obtain ⟨hinv, hdone⟩ := SRTF_final ps hwf fuel r h
    have hd := UnitInv_done ps hwf r hinv hdone
    exact ⟨fun i hi => (hd.2.2 i hi).2.2.2.1, hd.2.1⟩
  · intro fuel r h
    obtain ⟨hinv, hdone⟩ := Priority_final ps hwf fuel r h
    have hd := UnitInv_done ps hwf r hinv hdone
    exact ⟨fun i hi => (hd.2.2 i hi).2.2.2.1, hd.2.1⟩
  · intro fuel r h
    obtain ⟨hinv, hdone⟩ := RR_final ps tq hwf htq fuel r h
    have hd := RRInv_done tq ps hwf htq r hinv hdone
    exact ⟨fun i hi => (hd.2.2 i hi).2.2.2.1, hd.2.1⟩

/-- Conservation at the exit states, on the scenario with quantum 2. -/
theorem gantt_entries_match_bursts_witness :
    WellFormed scenario ∧
    (busyUnits (FCFS scenario).gantt : Int) = totalBurst scenario ∧
    (∃ fuel r, SRTF scenario fuel = some r) ∧
    (∃ fuel r, PreemptivePriority scenario fuel = some r) ∧
    (∃ fuel r, RoundRobin scenario 2 fuel = some r) :=
  have h := gantt_entries_match_bursts scenario 2 (by decide) (by decide)
  ⟨by decide, h.1.2, h.2.1.2 (by decide), h.2.2.1.2 (by decide), h.2.2.2.2⟩

/-! ## Claims -/

/-- C1 (as stated, refuted on its own witness): for P1(0,5), P2(1,3), P3(2,1)
and quantum 2, after P1's first slice ends at t=2 the queue is [P1] and the
arrival loop of the next iteration makes it [P1, P2, P3] (indices 0,1,2), not
[P2, P3, P1]; the Gantt vector is P1 P1 P1 P1 P2 P2 P3 P1 P2, not
P1 P1 P2 P2 P3 P1 P1 P2 P1, and the completion times are P1=8, P2=9, P3=7. -/
theorem RR_scenario_requeue_order :
    (RR_step 2 (RRState.start scenario)).q = [0] ∧
    (RR_step 2 (RRState.start scenario)).currentTime = 2 ∧
    (RR_arrivals (RR_step 2 (RRState.start scenario))).q = [0, 1, 2] ∧
    (RR_arrivals (RR_step 2 (RRState.start scenario))).q ≠ [1, 2, 0] ∧
    (RoundRobin scenario 2 6).map (fun r => r.gantt) = some [1, 1, 1, 1, 2, 2, 3, 1, 2] ∧
    (RoundRobin scenario 2 6).map (fun r => r.gantt) ≠ some [1, 1, 2, 2, 3, 1, 1, 2, 1] ∧
    (RoundRobin scenario 2 6).map (fun r => r.processes.map (fun p => p.completionTime)) =
      some [8, 9, 7] := by
  decide

/-- C1 (amended): in RoundRobin on a well-formed input with quantum >= 1, at
any iteration `k` whose dispatched process `idx` is still unfinished after its
slice (`remainingTime > tq`), the loop is running, the slice lasts `tq` units
and the preempted process is re-appended at the tail at once (line 203),
behind the processes already queued; the processes that are then enqueued by
the arrival loop of the next iteration (not yet enqueued, arrived by the new
`currentTime`, in ascending index order) are placed behind it.  On the
scenario this gives the Gantt vector P1 P1 P1 P1 P2 P2 P3 P1 P2 and the
completion times P1=8, P2=9, P3=7. -/
theorem RR_requeue_before_new_arrivals (ps : List Process) (tq : Int) (k : Nat)
    (s : RRState) (idx : Nat) (rest : List Nat)
    (hwf : WellFormed ps) (htq : 1 ≤ tq)
    (hs : s = iterWhile RRState.cond (RR_step tq) k (RRState.start ps))
    (hq : (RR_arrivals s).q = idx :: rest)
    (hun : tq < (procAt s.processes idx).remainingTime) :
    s.cond = true ∧
    (RR_step tq s).q = rest ++ [idx] ∧
    (RR_step tq s).currentTime = s.currentTime + tq ∧
    (RR_arrivals (RR_step tq s)).q = rest ++ [idx] ++
      (List.range ps.length).filter
        (arrived (RR_step tq s).processes (RR_step tq s).inQueue (RR_step tq s).currentTime) ∧
    (RoundRobin scenario 2 6).map (fun r => r.gantt) = some [1, 1, 1, 1, 2, 2, 3, 1, 2] ∧
    (RoundRobin scenario 2 6).map (fun r => r.processes.map (fun p => p.completionTime)) =
      some [8, 9, 7] := by
  have hinv : RRInv tq ps s := by
    rw [hs]
    exact iterWhile_inv RRState.cond (RR_step tq) (RRInv tq ps)
      (fun s hs _ => RR_step_inv tq ps htq hwf s hs) k _ (RRInv_start tq ps hwf)
  have hinv1 := (RRInv_arrivals tq ps s hinv).1
  have hinv2 := RR_step_inv tq ps htq hwf s hinv
  obtain ⟨a1, a2, a3, a4, a5, a6, a7⟩ := RR_arrivals_spec s (by rw [hinv.1, hinv.2.1])
  obtain ⟨p, q1, q2, q3, q4, q5, q6, q7, e1, e2, e3, e4, e5, e6⟩ :=
    RR_dispatch_cons tq (RR_arrivals s) idx rest hq
  have hidx := (hinv1.2.2.2.2.2.2.1 idx (by rw [hq]; exact List.mem_cons_self _ _)).1
  rw [a1] at q5 e4
  have hmin : min tq (procAt s.processes idx).remainingTime = tq := by omega
  rw [hmin] at q5 e4
  have hp : 0 < p.remainingTime := by omega
  rw [if_pos hp] at e3
  have hstep : RR_step tq s = RR_dispatch tq (RR_arrivals s) := rfl
  refine ⟨?_, ?_, ?_, ?_, by decide, by decide⟩
  · have := countP_lt_of_unfinished s.processes idx (by rw [hinv.1]; exact hidx) (by omega)
    simp only [RRState.cond, decide_eq_true_eq]
    rw [hinv.2.2.2.1]
    exact this
  · rw [hstep, e3]
  · rw [hstep, e4, a2]
  · obtain ⟨b1, b2, b3, b4, b5, b6, b7⟩ :=
      RR_arrivals_spec (RR_step tq s) (by rw [hinv2.1, hinv2.2.1])
    rw [b5, hinv2.1, hstep, e3]

/-- C1 (amended), applied to the scenario at its first iteration. -/
theorem RR_requeue_before_new_arrivals_witness :
    (RR_step 2 (RRState.start scenario)).q = [] ++ [0] ∧
    (RR_arrivals (RR_step 2 (RRState.start scenario))).q = [] ++ [0] ++
      (List.range scenario.length).filter
        (arrived (RR_step 2 (RRState.start scenario)).processes
          (RR_step 2 (RRState.start scenario)).inQueue
          (RR_step 2 (RRState.start scenario)).currentTime) :=
  have h := RR_requeue_before_new_arrivals scenario 2 0 (RRState.start scenario) 0 []
    (by decide) (by decide) rfl (by decide) (by decide)
  ⟨h.2.1, h.2.2.2.1⟩

/-- C3 (code evaluated at the failing input): for the single process with
arrivalTime 3 and burstTime 2, FCFS ends with currentTime 5 while its Gantt
vector is P1 P1, of length 2: the idle gap 0..3 is not recorded. -/
theorem FCFS_idle_gap_not_recorded :
    (FCFS [mkProcess 1 3 2 0]).currentTime = 5 ∧
    (FCFS [mkProcess 1 3 2 0]).gantt = [1, 1] ∧
    ((FCFS [mkProcess 1 3 2 0]).gantt.length : Int) ≠ (FCFS [mkProcess 1 3 2 0]).currentTime := by
  decide

/-- C5 (code evaluated at the failing inputs): the single process P1 with
arrivalTime 0, burstTime 1 and priority INT_MAX is a well-formed input, yet
after any number k of iterations of the PreemptivePriority loop the Gantt
vector is k idle entries, with no entry carrying pid 1 although burstTime is
1, and the loop has not returned for any iteration bound; the same holds for
the SRTF loop on P1 with arrivalTime 0 and burstTime INT_MAX. -/
theorem gantt_has_no_entry_at_INT_MAX :
    WellFormed [mkProcess 1 0 1 INT_MAX] ∧
    (procAt [mkProcess 1 0 1 INT_MAX] 0).pid = 1 ∧
    (procAt [mkProcess 1 0 1 INT_MAX] 0).burstTime = 1 ∧
    (∀ k, (iterWhile SimState.cond Priority_step k
        (SimState.start [mkProcess 1 0 1 INT_MAX])).gantt = List.replicate k 0 ∧
      (iterWhile SimState.cond Priority_step k
        (SimState.start [mkProcess 1 0 1 INT_MAX])).gantt.count 1 = 0 ∧
      busyUnits (iterWhile SimState.cond Priority_step k
        (SimState.start [mkProcess 1 0 1 INT_MAX])).gantt = 0) ∧
    (∀ fuel, PreemptivePriority [mkProcess 1 0 1 INT_MAX] fuel = none) ∧
    WellFormed [mkProcess 1 0 INT_MAX 0] ∧
    (procAt [mkProcess 1 0 INT_MAX 0] 0).pid = 1 ∧
    (procAt [mkProcess 1 0 INT_MAX 0] 0).burstTime = INT_MAX ∧
    (∀ k, (iterWhile SimState.cond SRTF_step k
        (SimState.start [mkProcess 1 0 INT_MAX 0])).gantt = List.replicate k 0 ∧
      (iterWhile SimState.cond SRTF_step k
        (SimState.start [mkProcess 1 0 INT_MAX 0])).gantt.count 1 = 0 ∧
      busyUnits (iterWhile SimState.cond SRTF_step k
        (SimState.start [mkProcess 1 0 INT_MAX 0])).gantt = 0) ∧
    (∀ fuel, SRTF [mkProcess 1 0 INT_MAX 0] fuel = none) := by
  have hP := idle_iterations Priority_step [mkProcess 1 0 1 INT_MAX] (by decide)
    (fun s hs => by unfold Priority_step; rw [Priority_select_none_at_INT_MAX s hs])
  have hS := idle_iterations SRTF_step [mkProcess 1 0 INT_MAX 0] (by decide)
    (fun s hs => by unfold SRTF_step; rw [SRTF_select_none_at_INT_MAX s hs])
  have hrep : ∀ k : Nat, (List.replicate k (0 : Int)).count 1 = 0 ∧
      busyUnits (List.replicate k (0 : Int)) = 0 := by
    intro k
    constructor
    · rw [List.count_replicate]; simp
    · unfold busyUnits
      rw [List.countP_eq_zero]
      intro x hx
      rw [List.eq_of_mem_replicate hx]
      decide
  refine ⟨by decide, rfl, rfl, ?_, ?_, by decide, rfl, rfl, ?_, ?_⟩
  · intro k
    obtain ⟨_, _, c⟩ := hP k (SimState.start [mkProcess 1 0 1 INT_MAX]) rfl rfl
    have e : (iterWhile SimState.cond Priority_step k
        (SimState.start [mkProcess 1 0 1 INT_MAX])).gantt = List.replicate k 0 := by
      rw [c]; rfl
    rw [e]
    exact ⟨rfl, hrep k⟩
  · intro fuel
    obtain ⟨a, b, _⟩ := hP fuel (SimState.start [mkProcess 1 0 1 INT_MAX]) rfl rfl
    unfold PreemptivePriority whileFuel
    rw [if_pos (by simp [SimState.cond, a, b])]
  · intro k
    obtain ⟨_, _, c⟩ := hS k (SimState.start [mkProcess 1 0 INT_MAX 0]) rfl rfl
    have e : (iterWhile SimState.cond SRTF_step k
        (SimState.start [mkProcess 1 0 INT_MAX 0])).gantt = List.replicate k 0 := by
      rw [c]; rfl
    rw [e]
    exact ⟨rfl, hrep k⟩
  · intro fuel
    obtain ⟨a, b, _⟩ := hS fuel (SimState.start [mkProcess 1 0 INT_MAX 0]) rfl rfl
    unfold SRTF whileFuel
    rw [if_pos (by simp [SimState.cond, a, b])]

/-- C7 (code evaluated at the failing input): the single process P1 with
arrivalTime 0 and burstTime INT_MAX is well-formed and eligible at time 0
(arrived, remainingTime > 0), yet the selection loop of SRTF selects no
process, because `remainingTime < minRemaining` fails against the initial
`minRemaining = INT_MAX`, and the iteration emits an idle unit. -/
theorem SRTF_skips_burst_INT_MAX :
    WellFormed [mkProcess 1 0 INT_MAX 0] ∧
    (procAt (SimState.start [mkProcess 1 0 INT_MAX 0]).processes 0).arrivalTime ≤
      (SimState.start [mkProcess 1 0 INT_MAX 0]).currentTime ∧
    0 < (procAt (SimState.start [mkProcess 1 0 INT_MAX 0]).processes 0).remainingTime ∧
    SRTF_select (SimState.start [mkProcess 1 0 INT_MAX 0]) = none ∧
    (SRTF_step (SimState.start [mkProcess 1 0 INT_MAX 0])).gantt = [0] ∧
    (SRTF_step (SimState.start [mkProcess 1 0 INT_MAX 0])).currentTime = 1 := by
  decide

/-- C8 (code evaluated at the failing input): the single process P1 with
arrivalTime 0, burstTime 1 and priority INT_MAX is eligible at time 0 (arrived,
remainingTime > 0), yet the selection loop of PreemptivePriority selects no
process, because `priority < highestPriority` fails against the initial
`highestPriority = INT_MAX`; the iteration emits an idle unit and leaves the
process unrun. -/
theorem Priority_skips_priority_INT_MAX :
    (procAt (SimState.start [mkProcess 1 0 1 INT_MAX]).processes 0).arrivalTime ≤
      (SimState.start [mkProcess 1 0 1 INT_MAX]).currentTime ∧
    0 < (procAt (SimState.start [mkProcess 1 0 1 INT_MAX]).processes 0).remainingTime ∧
    Priority_select (SimState.start [mkProcess 1 0 1 INT_MAX]) = none ∧
    (Priority_step (SimState.start [mkProcess 1 0 1 INT_MAX])).gantt = [0] ∧
    (Priority_step (SimState.start [mkProcess 1 0 1 INT_MAX])).currentTime = 1 ∧
    (Priority_step (SimState.start [mkProcess 1 0 1 INT_MAX])).completed = 0 := by
  decide

/-- C9 (as stated, refuted): on P1 with arrivalTime 2147483647 and burstTime 1
followed by P2 with arrivalTime 0 and burstTime 1, FCFS gives P1 startTime
2147483647 and completionTime -2147483648, which is not startTime +
burstTime = 2147483648. -/
theorem FCFS_completion_is_not_start_plus_burst :
    (procAt (FCFS [mkProcess 1 2147483647 1 0, mkProcess 2 0 1 0]).processes 0).completionTime
      = -2147483648 ∧
    (procAt (FCFS [mkProcess 1 2147483647 1 0, mkProcess 2 0 1 0]).processes 0).startTime +
      (procAt [mkProcess 1 2147483647 1 0, mkProcess 2 0 1 0] 0).burstTime = 2147483648 ∧
    (procAt (FCFS [mkProcess 1 2147483647 1 0, mkProcess 2 0 1 0]).processes 0).completionTime ≠
      (procAt (FCFS [mkProcess 1 2147483647 1 0, mkProcess 2 0 1 0]).processes 0).startTime +
        (procAt [mkProcess 1 2147483647 1 0, mkProcess 2 0 1 0] 0).burstTime ∧
    (procAt (FCFS [mkProcess 1 2147483647 1 0, mkProcess 2 0 1 0]).processes 1).startTime
      = 0 := by
  decide

/-- C9 (amended): for every process list, taken in the given order, FCFS gives
startTime_k = max(completionTime_{k-1}, arrivalTime_k) with completionTime_0 = 0,
and completionTime_k is startTime_k + burstTime_k as a 32-bit int: equal to
the sum whenever the sum lies between INT_MIN and INT_MAX; two inputs that
differ only in priority values get the same start times, completion times and
Gantt vector.  On the scenario the Gantt vector is P1 x5, P2 x3, P3 x1 and the
completion times are 5, 8, 9. -/
theorem FCFS_recurrence_priority_free (ps qs : List Process)
    (hpq : ps.map forgetPriority = qs.map forgetPriority) :
    (FCFS ps).processes.length = ps.length ∧
    (∀ k, k < ps.length →
      (procAt (FCFS ps).processes k).startTime =
        max (if k = 0 then 0 else (procAt (FCFS ps).processes (k - 1)).completionTime)
          (procAt ps k).arrivalTime ∧
      (procAt (FCFS ps).processes k).completionTime =
        wrapInt ((procAt (FCFS ps).processes k).startTime + (procAt ps k).burstTime) ∧
      (INT_MIN ≤ (procAt (FCFS ps).processes k).startTime + (procAt ps k).burstTime →
        (procAt (FCFS ps).processes k).startTime + (procAt ps k).burstTime ≤ INT_MAX →
        (procAt (FCFS ps).processes k).completionTime =
          (procAt (FCFS ps).processes k).startTime + (procAt ps k).burstTime)) ∧
    (FCFS ps).processes.map (fun p => (p.startTime, p.completionTime)) =
      (FCFS qs).processes.map (fun p => (p.startTime, p.completionTime)) ∧
    (FCFS ps).gantt = (FCFS qs).gantt ∧
    (FCFS ps).currentTime = (FCFS qs).currentTime ∧
    (FCFS scenario).gantt = [1, 1, 1, 1, 1, 2, 2, 2, 3] ∧
    (FCFS scenario).processes.map (fun p => p.completionTime) = [5, 8, 9] := by
  obtain ⟨h1, h2, h3⟩ := FCFS_loop_priority ps qs 0 [] hpq
  refine ⟨FCFS_loop_length ps 0 [], ?_, ?_, h3, h2, by decide, by decide⟩
  · intro k hk
    obtain ⟨r1, r2⟩ := FCFS_loop_recurrence ps 0 [] k hk
    refine ⟨r1, r2, fun hlo hhi => ?_⟩
    unfold FCFS at hlo hhi ⊢
    rw [r2, wrapInt_of_range _ hlo hhi]
  · have hmap : ∀ l : List Process, l.map (fun p => (p.startTime, p.completionTime)) =
        (l.map forgetPriority).map (fun p => (p.startTime, p.completionTime)) := by
      intro l
      rw [List.map_map]
      rfl
    unfold FCFS
    rw [hmap, hmap (FCFS_loop qs 0 []).processes, h1]

/-- C9 (amended), applied to the scenario and to the scenario with all
priorities set to 7. -/
theorem FCFS_recurrence_priority_free_witness :
    (FCFS scenario).gantt =
      (FCFS [mkProcess 1 0 5 7, mkProcess 2 1 3 7, mkProcess 3 2 1 7]).gantt ∧
    (FCFS scenario).processes.map (fun p => (p.startTime, p.completionTime)) =
      (FCFS [mkProcess 1 0 5 7, mkProcess 2 1 3 7, mkProcess 3 2 1 7]).processes.map
        (fun p => (p.startTime, p.completionTime)) ∧
    (procAt (FCFS scenario).processes 1).startTime =
      max (if 1 = 0 then 0 else (procAt (FCFS scenario).processes (1 - 1)).completionTime)
        (procAt scenario 1).arrivalTime ∧
    (procAt (FCFS scenario).processes 1).completionTime =
      (procAt (FCFS scenario).processes 1).startTime + (procAt scenario 1).burstTime :=
  have h := FCFS_recurrence_priority_free scenario
    [mkProcess 1 0 5 7, mkProcess 2 1 3 7, mkProcess 3 2 1 7] (by decide)
  ⟨h.2.2.2.1, h.2.2.1, (h.2.1 1 (by decide)).1,
    (h.2.1 1 (by decide)).2.2 (by decide) (by decide)⟩

/-- C11 (as stated, refuted): the entry 0 is accepted by `getPositiveInt`, so 0
is a quantum `main` passes on; RoundRobin with quantum 0 on the process
P1(arrival 1, burst 1) runs its loop (after one iteration the Gantt vector is
[Idle] and `currentTime` is 1) and has not returned after 5 iterations; with
quantum -1 on P1(arrival 0, burst 1) one iteration changes the process record
(`remainingTime` 2) and sets `currentTime` to -1. -/
theorem RR_runs_with_quantum_below_one :
    getPositiveInt [some 0] = some (0, []) ∧
    (iterWhile RRState.cond (RR_step 0) 1 (RRState.start [mkProcess 1 1 1 0])).gantt = [0] ∧
    (iterWhile RRState.cond (RR_step 0) 1 (RRState.start [mkProcess 1 1 1 0])).currentTime = 1 ∧
    RoundRobin [mkProcess 1 1 1 0] 0 5 = none ∧
    (procAt (iterWhile RRState.cond (RR_step (-1)) 1
      (RRState.start [mkProcess 1 0 1 0])).processes 0).remainingTime = 2 ∧
    (iterWhile RRState.cond (RR_step (-1)) 1 (RRState.start [mkProcess 1 0 1 0])).currentTime =
      -1 := by
  decide

/-- C11 (amended): RoundRobin does not check its quantum: for every quantum
`tq`, also below 1, and every non-empty process list the loop condition holds
at entry and the first iteration is run; and the value `getPositiveInt`
returns, hence the quantum collected from the user, is never negative:
entries that are negative or not numbers are skipped, the entry 0 and every
positive entry are accepted. -/
theorem RR_no_quantum_check (ps : List Process) (tq : Int) (hne : ps ≠ []) :
    RRState.cond (RRState.start ps) = true ∧
    iterWhile RRState.cond (RR_step tq) 1 (RRState.start ps) = RR_step tq (RRState.start ps) ∧
    (∀ input x rest, getPositiveInt input = some (x, rest) → 0 ≤ x) ∧
    (∀ x rest, 0 ≤ x → getPositiveInt (some x :: rest) = some (x, rest)) ∧
    (∀ x rest, x < 0 → getPositiveInt (some x :: rest) = getPositiveInt rest) ∧
    (∀ rest, getPositiveInt (none :: rest) = getPositiveInt rest) := by
  have hc : RRState.cond (RRState.start ps) = true := by
    simp only [RRState.cond, RRState.start, decide_eq_true_eq]
    exact List.length_pos.mpr hne
  refine ⟨hc, ?_, getPositiveInt_nonneg, ?_, ?_, ?_⟩
  · simp [iterWhile, hc]
  · intro x rest hx; simp [getPositiveInt, hx]
  · intro x rest hx
    have : ¬ 0 ≤ x := by omega
    simp [getPositiveInt, this]
  · intro rest; rfl

/-- C11 (amended), applied to the scenario with quantum 0. -/
theorem RR_no_quantum_check_witness :
    RRState.cond (RRState.start scenario) = true ∧
    iterWhile RRState.cond (RR_step 0) 1 (RRState.start scenario) =
      RR_step 0 (RRState.start scenario) ∧
    getPositiveInt (some 0 :: [some 4]) = some (0, [some 4]) :=
  have h := RR_no_quantum_check scenario 0 (by decide)
  ⟨h.1, h.2.1, h.2.2.2.1 0 [some 4] (by decide)⟩

/-- C12 (as stated, refuted): `main` accepts 0 as the number of processes and
runs the four policies on the empty vector without an error; each returns
with `currentTime` 0 and an empty Gantt vector, and the metrics code then
divides by the process count 0 and by `currentTime` 0. -/
theorem empty_process_set_not_rejected :
    main 0 [some 0, some 1] = some
      { fcfs := { processes := [], currentTime := 0, gantt := [] },
        srtf := { processes := [], finished := [], currentTime := 0, completed := 0, gantt := [] },
        prio := { processes := [], finished := [], currentTime := 0, completed := 0, gantt := [] },
        rr := { processes := [], inQueue := [], q := [], currentTime := 0, completed := 0,
                gantt := [] } } ∧
    (computeMetrics (FCFS []).processes (FCFS []).currentTime).count = 0 ∧
    (computeMetrics (FCFS []).processes (FCFS []).currentTime).elapsed = 0 ∧
    (SRTF [] 0).map (fun r => computeMetrics r.processes r.currentTime) =
      some { totalWT := 0, totalTAT := 0, totalBurst := 0, count := 0, elapsed := 0 } ∧
    (PreemptivePriority [] 0).map (fun r => computeMetrics r.processes r.currentTime) =
      some { totalWT := 0, totalTAT := 0, totalBurst := 0, count := 0, elapsed := 0 } ∧
    (RoundRobin [] 1 0).map (fun r => computeMetrics r.processes r.currentTime) =
      some { totalWT := 0, totalTAT := 0, totalBurst := 0, count := 0, elapsed := 0 } := by
  decide

/-- C12 (amended): invoked with zero processes, none of the four policies
raises an error: the scheduling loop of each performs no iteration and is
left at once with `currentTime` 0, an empty Gantt vector and no process
record, for every iteration bound and every quantum, and control goes on to
the metrics code. -/
theorem empty_process_set_runs_no_iteration (tq : Int) (fuel : Nat) :
    FCFS [] = { processes := [], currentTime := 0, gantt := [] } ∧
    SRTF [] fuel = some (SimState.start []) ∧
    PreemptivePriority [] fuel = some (SimState.start []) ∧
    RoundRobin [] tq fuel = some (RRState.start []) ∧
    (SimState.start []).currentTime = 0 ∧ (SimState.start []).gantt = [] ∧
    (SimState.start []).processes = [] ∧
    (RRState.start []).currentTime = 0 ∧ (RRState.start []).gantt = [] ∧
    (RRState.start []).processes = [] := by
  have h1 : ∀ (step : SimState → SimState) (k : Nat),
      iterWhile SimState.cond step k (SimState.start []) = SimState.start [] := by
    intro step k
    cases k with
    | zero => rfl
    | succ k => simp [iterWhile, SimState.cond, SimState.start]
  have h2 : ∀ (k : Nat),
      iterWhile RRState.cond (RR_step tq) k (RRState.start []) = RRState.start [] := by
    intro k
    cases k with
    | zero => rfl
    | succ k => simp [iterWhile, RRState.cond, RRState.start]
  refine ⟨rfl, ?_, ?_, ?_, rfl, rfl, rfl, rfl, rfl, rfl⟩
  · unfold SRTF whileFuel; rw [h1]; rfl
  · unfold PreemptivePriority whileFuel; rw [h1]; rfl
  · unfold RoundRobin whileFuel; rw [h2]; rfl

/-- C14: `resetProcesses` keeps the length and order of the list, sets each
process's remainingTime to its burstTime and its startTime and completionTime
to 0, leaves pid, arrivalTime, burstTime and priority unchanged, and applying
it twice gives the same list as applying it once. -/
theorem resetProcesses_spec (ps : List Process) :
    (resetProcesses ps).length = ps.length ∧
    (∀ i, i < ps.length →
      (procAt (resetProcesses ps) i).remainingTime = (procAt ps i).burstTime ∧
      (procAt (resetProcesses ps) i).startTime = 0 ∧
      (procAt (resetProcesses ps) i).completionTime = 0 ∧
      (procAt (resetProcesses ps) i).pid = (procAt ps i).pid ∧
      (procAt (resetProcesses ps) i).arrivalTime = (procAt ps i).arrivalTime ∧
      (procAt (resetProcesses ps) i).burstTime = (procAt ps i).burstTime ∧
      (procAt (resetProcesses ps) i).priority = (procAt ps i).priority) ∧
    resetProcesses (resetProcesses ps) = resetProcesses ps := by
  refine ⟨by simp [resetProcesses], ?_, ?_⟩
  · intro i hi
    unfold resetProcesses
    rw [procAt_map _ _ _ hi]
    exact ⟨rfl, rfl, rfl, rfl, rfl, rfl, rfl⟩
  · unfold resetProcesses
    rw [List.map_map]
    rfl

/-- C14, applied to the final process table of FCFS on the scenario. -/
theorem resetProcesses_spec_witness :
    (procAt (resetProcesses (FCFS scenario).processes) 1).remainingTime =
      (procAt (FCFS scenario).processes 1).burstTime ∧
    (procAt (resetProcesses (FCFS scenario).processes) 1).startTime = 0 ∧
    resetProcesses (resetProcesses (FCFS scenario).processes) =
      resetProcesses (FCFS scenario).processes :=
  have h := resetProcesses_spec (FCFS scenario).processes
  ⟨(h.2.1 1 (by decide)).1, (h.2.1 1 (by decide)).2.1, h.2.2⟩

/-- C15 (as stated, refuted): on the scenario SRTF completes P2 at time 5, not 7. -/
theorem SRTF_scenario_P2_completes_at_5 :
    (SRTF scenario 9).map (fun r => (procAt r.processes 1).completionTime) = some 5 ∧
    (SRTF scenario 9).map (fun r => (procAt r.processes 1).completionTime) ≠ some 7 := by
  decide

/-- C15 (amended): on the scenario P1(0,5,prio 2), P2(1,3,prio 1), P3(2,1,prio 3)
SRTF runs P1 for the unit starting at t=0, P2 runs the unit starting at t=1
(preempting P1, which has 4 units left), and the completion times are P3 at
3, P2 at 5 and P1 at 9; the Gantt vector is P1 P2 P3 P2 P2 P1 P1 P1 P1. -/
theorem SRTF_scenario :
    (SRTF scenario 9).map (fun r => r.gantt) = some [1, 2, 3, 2, 2, 1, 1, 1, 1] ∧
    (SRTF_step (SimState.start scenario)).gantt = [1] ∧
    (procAt (SRTF_step (SimState.start scenario)).processes 0).remainingTime = 4 ∧
    SRTF_select (SRTF_step (SimState.start scenario)) = some 1 ∧
    (SRTF scenario 9).map (fun r => r.processes.map (fun p => p.completionTime)) =
      some [9, 5, 3] ∧
    (SRTF scenario 9).map (fun r => r.currentTime) = some 9 := by
  decide

/-- C20: `getPositiveInt` accepts the entry 0; and for every process list with
a process `z` whose burstTime is 0 (remainingTime = burstTime at entry), and
any quantum, the loops of PreemptivePriority and RoundRobin never end: after
any number `k` of iterations the loop condition `completed < n` still holds,
process `z` still has remainingTime 0, so fails the test `remainingTime > 0`,
and is neither flagged finished nor enqueued; no iteration bound makes the
loop return. -/
theorem zero_burst_never_completes (ps : List Process) (tq : Int) (z : Nat)
    (hz : z < ps.length) (hb : (procAt ps z).burstTime = 0)
    (hr : (procAt ps z).remainingTime = (procAt ps z).burstTime) :
    (∀ rest, getPositiveInt (some 0 :: rest) = some (0, rest)) ∧
    (∀ k, (iterWhile SimState.cond Priority_step k (SimState.start ps)).cond = true ∧
      (procAt (iterWhile SimState.cond Priority_step k (SimState.start ps)).processes z).remainingTime
        = 0 ∧
      flagAt (iterWhile SimState.cond Priority_step k (SimState.start ps)).finished z = false) ∧
    (∀ fuel, PreemptivePriority ps fuel = none) ∧
    (∀ k, (iterWhile RRState.cond (RR_step tq) k (RRState.start ps)).cond = true ∧
      (procAt (iterWhile RRState.cond (RR_step tq) k (RRState.start ps)).processes z).remainingTime
        = 0 ∧
      flagAt (iterWhile RRState.cond (RR_step tq) k (RRState.start ps)).inQueue z = false ∧
      z ∉ (iterWhile RRState.cond (RR_step tq) k (RRState.start ps)).q) ∧
    (∀ fuel, RoundRobin ps tq fuel = none) := by
  have hr0 : (procAt ps z).remainingTime = 0 := by omega
  have hu : ∀ k, StuckUnit z (iterWhile SimState.cond Priority_step k (SimState.start ps)) :=
    fun k => iterWhile_inv SimState.cond Priority_step (StuckUnit z)
      (fun s hs _ => StuckUnit_step z s hs) k _ (StuckUnit_start ps z hz hr0)
  have hrr : ∀ k, StuckRR z (iterWhile RRState.cond (RR_step tq) k (RRState.start ps)) :=
    fun k => iterWhile_inv RRState.cond (RR_step tq) (StuckRR z)
      (fun s hs _ => StuckRR_dispatch tq z _ (StuckRR_arrivals z s hs)) k _
      (StuckRR_start ps z hz hr0)
  refine ⟨?_, ?_, ?_, ?_, ?_⟩
  · intro rest; rfl
  · intro k
    exact ⟨StuckUnit_cond z _ (hu k), (hu k).2.2.2.2, (hu k).2.2.2.1⟩
  · intro fuel
    unfold PreemptivePriority whileFuel
    rw [if_pos (StuckUnit_cond z _ (hu fuel))]
  · intro k
    exact ⟨StuckRR_cond z _ (hrr k), (hrr k).2.2.2.2.1, (hrr k).2.2.2.1, (hrr k).2.2.2.2.2.1⟩
  · intro fuel
    unfold RoundRobin whileFuel
    rw [if_pos (StuckRR_cond z _ (hrr fuel))]

/-- C20, applied to the table `main` builds from the entries 0, 0, 0 for one
process (arrival 0, burst 0, priority 0), with quantum 1. -/
theorem zero_burst_never_completes_witness :
    readProcesses 1 0 [some 0, some 0, some 0] = some ([mkProcess 1 0 0 0], []) ∧
    (∀ fuel, PreemptivePriority [mkProcess 1 0 0 0] fuel = none) ∧
    (∀ fuel, RoundRobin [mkProcess 1 0 0 0] 1 fuel = none) :=
  have h := zero_burst_never_completes [mkProcess 1 0 0 0] 1 0 (by decide) (by decide) (by decide)
  ⟨by decide, h.2.2.1, h.2.2.2.2⟩

/-- C16: for SRTF, PreemptivePriority and RoundRobin on a well-formed input
with quantum >= 1, after any number `k` of iterations, and so in every exit
state, a Gantt entry for the time unit `j` that carries the pid of process
`i` has arrivalTime(i) <= j; for FCFS every time `t` of the interval from
startTime up to completionTime of a process has arrivalTime <= t. -/
theorem no_run_before_arrival (ps : List Process) (tq : Int)
    (hwf : WellFormed ps) (htq : 1 ≤ tq) :
    (∀ (k j i : Nat), i < ps.length →
      (iterWhile SimState.cond SRTF_step k (SimState.start ps)).gantt[j]? =
        some (procAt ps i).pid → (procAt ps i).arrivalTime ≤ (j : Int)) ∧
    (∀ fuel r, SRTF ps fuel = some r → ∀ (j i : Nat), i < ps.length →
      r.gantt[j]? = some (procAt ps i).pid → (procAt ps i).arrivalTime ≤ (j : Int)) ∧
    (∀ (k j i : Nat), i < ps.length →
      (iterWhile SimState.cond Priority_step k (SimState.start ps)).gantt[j]? =
        some (procAt ps i).pid → (procAt ps i).arrivalTime ≤ (j : Int)) ∧
    (∀ fuel r, PreemptivePriority ps fuel = some r → ∀ (j i : Nat), i < ps.length →
      r.gantt[j]? = some (procAt ps i).pid → (procAt ps i).arrivalTime ≤ (j : Int)) ∧
    (∀ (k j i : Nat), i < ps.length →
      (iterWhile RRState.cond (RR_step tq) k (RRState.start ps)).gantt[j]? =
        some (procAt ps i).pid → (procAt ps i).arrivalTime ≤ (j : Int)) ∧
    (∀ fuel r, RoundRobin ps tq fuel = some r → ∀ (j i : Nat), i < ps.length →
      r.gantt[j]? = some (procAt ps i).pid → (procAt ps i).arrivalTime ≤ (j : Int)) ∧
    (∀ (i : Nat) (t : Int), i < ps.length →
      (procAt (FCFS ps).processes i).startTime ≤ t →
      t < (procAt (FCFS ps).processes i).completionTime →
      (procAt (FCFS ps).processes i).arrivalTime ≤ t ∧
      (procAt (FCFS ps).processes i).arrivalTime = (procAt ps i).arrivalTime ∧
      (procAt (FCFS ps).processes i).pid = (procAt ps i).pid) := by
  refine ⟨?_, ?_, ?_, ?_, ?_, ?_, ?_⟩
  · intro k j i hi h
    exact (SRTF_noEarly ps hwf k).2 j i hi h
  · intro fuel r hr j i hi h
    have := (whileFuel_eq_some hr).1
    rw [this] at h
    exact (SRTF_noEarly ps hwf fuel).2 j i hi h
  · intro k j i hi h
    exact (Priority_noEarly ps hwf k).2 j i hi h
  · intro fuel r hr j i hi h
    have := (whileFuel_eq_some hr).1
    rw [this] at h
    exact (Priority_noEarly ps hwf fuel).2 j i hi h
  · intro k j i hi h
    exact (RR_noEarly ps tq hwf htq k).2 j i hi h
  · intro fuel r hr j i hi h
    have := (whileFuel_eq_some hr).1
    rw [this] at h
    exact (RR_noEarly ps tq hwf htq fuel).2 j i hi h
  · intro i t hi h1 _
    unfold FCFS at h1 ⊢
    obtain ⟨r1, _⟩ := FCFS_loop_recurrence ps 0 [] i hi
    obtain ⟨f1, f2, _, _⟩ := FCFS_loop_fields ps 0 [] i hi
    refine ⟨?_, f2, f1⟩
    have := le_max_right (if i = 0 then 0 else
      (procAt (FCFS_loop ps 0 []).processes (i - 1)).completionTime) (procAt ps i).arrivalTime
    rw [f2]
    rw [r1] at h1
    exact le_trans this h1

/-- C16, applied to the scenario with quantum 2: after 4 iterations of
RoundRobin the entry of time unit 4 carries the pid of P2, which arrived at 1. -/
theorem no_run_before_arrival_witness :
    WellFormed scenario ∧
    (iterWhile RRState.cond (RR_step 2) 4 (RRState.start scenario)).gantt[4]? =
      some (procAt scenario 1).pid ∧
    (procAt scenario 1).arrivalTime ≤ ((4 : Nat) : Int) :=
  have h := no_run_before_arrival scenario 2 (by decide) (by decide)
  ⟨by decide, by decide, h.2.2.2.2.1 4 4 1 (by decide) (by decide)⟩

/-- C18: in RoundRobin on a well-formed input with quantum `tq` >= 1, when the
process `idx` dispatched in iteration `k` is preempted (its slice ends with
remainingTime > 0) the queue right after it is re-appended is `rest ++ [idx]`
with n = rest.length + 1 <= N entries; none of the next n-1 iterations
dispatches `idx`, the one after them does, and that next slice starts at a
time T with T <= t + (n-1)*tq, where t is the time the preempted slice ended;
hence T <= t + (n-1)*tq + s for every slice length s >= 0, and
T <= t + (N-1)*tq. -/
theorem RR_next_slice_bound (ps : List Process) (tq : Int) (k : Nat)
    (s : RRState) (idx : Nat) (rest : List Nat)
    (hwf : WellFormed ps) (htq : 1 ≤ tq)
    (hs : s = iterWhile RRState.cond (RR_step tq) k (RRState.start ps))
    (hq : (RR_arrivals s).q = idx :: rest)
    (hun : tq < (procAt s.processes idx).remainingTime) :
    (RR_step tq s).q = rest ++ [idx] ∧
    (rest ++ [idx]).length ≤ ps.length ∧
    (∀ j, j < rest.length → ∃ h tl,
      (RR_arrivals (iterWhile RRState.cond (RR_step tq) j (RR_step tq s))).q = h :: tl ∧
      h ≠ idx) ∧
    (∃ post,
      (RR_arrivals (iterWhile RRState.cond (RR_step tq) rest.length (RR_step tq s))).q =
        idx :: post) ∧
    (procAt (RR_step tq
      (iterWhile RRState.cond (RR_step tq) rest.length (RR_step tq s))).processes idx).startTime =
      (iterWhile RRState.cond (RR_step tq) rest.length (RR_step tq s)).currentTime ∧
    (iterWhile RRState.cond (RR_step tq) rest.length (RR_step tq s)).currentTime ≤
      (RR_step tq s).currentTime + (rest.length : Int) * tq ∧
    (∀ sl : Int, 0 ≤ sl →
      (iterWhile RRState.cond (RR_step tq) rest.length (RR_step tq s)).currentTime ≤
        (RR_step tq s).currentTime + (rest.length : Int) * tq + sl) ∧
    (iterWhile RRState.cond (RR_step tq) rest.length (RR_step tq s)).currentTime ≤
      (RR_step tq s).currentTime + ((ps.length : Int) - 1) * tq := by
  have hinv : RRInv tq ps s := by
    rw [hs]
    exact iterWhile_inv RRState.cond (RR_step tq) (RRInv tq ps)
      (fun s hs _ => RR_step_inv tq ps htq hwf s hs) k _ (RRInv_start tq ps hwf)
  have hinv2 := RR_step_inv tq ps htq hwf s hinv
  obtain ⟨a1, a2, a3, a4, a5, a6, a7⟩ := RR_arrivals_spec s (by rw [hinv.1, hinv.2.1])
  obtain ⟨p, q1, q2, q3, q4, q5, q6, q7, e1, e2, e3, e4, e5, e6⟩ :=
    RR_dispatch_cons tq (RR_arrivals s) idx rest hq
  rw [a1] at q5
  have hmin : min tq (procAt s.processes idx).remainingTime = tq := by omega
  rw [hmin] at q5
  have hp : 0 < p.remainingTime := by omega
  rw [if_pos hp] at e3
  have hstep : RR_step tq s = RR_dispatch tq (RR_arrivals s) := rfl
  have hq2 : (RR_step tq s).q = rest ++ idx :: [] := by rw [hstep, e3]
  obtain ⟨⟨post1, r1⟩, r2, r3, r4, r5⟩ :=
    RR_head_reached tq ps htq hwf idx rest [] (RR_step tq s) hinv2 hq2
  have hlen : (rest ++ [idx]).length ≤ ps.length := by
    apply length_le_of_nodup_lt
    · rw [← hq2]; exact hinv2.2.2.2.2.2.1
    · intro i hi
      rw [← hq2] at hi
      exact (hinv2.2.2.2.2.2.2.1 i hi).1
  generalize hS2 : iterWhile RRState.cond (RR_step tq) rest.length (RR_step tq s) = s2
    at r1 r2 r3 r4
  obtain ⟨b1, b2, b3, b4, b5, b6, b7⟩ := RR_arrivals_spec s2 (by rw [r2.1, r2.2.1])
  have hq3 : (RR_arrivals s2).q = idx :: (post1 ++ RR_newArrivals s2) := by
    rw [b5, r1]
    simp [RR_newArrivals]
  obtain ⟨p2, _, _, _, _, _, s6, _, f1, _⟩ := RR_dispatch_cons tq (RR_arrivals s2) idx _ hq3
  have hidx : idx < s2.processes.length := by
    rw [r2.1]
    exact (r2.2.2.2.2.2.2.1 idx (by rw [r1]; exact List.mem_cons_self _ _)).1
  have hmul : (rest.length : Int) * tq ≤ ((ps.length : Int) - 1) * tq := by
    apply mul_le_mul_of_nonneg_right _ (by omega)
    simp only [List.length_append, List.length_singleton] at hlen
    omega
  refine ⟨by rw [hq2], hlen, r5, ⟨_, hq3⟩, ?_, r4, ?_, ?_⟩
  · have : RR_step tq s2 = RR_dispatch tq (RR_arrivals s2) := rfl
    rw [this, f1, procAt_set, if_pos ⟨rfl, by rw [b1]; exact hidx⟩, s6, b2]
  · intro sl hsl
    generalize (rest.length : Int) * tq = X at r4 ⊢
    omega
  · generalize (rest.length : Int) * tq = X at r4 hmul
    generalize ((ps.length : Int) - 1) * tq = Y at hmul ⊢
    omega

/-- C18, applied to the scenario with quantum 2 at its second iteration: P1 is
preempted at t = 4 with queue [P2, P3, P1]; its next slice starts at 7 <= 4 + 2*2. -/
theorem RR_next_slice_bound_witness :
    (RR_step 2 (iterWhile RRState.cond (RR_step 2) 1 (RRState.start scenario))).q =
      [1, 2] ++ [0] ∧
    (RR_step 2 (iterWhile RRState.cond (RR_step 2) 1 (RRState.start scenario))).currentTime = 4 ∧
    (iterWhile RRState.cond (RR_step 2) [1, 2].length
      (RR_step 2 (iterWhile RRState.cond (RR_step 2) 1 (RRState.start scenario)))).currentTime
      = 7 ∧
    (iterWhile RRState.cond (RR_step 2) [1, 2].length
      (RR_step 2 (iterWhile RRState.cond (RR_step 2) 1 (RRState.start scenario)))).currentTime ≤
      (RR_step 2 (iterWhile RRState.cond (RR_step 2) 1 (RRState.start scenario))).currentTime
        + (([1, 2] : List Nat).length : Int) * 2 :=
  have h := RR_next_slice_bound scenario 2 1
    (iterWhile RRState.cond (RR_step 2) 1 (RRState.start scenario)) 0 [1, 2]
    (by decide) (by decide) rfl (by decide) (by decide)
  ⟨h.1, by decide, by decide, h.2.2.2.2.2.1⟩

/-- C13 (code evaluated at the failing inputs): the single process P1 with
arrivalTime 0 and burstTime INT_MAX is a valid input, yet the SRTF loop does
not end on it: for every iteration bound it has not returned; the same holds
for the PreemptivePriority loop on P1 with arrivalTime 0, burstTime 1 and
priority INT_MAX.  After any number of iterations `completed` is still 0. -/
theorem loops_do_not_end_at_INT_MAX :
    WellFormed [mkProcess 1 0 INT_MAX 0] ∧
    (∀ fuel, SRTF [mkProcess 1 0 INT_MAX 0] fuel = none) ∧
    (∀ k, (iterWhile SimState.cond SRTF_step k
      (SimState.start [mkProcess 1 0 INT_MAX 0])).completed = 0) ∧
    WellFormed [mkProcess 1 0 1 INT_MAX] ∧
    (∀ fuel, PreemptivePriority [mkProcess 1 0 1 INT_MAX] fuel = none) ∧
    (∀ k, (iterWhile SimState.cond Priority_step k
      (SimState.start [mkProcess 1 0 1 INT_MAX])).completed = 0) := by
  refine ⟨by decide, ?_, fun k => (SRTF_stuck_at_INT_MAX k).2, by decide, ?_,
    fun k => (Priority_stuck_at_INT_MAX k).2⟩
  · intro fuel
    obtain ⟨h1, h2⟩ := SRTF_stuck_at_INT_MAX fuel
    unfold SRTF whileFuel
    rw [if_pos (by simp [SimState.cond, h1, h2])]
  · intro fuel
    obtain ⟨h1, h2⟩ := Priority_stuck_at_INT_MAX fuel
    unfold PreemptivePriority whileFuel
    rw [if_pos (by simp [SimState.cond, h1, h2])]

end SchedSim
